import Mathlib

/-!
# Chunk planning and record scanning of the 1brc program

A shallow embedding of `splitChunks` and `processChunk` of `1brc.go`.

Modelling conventions.

* The mapped buffer is a list of bytes; Go's `int` indices are `Int`.  A mapped
  file is far shorter than `2^63 - 50` bytes, so `chunkSize*i + 50` and the
  index increments never wrap and plain integer arithmetic is exact.
* Every evaluation of an index expression `mp[i]` is recorded in an access log,
  also the one that is out of range and makes the Go runtime stop the program.
* In the scanner and the map `float64` samples are exact rationals, and
  `strconv.ParseFloat` is a parameter `parse` that either yields a number or
  fails.  The rounding of the sum and of the mean of a record update is modelled
  apart, by `F64` and `recordSample64`.
* The shared `haxmap` is a list of key/entry pairs with unique keys, and the
  pointer stored for a key is identified with the entry it points to.
* Go loops become recursion on a fuel counter: `len + 1` for the loops over the
  buffer, `n` for the loop over the chunks.  The theorems `fuelSuffices_*` show
  that the fuel is never used up, so a run ends as the Go run does: it returns,
  or it is stopped by a runtime fault or by the exit after a parse error.
* In `runChunks` the goroutines of `ProcessRows` are run one after another.  The
  interleavings of their record updates on the shared map are modelled apart, by
  `stepWorker` and `runSchedule`.
-/

namespace OneBRC

/-! ## Data model -/

abbrev Byte := Nat

/-- The newline byte. -/
def NL : Byte := 10

/-- The byte that opens a comment. -/
def HASH : Byte := 35

/-- The byte that separates key and value. -/
def SEMI : Byte := 59

/-- A Go string, kept as the bytes it was built from. -/
abbrev Key := List Byte

/-- Weather represents the data for a specific station. -/
structure Weather where
  Min : ℚ
  Max : ℚ
  Avg : ℚ
  Sum : ℚ
  Count : Int
deriving DecidableEq

/-- Chunk represents the start and end of a chunk of memory in the mapped file. -/
structure Chunk where
  Start : Int
  End : Int
deriving DecidableEq

deriving instance DecidableEq for Except

/-- The ways in which a run stops early. -/
inductive Fault where
  | indexOutOfRange (i : Int)
  | sliceOutOfRange (lo hi : Int)
  | divideByZero
  | makeSliceLen (n : Int)
  | parseFloat (field : List Byte)
  | outOfFuel
deriving DecidableEq

/-- The shared result map. -/
abbrev Results := List (Key × Weather)

/-- Entry stored for a key, if any. -/
def lookup : Results → Key → Option Weather
  | [], _ => none
  | (k', w) :: r, k => if k' = k then some w else lookup r k

/-- Map `Set`: overwrite the entry of a key or add the key. -/
def setEntry : Results → Key → Weather → Results
  | [], k, v => [(k, v)]
  | (k', w) :: r, k, v => if k' = k then (k, v) :: r else (k', w) :: setEntry r k v

/-- Map `GetOrSet`: the stored entry and `true` when the key is present, else
the given entry is stored and returned with `false`. -/
def getOrSet (m : Results) (k : Key) (v : Weather) : (Weather × Bool) × Results :=
  match lookup m k with
  | some w => ((w, true), m)
  | none => ((v, false), setEntry m k v)

/-- The update of the result map for one parsed record (lines 144-166). -/
def recordSample (m : Results) (stationName : Key) (temp : ℚ) : Results :=
  match getOrSet m stationName
      { Sum := temp, Count := 1, Min := temp, Max := temp, Avg := temp } with
  | ((w, ok), m1) =>
    if ok then
      let w1 : Weather := { w with Sum := w.Sum + temp }
      let w2 : Weather := { w1 with Count := w1.Count + 1 }
      let w3 : Weather := { w2 with Avg := w2.Sum / (w2.Count : ℚ) }
      let w4 : Weather := { w3 with Min := min w3.Min temp }
      let w5 : Weather := { w4 with Max := max w4.Max temp }
      setEntry m1 stationName w5
    else m1

/-! ## Machine state and execution -/

/-- The state a run works on: the log of buffer indices accessed so far and
the shared result map. -/
structure Machine where
  accesses : List Int
  results : Results
deriving DecidableEq

/-- A computation on the machine state that returns a value or stops with a
fault; the state reached is kept in both cases. -/
def Exec (α : Type) : Type := Machine → Except Fault α × Machine

/-- Return a value, state unchanged. -/
def Exec.ret {α : Type} (a : α) : Exec α := fun s => (Except.ok a, s)

/-- Stop with a fault. -/
def Exec.fail {α : Type} (e : Fault) : Exec α := fun s => (Except.error e, s)

/-- Sequencing: a fault ends the run. -/
def Exec.andThen {α β : Type} (x : Exec α) (f : α → Exec β) : Exec β := fun s =>
  match x s with
  | (Except.ok a, s1) => f a s1
  | (Except.error e, s1) => (Except.error e, s1)

instance : Monad Exec where
  pure := Exec.ret
  bind := Exec.andThen

/-- The byte stored at an index, when the index is inside the buffer. -/
def byteAt (buf : List Byte) (i : Int) : Option Byte :=
  if 0 ≤ i then buf[i.toNat]? else none

/-- Index expression `mp[i]`. -/
def readByte (buf : List Byte) (i : Int) : Exec Byte := fun s =>
  let s1 : Machine := { s with accesses := s.accesses ++ [i] }
  match byteAt buf i with
  | some b => (Except.ok b, s1)
  | none => (Except.error (Fault.indexOutOfRange i), s1)

/-- The indices `lo, lo+1, ..., lo+len-1`. -/
def indexRange (lo : Int) : Nat → List Int
  | 0 => []
  | len + 1 => lo :: indexRange (lo + 1) len

/-- Slice expression `mp[lo:hi]` converted to a string: the bytes are copied. -/
def readSlice (buf : List Byte) (lo hi : Int) : Exec (List Byte) := fun s =>
  if 0 ≤ lo ∧ lo ≤ hi ∧ hi ≤ buf.length then
    (Except.ok ((buf.drop lo.toNat).take (hi - lo).toNat),
      { s with accesses := s.accesses ++ indexRange lo (hi - lo).toNat })
  else (Except.error (Fault.sliceOutOfRange lo hi), s)

/-- Apply a function to the shared result map. -/
def modifyResults (f : Results → Results) : Exec Unit := fun s =>
  (Except.ok (), { s with results := f s.results })

/-! ## splitChunks -/

/-- The loop `for (*mp)[j] != '\n' { j-- }`. -/
def scanBackward (buf : List Byte) : Nat → Int → Exec Int
  | 0, _ => Exec.fail Fault.outOfFuel
  | fuel + 1, j => do
    let b ← readByte buf j
    if b ≠ NL then scanBackward buf fuel (j - 1) else pure j

/-- Assignment `chunks[i].Start = v`. -/
def setStart (chunks : List Chunk) (i : Int) (v : Int) : Exec (List Chunk) :=
  if 0 ≤ i ∧ i < chunks.length then
    pure (chunks.modify (fun c => { c with Start := v }) i.toNat)
  else Exec.fail (Fault.indexOutOfRange i)

/-- Assignment `chunks[i].End = v`. -/
def setEnd (chunks : List Chunk) (i : Int) (v : Int) : Exec (List Chunk) :=
  if 0 ≤ i ∧ i < chunks.length then
    pure (chunks.modify (fun c => { c with End := v }) i.toNat)
  else Exec.fail (Fault.indexOutOfRange i)

/-- The loop `for i := 1; i < n; i++` of `splitChunks`, from the given `i`. -/
def splitLoop (buf : List Byte) (chunkSize n : Int) : Nat → Int → List Chunk → Exec (List Chunk)
  | 0, _, _ => Exec.fail Fault.outOfFuel
  | fuel + 1, i, chunks =>
    if i < n then do
      let j ← scanBackward buf (buf.length + 1) (chunkSize * i + 50)
      let chunks ← setEnd chunks (i - 1) j
      let chunks ← setStart chunks i (j + 1)
      splitLoop buf chunkSize n fuel (i + 1) chunks
    else pure chunks

/-- splitChunks splits the memory map into n chunks with their start and end
indexes aligned around the newline character at the appropriate chunk size. -/
def splitChunks (buf : List Byte) (n : Int) : Exec (List Chunk) :=
  let l : Int := buf.length
  if n = 0 then Exec.fail Fault.divideByZero
  else
    let chunkSize := Int.tdiv l n
    if n < 0 then Exec.fail (Fault.makeSliceLen n)
    else do
      let chunks := List.replicate n.toNat (Chunk.mk 0 0)
      let chunks ← setStart chunks 0 0
      let chunks ← splitLoop buf chunkSize n n.toNat 1 chunks
      setEnd chunks (n - 1) (l - 1)

/-! ## processChunk -/

/-- The loop `for (*mp)[i] != '\n' { i++ }`. -/
def scanForward (buf : List Byte) : Nat → Int → Exec Int
  | 0, _ => Exec.fail Fault.outOfFuel
  | fuel + 1, i => do
    let b ← readByte buf i
    if b ≠ NL then scanForward buf fuel (i + 1) else pure i

/-- The loop `for i := chunkStart; i <= chunkEnd; i++` of `processChunk`, from
the given `i` and `prev`. -/
def processLoop (parse : List Byte → Option ℚ) (buf : List Byte) (chunkEnd : Int) :
    Nat → Int → Int → Exec Unit
  | 0, _, _ => Exec.fail Fault.outOfFuel
  | fuel + 1, i, prev =>
    if i ≤ chunkEnd then do
      let b ← readByte buf i
      let (i, prev) ←
        (if b = HASH then do
          let i ← scanForward buf (buf.length + 1) i
          pure (i, i + 1)
        else pure (i, prev) : Exec (Int × Int))
      let b ← readByte buf i
      if b = SEMI then do
        let stationName ← readSlice buf prev i
        let i := i + 1
        let tempStartIdx := i
        let i ← scanForward buf (buf.length + 1) i
        let field ← readSlice buf tempStartIdx i
        match parse field with
        | none => Exec.fail (Fault.parseFloat field)
        | some temp => do
          modifyResults (fun m => recordSample m stationName temp)
          processLoop parse buf chunkEnd fuel (i + 1) (i + 1)
      else processLoop parse buf chunkEnd fuel (i + 1) prev
    else pure ()

/-- processChunk processes the weather data in the given chunk. -/
def processChunk (parse : List Byte → Option ℚ) (buf : List Byte)
    (chunkStart chunkEnd : Int) : Exec Unit :=
  processLoop parse buf chunkEnd (buf.length + 1) chunkStart chunkStart

/-- The workers of `ProcessRows` run one after another, in the order in which
the chunks are listed, on the shared map. -/
def runChunks (parse : List Byte → Option ℚ) (buf : List Byte) : List Chunk → Exec Unit
  | [] => pure ()
  | c :: cs => do
    processChunk parse buf c.Start c.End
    runChunks parse buf cs

/-- The state before a run: nothing accessed yet, and the map as given. -/
def Machine.init (m : Results) : Machine := { accesses := [], results := m }

/-! ## Notions used to state the properties -/

/-- An index lies in a chunk, read as the inclusive range from `Start` to `End`;
a chunk with `Start = End + 1` holds no index. -/
def Chunk.covers (c : Chunk) (x : Int) : Prop := c.Start ≤ x ∧ x ≤ c.End

instance (c : Chunk) (x : Int) : Decidable (c.covers x) := by
  unfold Chunk.covers; infer_instance

/-- Start of the `k`-th chunk of a plan. -/
def startOf (chunks : List Chunk) (k : Nat) : Int := (chunks.getD k (Chunk.mk 0 0)).Start

/-- End of the `k`-th chunk of a plan. -/
def endOf (chunks : List Chunk) (k : Nat) : Int := (chunks.getD k (Chunk.mk 0 0)).End

/-- What the planner's loop has established when it is about to run iteration
`i`: the chunks before `i - 1` are complete. -/
structure Linked (buf : List Byte) (c : Int) (chunks : List Chunk) (i : Nat) : Prop where
  first : startOf chunks 0 = 0
  link : ∀ k, k + 1 < i → startOf chunks (k + 1) = endOf chunks k + 1
  nl : ∀ k, k + 1 < i → byteAt buf (endOf chunks k) = some NL
  bound : ∀ k, k + 1 < i → endOf chunks k ≤ c * ((k : Int) + 1) + 50
  greatest : ∀ k, k + 1 < i → ∀ m, endOf chunks k < m → m ≤ c * ((k : Int) + 1) + 50 →
    byteAt buf m ≠ some NL
  mono : ∀ k, k + 1 < i → startOf chunks k ≤ endOf chunks k + 1

/-- What a returned plan satisfies: the chunks are consecutive ranges from
index `0` to the last index of the buffer, cut after newline bytes. -/
structure Plan (buf : List Byte) (chunks : List Chunk) : Prop where
  first : startOf chunks 0 = 0
  last : endOf chunks (chunks.length - 1) = (buf.length : Int) - 1
  link : ∀ k, k + 1 < chunks.length → startOf chunks (k + 1) = endOf chunks k + 1
  nl : ∀ k, k + 1 < chunks.length → byteAt buf (endOf chunks k) = some NL
  mono : ∀ k, k < chunks.length → startOf chunks k ≤ endOf chunks k + 1


/-- The buffer made of the given lines, each followed by a newline byte. -/
def render : List (List Byte) → List Byte
  | [] => []
  | l :: ls => l ++ NL :: render ls

/-- What the scanner takes from one line (given without its newline) that holds
a `#` or a `;`: nothing when a `#` comes first, else the bytes before the first
`;` as key and the bytes after it as value field. -/
def scanLine : List Byte → Option (Key × List Byte)
  | [] => none
  | b :: rest =>
    if b = HASH then none
    else if b = SEMI then some ([], rest)
    else (scanLine rest).map (fun kv => (b :: kv.1, kv.2))

/-- The lines taken one after another: every line that yields a key and a value
field is parsed and recorded; the first field that does not parse ends the run. -/
def applyLines (parse : List Byte → Option ℚ) : List (List Byte) → Results →
    Except Fault Unit × Results
  | [], m => (Except.ok (), m)
  | l :: ls, m =>
    match scanLine l with
    | none => applyLines parse ls m
    | some (k, v) =>
      match parse v with
      | none => (Except.error (Fault.parseFloat v), m)
      | some t => applyLines parse ls (recordSample m k t)

/-- A line the scanner handles as a unit: it has no newline inside and holds a
`#` or a `;`. -/
def Marked (l : List Byte) : Prop := NL ∉ l ∧ (HASH ∈ l ∨ SEMI ∈ l)

instance (l : List Byte) : Decidable (Marked l) := by
  unfold Marked; infer_instance

/-- The entry made from a single sample. -/
def Weather.single (t : ℚ) : Weather :=
  { Min := t, Max := t, Avg := t, Sum := t, Count := 1 }

/-- The merged statistics of an entry and a further sample: `min' = min(min, sample)`,
`max' = max(max, sample)`, `sum' = sum + sample`, `count' = count + 1`,
`avg' = sum'/count'`. -/
def Weather.merge (w : Weather) (t : ℚ) : Weather :=
  { Min := min w.Min t, Max := max w.Max t, Sum := w.Sum + t, Count := w.Count + 1,
    Avg := (w.Sum + t) / ((w.Count + 1 : Int) : ℚ) }

/-- The entry of a key after one more sample for it. -/
def accumulate : Option Weather → ℚ → Weather
  | none, t => Weather.single t
  | some w, t => w.merge t

/-- A sequence of record updates applied to a map, first to last. -/
def applyUpdates (m : Results) (ups : List (Key × ℚ)) : Results :=
  ups.foldl (fun acc u => recordSample acc u.1 u.2) m

/-- The update a line gives rise to, if any: its key and its parsed value. -/
def lineUpdate (parse : List Byte → Option ℚ) (l : List Byte) : Option (Key × ℚ) :=
  match scanLine l with
  | none => none
  | some (k, v) => (parse v).map (fun t => (k, t))

/-- The updates of a run of lines, in file order. -/
def updates (parse : List Byte → Option ℚ) (lines : List (List Byte)) : List (Key × ℚ) :=
  lines.filterMap (lineUpdate parse)

/-- A line whose value field the parser rejects. -/
def BadField (parse : List Byte → Option ℚ) (l : List Byte) : Prop :=
  ∃ k v, scanLine l = some (k, v) ∧ parse v = none

/-- The samples of a key in a sequence of updates, in order. -/
def samplesFor (k : Key) (ups : List (Key × ℚ)) : List ℚ :=
  (ups.filter (fun u => u.1 = k)).map Prod.snd

/-- The invariant of an entry whose values are exact numbers. -/
def Weather.Valid (w : Weather) : Prop :=
  1 ≤ w.Count ∧ w.Avg = w.Sum / (w.Count : ℚ) ∧ w.Min ≤ w.Avg ∧ w.Avg ≤ w.Max

/-- An entry summarises a list of samples: count, sum, least, greatest and mean. -/
def Summarises (w : Weather) (xs : List ℚ) : Prop :=
  w.Count = (xs.length : Int) ∧ w.Sum = xs.sum ∧
    (w.Min ∈ xs ∧ ∀ x ∈ xs, w.Min ≤ x) ∧ (w.Max ∈ xs ∧ ∀ x ∈ xs, x ≤ w.Max) ∧
    w.Avg = w.Sum / (w.Count : ℚ)

/-! ## The input format -/

/-- A comment line: its first byte is `#`. -/
def isComment (l : List Byte) : Prop := l.head? = some HASH

instance (l : List Byte) : Decidable (isComment l) := by
  unfold isComment; infer_instance

/-- A data line `key;value`: not a comment, and it holds a `;`. -/
def isData (l : List Byte) : Prop := ¬ isComment l ∧ SEMI ∈ l

instance (l : List Byte) : Decidable (isData l) := by
  unfold isData; infer_instance

/-- Key of a data line: the bytes from the start of the line up to its first `;`. -/
def keyOf (l : List Byte) : Key := l.takeWhile (fun b => decide (b ≠ SEMI))

/-- Value field of a data line: the bytes between its first `;` and the newline. -/
def valueOf (l : List Byte) : List Byte := (l.dropWhile (fun b => decide (b ≠ SEMI))).drop 1

/-- A line of a well-formed buffer, given without its newline: a comment line
or a `key;value` line. -/
def FormatLine (l : List Byte) : Prop := NL ∉ l ∧ (isComment l ∨ isData l)

instance (l : List Byte) : Decidable (FormatLine l) := by
  unfold FormatLine; infer_instance

/-- The data lines of a key, in file order. -/
def dataLines (k : Key) (lines : List (List Byte)) : List (List Byte) :=
  lines.filter (fun l => decide (isData l ∧ keyOf l = k))

/-- The parsed values of the data lines of a key, in file order. -/
def dataValues (parse : List Byte → Option ℚ) (k : Key) (lines : List (List Byte)) : List ℚ :=
  (dataLines k lines).filterMap (fun l => parse (valueOf l))

/-- Value of a run of decimal digits. -/
def digitsValue (ds : List Byte) : Option Nat :=
  ds.foldl (fun acc b =>
    match acc with
    | none => none
    | some n => if 48 ≤ b ∧ b ≤ 57 then some (10 * n + (b - 48)) else none) (some 0)

/-- A parser of unsigned plain decimals such as `10.0`, the part of the input
language of `strconv.ParseFloat` that the examples use.  The general theorems
hold for every parser. -/
def parseDecimal (field : List Byte) : Option ℚ :=
  let ip := field.takeWhile (fun b => decide (b ≠ 46))
  let fp := (field.dropWhile (fun b => decide (b ≠ 46))).drop 1
  if ip = [] then none
  else
    match digitsValue (ip ++ fp) with
    | none => none
    | some n => some ((n : ℚ) / ((10 ^ fp.length : Nat) : ℚ))

/-- The bytes of an ASCII text. -/
def ascii (s : String) : List Byte := s.data.map Char.toNat

/-! ## The coordinator, with the workers run one after another -/

/-- ProcessRows splits the buffer and processes the chunks on a new result map;
the workers are run in the order of their chunks. -/
def ProcessRows (parse : List Byte → Option ℚ) (buf : List Byte) (maxGoroutines : Int) :
    Exec Unit := do
  let chunks ← splitChunks buf maxGoroutines
  modifyResults (fun _ => [])
  runChunks parse buf chunks

/-- A computation keeps a property of the result map. -/
def Keeps (P : Results → Prop) {α : Type} (x : Exec α) : Prop :=
  ∀ s, P s.results → P (x s).2.results

/-- The updates that the data lines of a buffer stand for, in file order: the
key and the parsed value of every data line whose value parses. -/
def dataUpdates (parse : List Byte → Option ℚ) (lines : List (List Byte)) : List (Key × ℚ) :=
  lines.filterMap (fun l =>
    if isData l then (parse (valueOf l)).map (fun t => (keyOf l, t)) else none)

/-- Every index in the access log of a state lies inside the buffer. -/
def InRangeLog (buf : List Byte) (s : Machine) : Prop :=
  ∀ a ∈ s.accesses, 0 ≤ a ∧ a < (buf.length : Int)

/-- A computation that, when it returns, has accessed the buffer only at
indices inside it. -/
def OkInRange (buf : List Byte) {α : Type} (x : Exec α) : Prop :=
  ∀ (s : Machine) (r : α) (s' : Machine),
    InRangeLog buf s → x s = (Except.ok r, s') → InRangeLog buf s'

/-- A computation that never stops for lack of fuel: the bound on the number
of iterations is never reached. -/
def FuelSuffices {α : Type} (x : Exec α) : Prop :=
  ∀ s : Machine, (x s).1 ≠ Except.error Fault.outOfFuel

/-! ## Lines and chunks -/

/-- Offset in the buffer at which line `j` starts: the length of the lines
before it, newlines included. -/
def offset (lines : List (List Byte)) (j : Nat) : Nat := (render (lines.take j)).length

/-- Number of whole lines of the buffer that end before the given position. -/
def lineIndexAt : List (List Byte) → Int → Nat
  | [], _ => 0
  | l :: ls, pos =>
    if (l.length : Int) + 1 ≤ pos then lineIndexAt ls (pos - ((l.length : Int) + 1)) + 1 else 0

/-- The lines of a chunk that is cut at line boundaries: from the line that
starts at `Start` to the line whose newline is at `End`. -/
def linesOf (lines : List (List Byte)) (c : Chunk) : List (List Byte) :=
  (lines.drop (lineIndexAt lines c.Start)).take
    (lineIndexAt lines (c.End + 1) - lineIndexAt lines c.Start)

/-- The lines of a sequence of chunks, chunk after chunk. -/
def chunkLines (lines : List (List Byte)) : List Chunk → List (List Byte)
  | [] => []
  | c :: cs => linesOf lines c ++ chunkLines lines cs

/-- A chunk cut at line boundaries: it starts where line `a` starts and ends
with the newline of line `b - 1`. -/
def Aligned (lines : List (List Byte)) (c : Chunk) : Prop :=
  ∃ a b : Nat, a ≤ b ∧ b ≤ lines.length ∧
    c.Start = (offset lines a : Int) ∧ c.End + 1 = (offset lines b : Int)

/-- Line `p` of the buffer lies inside a chunk, newline included. -/
def lineInside (lines : List (List Byte)) (p : Nat) (c : Chunk) : Prop :=
  c.Start ≤ (offset lines p : Int) ∧
    (offset lines p : Int) + ((lines.getD p []).length : Int) ≤ c.End

instance (lines : List (List Byte)) (p : Nat) (c : Chunk) : Decidable (lineInside lines p c) := by
  unfold lineInside; infer_instance

/-! ## Pre- and postconditions of runs -/

/-- From a state that satisfies `P`, the computation either returns a value
and a state that satisfy `Q`, or stops with a fault and a state that satisfy `E`. -/
def Triple {α : Type} (P : Machine → Prop) (x : Exec α) (Q : α → Machine → Prop)
    (E : Fault → Machine → Prop) : Prop :=
  ∀ s : Machine, P s →
    match x s with
    | (Except.ok a, s1) => Q a s1
    | (Except.error e, s1) => E e s1

/-- Every index in the access log of a state lies between two bounds. -/
def Within (lo hi : Int) (s : Machine) : Prop :=
  ∀ a ∈ s.accesses, lo ≤ a ∧ a ≤ hi

/-! ## Lines without `#` and `;` -/

/-- A line that holds neither a `#` nor a `;` (for instance the empty line). -/
def Unmarked (l : List Byte) : Prop := NL ∉ l ∧ HASH ∉ l ∧ SEMI ∉ l

instance (l : List Byte) : Decidable (Unmarked l) := by
  unfold Unmarked; infer_instance

/-- The bytes the scanner handles as a unit for a group of lines, some unmarked
lines followed by a marked one: the unmarked lines with their newlines, then
the marked line (given without its newline). -/
def unitOf (g : List (List Byte) × List Byte) : List Byte := render g.1 ++ g.2

/-- The lines of a sequence of groups, in file order. -/
def groupLines : List (List (List Byte) × List Byte) → List (List Byte)
  | [] => []
  | g :: gs => g.1 ++ g.2 :: groupLines gs

/-! ## Workers that run concurrently on the shared map

The goroutines started by `ProcessRows` share the map and the entries its
pointers lead to.  A worker reads the buffer, which nobody writes, and acts on
the shared state only in its record updates (lines 144-166).  Below, a worker
is the sequence of record updates its chunk delivers, and one record update is
a sequence of steps: the call of `GetOrSet`, for each of the statements
`w.Sum += temp`, `w.Count++`, `w.Avg = w.Sum / float64(w.Count)`,
`w.Min = min(w.Min, temp)`, `w.Max = max(w.Max, temp)` the loads of the fields
it reads and the store of the field it writes, and the call of `Set`.  The two
map calls are taken as atomic.  A schedule picks the worker that makes the next
step.  `stepWorkerAtomic` is the coarser view in which each field statement is
one step. -/

/-- A worker between two steps: the record updates still to make (the current
one first), the position inside the current update, and the values last loaded
from the entry of the current key. -/
structure Worker where
  todo : List (Key × ℚ)
  pc : Nat
  reg : ℚ
  regCount : Int
deriving DecidableEq

/-- A worker that has made no step yet. -/
def Worker.start (ups : List (Key × ℚ)) : Worker :=
  { todo := ups, pc := 0, reg := 0, regCount := 0 }

/-- One step of a worker on the shared map.  The pointer `w` obtained from
`GetOrSet` is the entry stored for the key; a key is never removed, so the
entry is there at every later step of the update. -/
def stepWorker (m : Results) (w : Worker) : Results × Worker :=
  match w.todo with
  | [] => (m, w)
  | (stationName, temp) :: rest =>
    match lookup m stationName, w.pc with
    | none, 0 =>
      (setEntry m stationName
          { Sum := temp, Count := 1, Min := temp, Max := temp, Avg := temp },
        { w with todo := rest, pc := 0 })
    | none, _ + 1 => (m, w)
    | some _, 0 => (m, { w with pc := 1 })
    | some e, 1 => (m, { w with pc := 2, reg := e.Sum })
    | some e, 2 => (setEntry m stationName { e with Sum := w.reg + temp }, { w with pc := 3 })
    | some e, 3 => (m, { w with pc := 4, regCount := e.Count })
    | some e, 4 =>
      (setEntry m stationName { e with Count := w.regCount + 1 }, { w with pc := 5 })
    | some e, 5 => (m, { w with pc := 6, reg := e.Sum })
    | some e, 6 => (m, { w with pc := 7, regCount := e.Count })
    | some e, 7 =>
      (setEntry m stationName { e with Avg := w.reg / (w.regCount : ℚ) }, { w with pc := 8 })
    | some e, 8 => (m, { w with pc := 9, reg := e.Min })
    | some e, 9 => (setEntry m stationName { e with Min := min w.reg temp }, { w with pc := 10 })
    | some e, 10 => (m, { w with pc := 11, reg := e.Max })
    | some e, 11 =>
      (setEntry m stationName { e with Max := max w.reg temp }, { w with pc := 12 })
    | some e, _ + 12 => (setEntry m stationName e, { w with todo := rest, pc := 0 })

/-- The step of the worker with the given number; no worker, no step. -/
def stepAt (m : Results) (ws : List Worker) (i : Nat) : Results × List Worker :=
  match ws[i]? with
  | none => (m, ws)
  | some w => ((stepWorker m w).1, ws.set i (stepWorker m w).2)

/-- The workers run under a schedule, the list of the workers that step. -/
def runSchedule (m : Results) (ws : List Worker) : List Nat → Results × List Worker
  | [] => (m, ws)
  | i :: rest => runSchedule (stepAt m ws i).1 (stepAt m ws i).2 rest

/-- All workers have made all their updates. -/
def Finished (ws : List Worker) : Prop := ∀ w ∈ ws, w.todo = []

instance (ws : List Worker) : Decidable (Finished ws) := by
  unfold Finished; infer_instance

/-- A schedule for two workers, of which the first has two updates and the
second one, all for one key: the first worker makes its first update, then
both call `GetOrSet`, both load `Sum` before either stores it, both load
`Count` before either stores it, and then each completes its update. -/
def raceSchedule : List Nat :=
  [0, 0, 1, 0, 1, 0, 1, 0, 1, 0, 1] ++ List.replicate 8 0 ++ List.replicate 8 1

/-- The schedule in which the workers run one after another, each for the given
number of steps. -/
def sequentialSchedule : Nat → List Nat → List Nat
  | _, [] => []
  | i, n :: ns => List.replicate n i ++ sequentialSchedule (i + 1) ns

/-- The lines of a buffer of 105 bytes that `splitChunks` cuts for two workers
after the newline at index 100: two records and a comment in the first chunk,
one record in the second, all for the key `A`. -/
def raceLines : List (List Byte) :=
  [ascii "A;1", ascii "A;2", HASH :: List.replicate 91 120, ascii "A;4"]

/-- One step of a worker when each of the five field statements is taken as
one indivisible step (load and store together): the coarser view of lines
157-161, used to tell which interleavings lose an update. -/
def stepWorkerAtomic (m : Results) (w : Worker) : Results × Worker :=
  match w.todo with
  | [] => (m, w)
  | (stationName, temp) :: rest =>
    match lookup m stationName, w.pc with
    | none, 0 =>
      (setEntry m stationName
          { Sum := temp, Count := 1, Min := temp, Max := temp, Avg := temp },
        { w with todo := rest, pc := 0 })
    | none, _ + 1 => (m, w)
    | some _, 0 => (m, { w with pc := 1 })
    | some e, 1 => (setEntry m stationName { e with Sum := e.Sum + temp }, { w with pc := 2 })
    | some e, 2 => (setEntry m stationName { e with Count := e.Count + 1 }, { w with pc := 3 })
    | some e, 3 =>
      (setEntry m stationName { e with Avg := e.Sum / (e.Count : ℚ) }, { w with pc := 4 })
    | some e, 4 => (setEntry m stationName { e with Min := min e.Min temp }, { w with pc := 5 })
    | some e, 5 => (setEntry m stationName { e with Max := max e.Max temp }, { w with pc := 6 })
    | some e, _ + 6 => (setEntry m stationName e, { w with todo := rest, pc := 0 })

/-- The step of the worker with the given number, field statements indivisible. -/
def stepAtAtomic (m : Results) (ws : List Worker) (i : Nat) : Results × List Worker :=
  match ws[i]? with
  | none => (m, ws)
  | some w => ((stepWorkerAtomic m w).1, ws.set i (stepWorkerAtomic m w).2)

/-- The workers run under a schedule, field statements indivisible. -/
def runScheduleAtomic (m : Results) (ws : List Worker) : List Nat → Results × List Worker
  | [] => (m, ws)
  | i :: rest => runScheduleAtomic (stepAtAtomic m ws i).1 (stepAtAtomic m ws i).2 rest

/-- The `Sum` stored for a key, `0` when the key is absent. -/
def sumOf (m : Results) (k : Key) : ℚ :=
  match lookup m k with
  | none => 0
  | some e => e.Sum

/-- The `Count` stored for a key, `0` when the key is absent. -/
def countOf (m : Results) (k : Key) : Int :=
  match lookup m k with
  | none => 0
  | some e => e.Count

/-- What a worker has still to add to the `Sum` of a key when field statements
are indivisible: the sample of the current update, until `w.Sum += temp` is
done, and the samples of the later updates. -/
def owedSum (k : Key) (w : Worker) : ℚ :=
  match w.todo with
  | [] => 0
  | (k0, t0) :: rest => (if k0 = k ∧ w.pc ≤ 1 then t0 else 0) + (samplesFor k rest).sum

/-- What a worker has still to add to the `Count` of a key when field
statements are indivisible. -/
def owedCount (k : Key) (w : Worker) : Int :=
  match w.todo with
  | [] => 0
  | (k0, _) :: rest =>
    (if k0 = k ∧ w.pc ≤ 2 then 1 else 0) + ((samplesFor k rest).length : Int)

/-! ## The `float64` arithmetic of a record update

The fields `Min`, `Max`, `Avg` and `Sum` of a stored entry are `float64` values, and
`w.Sum += temp` and `w.Sum / float64(w.Count)` round.  Every finite `float64` is an integer
multiple of `2^-1074`, the least positive one; a finite value is kept below as its sign and that
multiple, so sums, quotients and their rounding to 53 significant bits (to nearest, ties to
even) are computed on integers.  `Weather64` and `recordSample64` are the entry and the record
update of lines 19-25 and 144-166 in this arithmetic; `Count` is an integer as before. -/

/-- A `float64` value: not a number, an infinity, or a finite value `± k * 2^-1074`. -/
inductive F64 where
  | nan
  | inf (neg : Bool)
  | fin (neg : Bool) (k : Nat)
deriving DecidableEq

/-- Number of binary digits of `n`, by halving at most `fuel` times. -/
def bitsAux : Nat → Nat → Nat
  | 0, _ => 0
  | fuel + 1, n => if n = 0 then 0 else bitsAux fuel (n / 2) + 1

/-- Number of binary digits of `n`. -/
def bits (n : Nat) : Nat := bitsAux n n

/-- The quotient `N / D` rounded to the nearest natural number with at most 53 significant
bits, ties to the one with even last significant bit. -/
def roundNearestEven (N D : Nat) : Nat :=
  let s := bits (N / D) - 53
  let g := D * 2 ^ s
  let m := N / g
  let r := N % g
  let m1 := if 2 * r < g then m else if g < 2 * r then m + 1 else m + m % 2
  m1 * 2 ^ s

/-- The multiple of `2^-1074` that the number `1` is. -/
def F64.scale : Nat := 2 ^ 1074

/-- The least multiple of `2^-1074` that is too large for a finite `float64`: `2^1024`. -/
def F64.limit : Nat := 2 ^ 2098

/-- The `float64` nearest to `± (N / D) * 2^-1074`; an infinity when that is out of range. -/
def F64.round (neg : Bool) (N D : Nat) : F64 :=
  if F64.limit ≤ roundNearestEven N D then F64.inf neg
  else F64.fin neg (roundNearestEven N D)

/-- The multiple of `2^-1074` that a finite value is (`0` for the others). -/
def F64.toInt : F64 → Int
  | F64.fin neg k => if neg then -(k : Int) else (k : Int)
  | _ => 0

/-- The sign bit. -/
def F64.signBit : F64 → Bool
  | F64.nan => false
  | F64.inf neg => neg
  | F64.fin neg _ => neg

/-- A finite value. -/
def F64.isFinite : F64 → Bool
  | F64.fin _ _ => true
  | _ => false

/-- A value that `float64` holds: a finite one has at most 53 significant bits and is below
`2^1024`. -/
def F64.Rep : F64 → Prop
  | F64.fin _ k => roundNearestEven k 1 = k ∧ k < F64.limit
  | _ => True

instance (x : F64) : Decidable x.Rep := by
  cases x <;> unfold F64.Rep <;> infer_instance

/-- Comparison `x <= y` of `float64` values: false when one of them is not a number. -/
def F64.leB : F64 → F64 → Bool
  | F64.nan, _ => false
  | _, F64.nan => false
  | F64.inf true, _ => true
  | _, F64.inf false => true
  | F64.inf false, _ => false
  | F64.fin _ _, F64.inf true => false
  | F64.fin na a, F64.fin nb b => decide ((F64.fin na a).toInt ≤ (F64.fin nb b).toInt)

instance : LE F64 := ⟨fun x y => F64.leB x y = true⟩

instance (x y : F64) : Decidable (x ≤ y) := by
  show Decidable (F64.leB x y = true); infer_instance

/-- Sum `x + y` of `float64` values. -/
def F64.add : F64 → F64 → F64
  | F64.nan, _ => F64.nan
  | _, F64.nan => F64.nan
  | F64.inf a, F64.inf b => if a = b then F64.inf a else F64.nan
  | F64.inf a, F64.fin _ _ => F64.inf a
  | F64.fin _ _, F64.inf b => F64.inf b
  | F64.fin na a, F64.fin nb b =>
    let s : Int := (F64.fin na a).toInt + (F64.fin nb b).toInt
    if s = 0 then F64.fin (na && nb) 0 else F64.round (decide (s < 0)) s.natAbs 1

/-- Quotient `x / y` of `float64` values. -/
def F64.div : F64 → F64 → F64
  | F64.nan, _ => F64.nan
  | _, F64.nan => F64.nan
  | F64.inf _, F64.inf _ => F64.nan
  | F64.inf a, F64.fin nb _ => F64.inf (xor a nb)
  | F64.fin na _, F64.inf b => F64.fin (xor na b) 0
  | F64.fin na a, F64.fin nb b =>
    if b = 0 then (if a = 0 then F64.nan else F64.inf (xor na nb))
    else F64.round (xor na nb) (a * F64.scale) b

/-- Conversion `float64(n)` of an integer. -/
def F64.ofInt (n : Int) : F64 := F64.round (decide (n < 0)) (n.natAbs * F64.scale) 1

/-- The built-in `min` on `float64` values: not a number when an argument is, and the
negative zero of two zeros. -/
def F64.min : F64 → F64 → F64
  | F64.nan, _ => F64.nan
  | _, F64.nan => F64.nan
  | x, y =>
    if F64.leB x y && !F64.leB y x then x
    else if F64.leB y x && !F64.leB x y then y
    else if x.signBit then x else y

/-- The built-in `max` on `float64` values: not a number when an argument is, and the
positive zero of two zeros. -/
def F64.max : F64 → F64 → F64
  | F64.nan, _ => F64.nan
  | _, F64.nan => F64.nan
  | x, y =>
    if F64.leB x y && !F64.leB y x then y
    else if F64.leB y x && !F64.leB x y then x
    else if x.signBit then y else x

/-- Weather represents the data for a specific station, its fields as `float64` values. -/
structure Weather64 where
  Min : F64
  Max : F64
  Avg : F64
  Sum : F64
  Count : Int
deriving DecidableEq

/-- The shared result map with `float64` entries. -/
abbrev Results64 := List (Key × Weather64)

/-- Entry stored for a key, if any. -/
def lookup64 : Results64 → Key → Option Weather64
  | [], _ => none
  | (k', w) :: r, k => if k' = k then some w else lookup64 r k

/-- Map `Set`: overwrite the entry of a key or add the key. -/
def setEntry64 : Results64 → Key → Weather64 → Results64
  | [], k, v => [(k, v)]
  | (k', w) :: r, k, v => if k' = k then (k, v) :: r else (k', w) :: setEntry64 r k v

/-- The update of the result map for one parsed record (lines 144-166), in `float64`. -/
def recordSample64 (m : Results64) (stationName : Key) (temp : F64) : Results64 :=
  match lookup64 m stationName with
  | none =>
    setEntry64 m stationName
      { Sum := temp, Count := 1, Min := temp, Max := temp, Avg := temp }
  | some w =>
    let w1 : Weather64 := { w with Sum := F64.add w.Sum temp }
    let w2 : Weather64 := { w1 with Count := w1.Count + 1 }
    let w3 : Weather64 := { w2 with Avg := F64.div w2.Sum (F64.ofInt w2.Count) }
    let w4 : Weather64 := { w3 with Min := F64.min w3.Min temp }
    let w5 : Weather64 := { w4 with Max := F64.max w4.Max temp }
    setEntry64 m stationName w5

/-- A sequence of record updates applied to a map, first to last. -/
def applyUpdates64 (m : Results64) (ups : List (Key × F64)) : Results64 :=
  ups.foldl (fun acc u => recordSample64 acc u.1 u.2) m

/-- What holds of every stored entry: `Count ≥ 1` and `Avg` is the `float64` quotient of `Sum`
by `Count`. -/
def Weather64.Stored (w : Weather64) : Prop :=
  1 ≤ w.Count ∧ w.Avg = F64.div w.Sum (F64.ofInt w.Count)

instance (w : Weather64) : Decidable w.Stored := by
  unfold Weather64.Stored; infer_instance

/-- The invariant with the stored values taken as exact numbers: the fields are finite,
`Count ≥ 1`, `Avg = Sum / Count` and `Min ≤ Avg ≤ Max`. -/
def Weather64.Exact (w : Weather64) : Prop :=
  (w.Min.isFinite = true ∧ w.Max.isFinite = true ∧ w.Avg.isFinite = true ∧
    w.Sum.isFinite = true) ∧
  1 ≤ w.Count ∧ w.Avg.toInt * w.Count = w.Sum.toInt ∧
  w.Min.toInt ≤ w.Avg.toInt ∧ w.Avg.toInt ≤ w.Max.toInt

instance (w : Weather64) : Decidable w.Exact := by
  unfold Weather64.Exact; infer_instance

/-- The `float64` nearest to `1/10`, the value of the field `0.1`. -/
def F64.tenth : F64 := F64.fin false (3602879701896397 * 2 ^ 1019)

/-- The entry made from a single sample. -/
def Weather64.single (t : F64) : Weather64 :=
  { Sum := t, Count := 1, Min := t, Max := t, Avg := t }

/-- The entry after the statements of lines 157-161 for a further sample. -/
def Weather64.merge (w : Weather64) (t : F64) : Weather64 :=
  { Min := F64.min w.Min t, Max := F64.max w.Max t, Sum := F64.add w.Sum t,
    Count := w.Count + 1,
    Avg := F64.div (F64.add w.Sum t) (F64.ofInt (w.Count + 1)) }

/-! # Theorems -/

/-! ## Execution lemmas -/

@[simp] theorem bind_run {α β : Type} (x : Exec α) (f : α → Exec β) (s : Machine) :
    (x >>= f) s = match x s with
      | (Except.ok a, s1) => f a s1
      | (Except.error e, s1) => (Except.error e, s1) := rfl

@[simp] theorem pure_run {α : Type} (a : α) (s : Machine) :
    (pure a : Exec α) s = (Except.ok a, s) := rfl

@[simp] theorem ret_run {α : Type} (a : α) (s : Machine) :
    (Exec.ret a : Exec α) s = (Except.ok a, s) := rfl

@[simp] theorem fail_run {α : Type} (e : Fault) (s : Machine) :
    (Exec.fail e : Exec α) s = (Except.error e, s) := rfl

theorem byteAt_some_iff (buf : List Byte) (i : Int) (b : Byte) :
    byteAt buf i = some b ↔ 0 ≤ i ∧ buf[i.toNat]? = some b := by
  unfold byteAt
  by_cases h : 0 ≤ i <;> simp [h]

theorem byteAt_some_range {buf : List Byte} {i : Int} {b : Byte}
    (h : byteAt buf i = some b) : 0 ≤ i ∧ i < buf.length := by
  rw [byteAt_some_iff] at h
  obtain ⟨h0, h1⟩ := h
  have := (List.getElem?_eq_some_iff.mp h1).1
  omega

theorem byteAt_none_iff (buf : List Byte) (i : Int) :
    byteAt buf i = none ↔ i < 0 ∨ (buf.length : Int) ≤ i := by
  unfold byteAt
  by_cases h : 0 ≤ i
  · simp [h]
  · simp [h]; omega

theorem readByte_some {buf : List Byte} {i : Int} {b : Byte} (h : byteAt buf i = some b)
    (s : Machine) :
    readByte buf i s = (Except.ok b, { s with accesses := s.accesses ++ [i] }) := by
  simp [readByte, h]

theorem readByte_none {buf : List Byte} {i : Int} (h : byteAt buf i = none) (s : Machine) :
    readByte buf i s =
      (Except.error (Fault.indexOutOfRange i), { s with accesses := s.accesses ++ [i] }) := by
  simp [readByte, h]

/-! ## The backward scan -/

theorem scanBackward_spec (buf : List Byte) :
    ∀ (fuel : Nat) (j : Int) (s : Machine) (r : Int) (s' : Machine),
      scanBackward buf fuel j s = (Except.ok r, s') →
      byteAt buf r = some NL ∧ r ≤ j ∧
        (∀ m, r < m → m ≤ j → byteAt buf m ≠ some NL) ∧ s'.results = s.results := by
  intro fuel
  induction fuel with
  | zero => intro j s r s' h; simp [scanBackward] at h
  | succ fuel ih =>
    intro j s r s' h
    rw [scanBackward] at h
    cases hb : byteAt buf j with
    | none => simp [readByte_none hb] at h
    | some b =>
      simp only [bind_run, readByte_some hb] at h
      by_cases hnl : b = NL
      · simp [hnl] at h
        obtain ⟨rfl, rfl⟩ := h
        refine ⟨by rw [hb, hnl], le_refl _, ?_, rfl⟩
        intro m h1 h2; omega
      · simp [hnl] at h
        obtain ⟨h1, h2, h3, h4⟩ := ih _ _ _ _ h
        refine ⟨h1, by omega, ?_, by simpa using h4⟩
        intro m hm1 hm2
        by_cases hmj : m = j
        · subst hmj; rw [hb]; simpa using hnl
        · exact h3 m hm1 (by omega)

/-! ## The chunk planner -/

theorem getD_modify (f : Chunk → Chunk) (l : List Chunk) (n k : Nat) (d : Chunk) :
    (l.modify f n).getD k d = if n = k ∧ k < l.length then f (l.getD k d) else l.getD k d := by
  simp only [List.getD_eq_getElem?_getD, List.getElem?_modify]
  by_cases hk : k < l.length
  · simp [List.getElem?_eq_getElem hk, hk]
  · simp [List.getElem?_eq_none (not_lt.mp hk), hk]

theorem startOf_modify_start (l : List Chunk) (n k : Nat) (v : Int) (hn : n < l.length) :
    startOf (l.modify (fun c => { c with Start := v }) n) k
      = if n = k then v else startOf l k := by
  unfold startOf
  rw [getD_modify]
  by_cases h : n = k
  · subst h; simp [hn]
  · simp [h]

theorem endOf_modify_start (l : List Chunk) (n k : Nat) (v : Int) :
    endOf (l.modify (fun c => { c with Start := v }) n) k = endOf l k := by
  unfold endOf
  rw [getD_modify]
  split <;> rfl

theorem endOf_modify_end (l : List Chunk) (n k : Nat) (v : Int) (hn : n < l.length) :
    endOf (l.modify (fun c => { c with End := v }) n) k
      = if n = k then v else endOf l k := by
  unfold endOf
  rw [getD_modify]
  by_cases h : n = k
  · subst h; simp [hn]
  · simp [h]

theorem startOf_modify_end (l : List Chunk) (n k : Nat) (v : Int) :
    startOf (l.modify (fun c => { c with End := v }) n) k = startOf l k := by
  unfold startOf
  rw [getD_modify]
  split <;> rfl

theorem setStart_run (chunks : List Chunk) (i v : Int) (s : Machine)
    (h : 0 ≤ i ∧ i < chunks.length) :
    setStart chunks i v s
      = (Except.ok (chunks.modify (fun c => { c with Start := v }) i.toNat), s) := by
  simp [setStart, h]

theorem setEnd_run (chunks : List Chunk) (i v : Int) (s : Machine)
    (h : 0 ≤ i ∧ i < chunks.length) :
    setEnd chunks i v s
      = (Except.ok (chunks.modify (fun c => { c with End := v }) i.toNat), s) := by
  simp [setEnd, h]

theorem splitLoop_spec (buf : List Byte) (c : Int) (N : Nat) (hc : 0 ≤ c) :
    ∀ (fuel i : Nat) (chunks : List Chunk) (s : Machine) (chunks' : List Chunk) (s' : Machine),
      1 ≤ i → i ≤ N → chunks.length = N → Linked buf c chunks i →
      splitLoop buf c N fuel i chunks s = (Except.ok chunks', s') →
      chunks'.length = N ∧ Linked buf c chunks' N ∧ s'.results = s.results := by
  intro fuel
  induction fuel with
  | zero => intro i chunks s chunks' s' _ _ _ _ h; simp [splitLoop] at h
  | succ fuel ih =>
    intro i chunks s chunks' s' hi1 hiN hlen hinv h
    rw [splitLoop] at h
    by_cases hlt : (i : Int) < N
    · have hiN' : i < N := by exact_mod_cast hlt
      simp only [hlt, if_true, bind_run] at h
      cases hscan : scanBackward buf (buf.length + 1) (c * i + 50) s with
      | mk r s1 =>
        cases r with
        | error e => simp [hscan] at h
        | ok j =>
          obtain ⟨hj1, hj2, hj3, hj4⟩ := scanBackward_spec buf _ _ _ _ _ hscan
          have hjr := byteAt_some_range hj1
          have e1 : setEnd chunks ((i : Int) - 1) j s1 = _ :=
            setEnd_run chunks ((i : Int) - 1) j s1 (by omega)
          have hcast : ((i : Int) - 1).toNat = i - 1 := by omega
          have hcast2 : ((i : Int)).toNat = i := by omega
          simp only [hscan, e1] at h
          have e2 := setStart_run (chunks.modify (fun c => { c with End := j }) (i - 1))
            (i : Int) (j + 1) s1 (by simp; omega)
          rw [hcast] at h
          simp only [e2, hcast2] at h
          have hcast3 : ((i : Int) + 1) = ((i + 1 : Nat) : Int) := by push_cast; ring
          rw [hcast3] at h
          have hlen1 : (chunks.modify (fun c => { c with End := j }) (i - 1)).length
              = chunks.length := List.length_modify _ _ _
          have key := ih (i + 1) _ s1 chunks' s' (by omega) (by omega)
            (by simp [hlen]) ?_ h
          · exact ⟨key.1, key.2.1, by rw [key.2.2, hj4]⟩
          · -- the invariant after iteration `i`
            have hs : ∀ k, startOf ((chunks.modify (fun c => { c with End := j }) (i - 1)).modify
                (fun c => { c with Start := j + 1 }) i) k
                = if i = k then j + 1 else startOf chunks k := by
              intro k
              rw [startOf_modify_start _ _ _ _ (by rw [hlen1]; omega), startOf_modify_end]
            have he : ∀ k, endOf ((chunks.modify (fun c => { c with End := j }) (i - 1)).modify
                (fun c => { c with Start := j + 1 }) i) k
                = if i - 1 = k then j else endOf chunks k := by
              intro k
              rw [endOf_modify_start, endOf_modify_end _ _ _ _ (by omega)]
            have hprev : ∀ k, k + 1 < i → endOf chunks k ≤ j := by
              intro k hk
              by_contra hcon
              have hb := hinv.bound k hk
              have hnl := hinv.nl k hk
              have : c * ((k : Int) + 1) ≤ c * (i : Int) :=
                Int.mul_le_mul_of_nonneg_left (by omega) hc
              exact hj3 (endOf chunks k) (by omega) (by omega) hnl
            constructor
            · rw [hs]; simp [show i ≠ 0 by omega, hinv.first]
            · intro k hk
              rw [hs, he]
              by_cases hk2 : k + 1 = i
              · simp [show i = k + 1 by omega, show i - 1 = k by omega]
              · simp [show ¬ i = k + 1 by omega, show ¬ i - 1 = k by omega]
                exact hinv.link k (by omega)
            · intro k hk
              rw [he]
              by_cases hk2 : k + 1 = i
              · simp [show i - 1 = k by omega, hj1]
              · simp [show ¬ i - 1 = k by omega]
                exact hinv.nl k (by omega)
            · intro k hk
              rw [he]
              by_cases hk2 : k + 1 = i
              · simp only [show i - 1 = k by omega, if_true]
                have : (i : Int) = (k : Int) + 1 := by omega
                rw [← this]; exact hj2
              · simp [show ¬ i - 1 = k by omega]
                exact hinv.bound k (by omega)
            · intro k hk m hm1 hm2
              rw [he] at hm1
              by_cases hk2 : k + 1 = i
              · simp only [show i - 1 = k by omega, if_true] at hm1
                have : (i : Int) = (k : Int) + 1 := by omega
                rw [← this] at hm2
                exact hj3 m hm1 hm2
              · simp only [show ¬ i - 1 = k by omega, if_false] at hm1
                exact hinv.greatest k (by omega) m hm1 hm2
            · intro k hk
              rw [hs, he]
              by_cases hk2 : k + 1 = i
              · simp only [show ¬ i = k by omega, show i - 1 = k by omega, if_true, if_false]
                by_cases hk0 : k = 0
                · subst hk0; rw [hinv.first]; omega
                · have hl := hinv.link (k - 1) (by omega)
                  have hp := hprev (k - 1) (by omega)
                  rw [show k - 1 + 1 = k by omega] at hl
                  omega
              · simp only [show ¬ i = k by omega, show ¬ i - 1 = k by omega, if_false]
                exact hinv.mono k (by omega)
    · have : i = N := by
        have : ¬ i < N := by intro hh; exact hlt (by exact_mod_cast hh)
        omega
      subst this
      simp [hlt] at h
      obtain ⟨rfl, rfl⟩ := h
      exact ⟨hlen, hinv, rfl⟩

theorem linked_one (buf : List Byte) (c : Int) (chunks : List Chunk)
    (h : startOf chunks 0 = 0) : Linked buf c chunks 1 :=
  ⟨h, fun k hk => by omega, fun k hk => by omega, fun k hk => by omega,
    fun k hk => by omega, fun k hk => by omega⟩

theorem splitChunks_spec (buf : List Byte) (n : Int) (s s' : Machine) (chunks : List Chunk)
    (hn : 1 ≤ n) (h : splitChunks buf n s = (Except.ok chunks, s')) :
    chunks.length = n.toNat ∧ Plan buf chunks ∧
      Linked buf (Int.tdiv buf.length n) chunks n.toNat ∧ s'.results = s.results := by
  obtain ⟨N, rfl⟩ : ∃ N : Nat, n = N := ⟨n.toNat, by omega⟩
  have hN : 1 ≤ N := by omega
  unfold splitChunks at h
  have hn0 : ¬ ((N : Int) = 0) := by omega
  have hn1 : ¬ ((N : Int) < 0) := by omega
  simp only [hn0, hn1, if_false, bind_run, Int.toNat_ofNat] at h
  have e0 := setStart_run (List.replicate N (Chunk.mk 0 0)) 0 0 s (by simp; omega)
  simp only [e0, show (0 : Int).toNat = 0 from rfl] at h
  have hc : 0 ≤ Int.tdiv (buf.length : Int) (N : Int) :=
    Int.tdiv_nonneg (by omega) (by omega)
  cases hloop : splitLoop buf (Int.tdiv (buf.length : Int) (N : Int)) N N 1
      ((List.replicate N (Chunk.mk 0 0)).modify (fun c => { c with Start := 0 }) 0) s with
  | mk r s1 =>
    have hloop' : splitLoop buf (Int.tdiv (buf.length : Int) (N : Int)) N N ((1 : Nat) : Int)
      ((List.replicate N (Chunk.mk 0 0)).modify (fun c => { c with Start := 0 }) 0) s
        = (r, s1) := by simpa using hloop
    cases r with
    | error e => simp [hloop] at h
    | ok cs =>
      have key := splitLoop_spec buf _ N hc N 1 _ s cs s1 (le_refl _) hN (by simp)
        (linked_one buf _ _ (by
          rw [startOf_modify_start _ _ _ _ (by simp; omega)]; simp)) hloop'
      obtain ⟨hlen, hlink, hres⟩ := key
      simp only [hloop] at h
      have e1 := setEnd_run cs ((N : Int) - 1) ((buf.length : Int) - 1) s1 (by omega)
      simp only [e1] at h
      have hcast : ((N : Int) - 1).toNat = N - 1 := by omega
      rw [hcast] at h
      simp only [Prod.mk.injEq, Except.ok.injEq] at h
      obtain ⟨rfl, rfl⟩ := h
      have hlen' : (cs.modify (fun c => { c with End := (buf.length : Int) - 1 }) (N - 1)).length
          = N := by rw [List.length_modify]; exact hlen
      have hs : ∀ k, startOf (cs.modify (fun c => { c with End := (buf.length : Int) - 1 })
          (N - 1)) k = startOf cs k := fun k => startOf_modify_end _ _ _ _
      have he : ∀ k, endOf (cs.modify (fun c => { c with End := (buf.length : Int) - 1 })
          (N - 1)) k = if N - 1 = k then (buf.length : Int) - 1 else endOf cs k :=
        fun k => endOf_modify_end _ _ _ _ (by omega)
      refine ⟨by simpa using hlen', ?_, ?_, hres⟩
      · constructor
        · rw [hs]; exact hlink.first
        · rw [hlen', he]; simp
        · intro k hk
          rw [hlen'] at hk
          rw [hs, he, if_neg (by omega)]
          exact hlink.link k hk
        · intro k hk
          rw [hlen'] at hk
          rw [he, if_neg (by omega)]
          exact hlink.nl k hk
        · intro k hk
          rw [hlen'] at hk
          rw [hs, he]
          by_cases hk2 : k + 1 = N
          · rw [if_pos (by omega)]
            by_cases hk0 : k = 0
            · subst hk0; rw [hlink.first]; omega
            · have hl := hlink.link (k - 1) (by omega)
              have hp := byteAt_some_range (hlink.nl (k - 1) (by omega))
              rw [show k - 1 + 1 = k by omega] at hl
              omega
          · rw [if_neg (by omega)]
            exact hlink.mono k (by omega)
      · simp only [Int.toNat_ofNat]
        constructor
        · rw [hs]; exact hlink.first
        · intro k hk; rw [hs, he, if_neg (by omega)]; exact hlink.link k hk
        · intro k hk; rw [he, if_neg (by omega)]; exact hlink.nl k hk
        · intro k hk; rw [he, if_neg (by omega)]; exact hlink.bound k hk
        · intro k hk m hm1 hm2
          rw [he, if_neg (by omega)] at hm1
          exact hlink.greatest k hk m hm1 hm2
        · intro k hk; rw [hs, he, if_neg (by omega)]; exact hlink.mono k hk

theorem Plan.end_lt_start {buf : List Byte} {chunks : List Chunk} (hp : Plan buf chunks)
    (a : Nat) : ∀ d : Nat, a + d + 1 < chunks.length →
      endOf chunks a < startOf chunks (a + d + 1) := by
  intro d
  induction d with
  | zero => intro h; have := hp.link a h; simp at this ⊢; omega
  | succ d ih =>
    intro h
    have h1 := ih (by omega)
    have h2 := hp.link (a + d + 1) (by omega)
    have h3 := hp.mono (a + d + 1) (by omega)
    rw [show a + (d + 1) + 1 = a + d + 1 + 1 by omega]
    omega

theorem Plan.start_nonneg {buf : List Byte} {chunks : List Chunk} (hp : Plan buf chunks) :
    ∀ k : Nat, k < chunks.length → 0 ≤ startOf chunks k := by
  intro k
  induction k with
  | zero => intro _; rw [hp.first]
  | succ k ih =>
    intro h
    have h1 := ih (by omega)
    have h2 := hp.link k h
    have h3 := hp.mono k (by omega)
    omega

theorem Plan.end_le {buf : List Byte} {chunks : List Chunk} (hp : Plan buf chunks)
    (k : Nat) (hk : k < chunks.length) : endOf chunks k ≤ (buf.length : Int) - 1 := by
  by_cases h : k = chunks.length - 1
  · rw [h, hp.last]
  · have h1 := hp.end_lt_start k (chunks.length - 1 - k - 1) (by omega)
    have h2 := hp.mono (chunks.length - 1) (by omega)
    have h3 := hp.last
    rw [show k + (chunks.length - 1 - k - 1) + 1 = chunks.length - 1 by omega] at h1
    omega

theorem Plan.cover_from {buf : List Byte} {chunks : List Chunk} (hp : Plan buf chunks)
    (x : Int) (hx : x < buf.length) :
    ∀ d k : Nat, k + d + 1 = chunks.length → startOf chunks k ≤ x →
      ∃ j, j < chunks.length ∧ startOf chunks j ≤ x ∧ x ≤ endOf chunks j := by
  intro d
  induction d with
  | zero =>
    intro k hk hs
    refine ⟨k, by omega, hs, ?_⟩
    have := hp.last
    rw [show chunks.length - 1 = k by omega] at this
    omega
  | succ d ih =>
    intro k hk hs
    by_cases hxe : x ≤ endOf chunks k
    · exact ⟨k, by omega, hs, hxe⟩
    · have hl := hp.link k (by omega)
      exact ih (k + 1) (by omega) (by omega)

theorem getD_of_getElem? {chunks : List Chunk} {i : Nat} {c : Chunk}
    (h : chunks[i]? = some c) : chunks.getD i (Chunk.mk 0 0) = c := by
  simp [List.getD_eq_getElem?_getD, h]

/-- C1: when `splitChunks` returns for a worker count `n ≥ 1`, it returns exactly `n` chunks,
each an inclusive range with `Start ≤ End + 1`; the chunks are pairwise disjoint, an index lies
in some chunk exactly when it is an index of the buffer, and every chunk but the first starts
right after a newline byte. -/
theorem splitChunks_partition (buf : List Byte) (n : Int) (s s' : Machine) (chunks : List Chunk)
    (hn : 1 ≤ n) (h : splitChunks buf n s = (Except.ok chunks, s')) :
    (chunks.length : Int) = n ∧
    (∀ c ∈ chunks, c.Start ≤ c.End + 1) ∧
    (∀ (a b : Nat) (ca cb : Chunk), a < b → chunks[a]? = some ca → chunks[b]? = some cb →
      ∀ x : Int, ¬ (ca.covers x ∧ cb.covers x)) ∧
    (∀ x : Int, (0 ≤ x ∧ x < buf.length) ↔ ∃ c ∈ chunks, c.covers x) ∧
    (∀ (i : Nat) (c : Chunk), 1 ≤ i → chunks[i]? = some c →
      byteAt buf (c.Start - 1) = some NL) := by
  obtain ⟨hlen, hp, -, -⟩ := splitChunks_spec buf n s s' chunks hn h
  have hidx : ∀ (i : Nat) (c : Chunk), chunks[i]? = some c →
      i < chunks.length ∧ startOf chunks i = c.Start ∧ endOf chunks i = c.End := by
    intro i c hc
    refine ⟨(List.getElem?_eq_some_iff.mp hc).1, ?_, ?_⟩
    · unfold startOf; rw [getD_of_getElem? hc]
    · unfold endOf; rw [getD_of_getElem? hc]
  refine ⟨by omega, ?_, ?_, ?_, ?_⟩
  · intro c hc
    obtain ⟨i, hi⟩ := List.getElem?_of_mem hc
    obtain ⟨h1, h2, h3⟩ := hidx i c hi
    have := hp.mono i h1
    omega
  · intro a b ca cb hab ha hb x hx
    obtain ⟨-, ha2, ha3⟩ := hidx a ca ha
    obtain ⟨hb1, hb2, hb3⟩ := hidx b cb hb
    have := hp.end_lt_start a (b - a - 1) (by omega)
    rw [show a + (b - a - 1) + 1 = b by omega] at this
    obtain ⟨⟨_, h1⟩, ⟨h2, _⟩⟩ := hx
    omega
  · intro x
    constructor
    · rintro ⟨hx0, hxL⟩
      have hpos : 0 < chunks.length := by omega
      obtain ⟨j, hj, h1, h2⟩ := hp.cover_from x hxL (chunks.length - 1) 0 (by omega)
        (by rw [hp.first]; exact hx0)
      refine ⟨chunks[j], List.getElem_mem hj, ?_⟩
      have := hidx j chunks[j] (List.getElem?_eq_getElem hj)
      unfold Chunk.covers
      omega
    · rintro ⟨c, hc, hx1, hx2⟩
      obtain ⟨i, hi⟩ := List.getElem?_of_mem hc
      obtain ⟨h1, h2, h3⟩ := hidx i c hi
      have := hp.start_nonneg i h1
      have := hp.end_le i h1
      omega
  · intro i c hi hc
    obtain ⟨h1, h2, h3⟩ := hidx i c hc
    have hl := hp.link (i - 1) (by omega)
    have hnl := hp.nl (i - 1) (by omega)
    rw [show i - 1 + 1 = i by omega] at hl
    rw [← h2, hl]
    simpa using hnl

/-- For one worker the loop of the planner does not run: the plan is the single
chunk from `0` to `L - 1` and the state is unchanged. -/
theorem splitChunks_one (buf : List Byte) (s : Machine) :
    splitChunks buf 1 s = (Except.ok [Chunk.mk 0 ((buf.length : Int) - 1)], s) := by
  simp [splitChunks, setStart, setEnd, splitLoop]

/-! ## The record scanner on whole lines -/

theorem byteAt_append (A C : List Byte) (b : Byte) :
    byteAt (A ++ b :: C) (A.length : Int) = some b := by
  unfold byteAt
  simp [List.getElem?_append_right (le_refl A.length)]

theorem byteAt_of_split {buf A C : List Byte} {b : Byte} {i : Int}
    (hbuf : buf = A ++ b :: C) (hi : i = A.length) : byteAt buf i = some b := by
  subst hbuf hi; exact byteAt_append A C b

theorem scanForward_line (buf C : List Byte) :
    ∀ (mid A : List Byte) (fuel : Nat) (i : Int) (s : Machine),
      buf = A ++ (mid ++ NL :: C) → i = A.length →
      NL ∉ mid → mid.length + 1 ≤ fuel →
      ∃ log, scanForward buf fuel i s
        = (Except.ok (i + mid.length), { s with accesses := s.accesses ++ log }) := by
  intro mid
  induction mid with
  | nil =>
    intro A fuel i s hbuf hi _ hf
    obtain ⟨f, rfl⟩ : ∃ f, fuel = f + 1 := ⟨fuel - 1, by simp at hf; omega⟩
    refine ⟨[i], ?_⟩
    rw [scanForward]
    have hb : byteAt buf i = some NL := byteAt_of_split (by simpa using hbuf) hi
    simp [readByte_some hb]
  | cons b mid ih =>
    intro A fuel i s hbuf hi hnl hf
    obtain ⟨f, rfl⟩ : ∃ f, fuel = f + 1 := ⟨fuel - 1, by simp at hf; omega⟩
    have hbn : b ≠ NL := fun h => hnl (by simp [h])
    have hmid : NL ∉ mid := fun h => hnl (by simp [h])
    have hb : byteAt buf i = some b := byteAt_of_split (by simpa using hbuf) hi
    obtain ⟨log, hlog⟩ := ih (A ++ [b]) f (i + 1) { s with accesses := s.accesses ++ [i] }
      (by simpa using hbuf) (by simp [hi]) hmid (by simp at hf ⊢; omega)
    refine ⟨i :: log, ?_⟩
    rw [scanForward]
    simp only [bind_run, readByte_some hb, hbn, ne_eq, not_false_eq_true, if_true]
    rw [hlog]
    simp
    omega

theorem readSlice_mid (buf A mid C : List Byte) (lo hi : Int) (s : Machine)
    (hbuf : buf = A ++ (mid ++ C)) (hlo : lo = A.length) (hhi : hi = lo + mid.length) :
    ∃ log, readSlice buf lo hi s
      = (Except.ok mid, { s with accesses := s.accesses ++ log }) := by
  subst hbuf hlo hhi
  refine ⟨indexRange (A.length : Int) mid.length, ?_⟩
  unfold readSlice
  have h1 : (0 : Int) ≤ A.length ∧ (A.length : Int) ≤ (A.length : Int) + mid.length ∧
      (A.length : Int) + mid.length ≤ ((A ++ (mid ++ C)).length : Nat) := by
    refine ⟨by omega, by omega, ?_⟩
    rw [List.length_append, List.length_append]; push_cast; omega
  rw [if_pos h1]
  have h2 : ((A.length : Int) + mid.length - A.length).toNat = mid.length := by omega
  simp [h2]

theorem processLoop_plain (parse : List Byte → Option ℚ) (buf : List Byte) (ce : Int) (f : Nat)
    (i prev : Int) (s : Machine) (b : Byte)
    (hb : byteAt buf i = some b) (hi : i ≤ ce) (h1 : b ≠ HASH) (h2 : b ≠ SEMI) :
    processLoop parse buf ce (f + 1) i prev s
      = processLoop parse buf ce f (i + 1) prev { s with accesses := s.accesses ++ [i, i] } := by
  rw [processLoop]
  simp only [hi, if_true, bind_run, readByte_some hb, h1, h2, if_false, pure_run]
  simp

/-- Outcome of the scanner on one line, stated for the loop at any byte of the
line before its first `#` or `;`. -/
theorem processLoop_line (parse : List Byte → Option ℚ) (buf pre post : List Byte) (ce : Int) :
    ∀ (l2 l1 : List Byte) (fuel : Nat) (i p nxt : Int) (s : Machine),
      buf = pre ++ (l1 ++ (l2 ++ NL :: post)) →
      p = pre.length → i = p + l1.length → nxt = i + l2.length + 1 →
      (∀ b ∈ l1, b ≠ HASH ∧ b ≠ SEMI) → Marked l2 →
      l2.length + 1 ≤ fuel → i + l2.length ≤ ce →
      ∃ (fuel' : Nat) (log : List Int), fuel ≤ fuel' + l2.length + 1 ∧
        processLoop parse buf ce fuel i p s
          = match scanLine l2 with
            | none =>
              processLoop parse buf ce fuel' nxt nxt { s with accesses := s.accesses ++ log }
            | some (k, v) =>
              match parse v with
              | none => (Except.error (Fault.parseFloat v),
                  { s with accesses := s.accesses ++ log })
              | some t =>
                processLoop parse buf ce fuel' nxt nxt
                  { accesses := s.accesses ++ log,
                    results := recordSample s.results (l1 ++ k) t } := by
  intro l2
  induction l2 with
  | nil =>
    intro l1 fuel i p nxt s _ _ _ _ _ hm
    exact absurd hm.2 (by simp)
  | cons b r ih =>
    intro l1 fuel i p nxt s hbuf hp hi hnxt hl1 hm hf hce
    obtain ⟨f, rfl⟩ : ∃ f, fuel = f + 1 := ⟨fuel - 1, by simp at hf; omega⟩
    have hnlr : NL ∉ r := fun h => hm.1 (by simp [h])
    have hbn : b ≠ NL := fun h => hm.1 (by simp [h])
    have hice : i ≤ ce := by simp at hce; omega
    have hb : byteAt buf i = some b :=
      byteAt_of_split (A := pre ++ l1) (C := r ++ NL :: post) (by simp [hbuf])
        (by simp [hi, hp])
    have hnl : byteAt buf (i + (b :: r).length) = some NL :=
      byteAt_of_split (A := pre ++ (l1 ++ b :: r)) (C := post) (by simp [hbuf])
        (by simp [hi, hp]; omega)
    have hnS : NL ≠ SEMI := by decide
    by_cases hh : b = HASH
    · -- a comment: skip to the newline
      obtain ⟨log, hlog⟩ := scanForward_line buf post (b :: r) (pre ++ l1) (buf.length + 1) i
        { s with accesses := s.accesses ++ [i] } (by simp [hbuf]) (by simp [hi, hp]) hm.1
        (by simp [hbuf]; omega)
      refine ⟨f, [i] ++ log ++ [i + (b :: r).length], by simp, ?_⟩
      rw [processLoop]
      simp only [hice, if_true, bind_run, readByte_some hb, pure_run, hh]
      rw [hlog]
      simp only [readByte_some hnl, hnS, scanLine, if_true, if_false]
      rw [hnxt]
      simp [add_assoc]
    · by_cases hs : b = SEMI
      · -- a record: key, value field, update
        subst hs
        obtain ⟨log1, hlog1⟩ := readSlice_mid buf pre l1 (SEMI :: r ++ NL :: post) p i
          { s with accesses := s.accesses ++ [i] ++ [i] } (by simp [hbuf]) hp hi
        obtain ⟨log2, hlog2⟩ := scanForward_line buf post r (pre ++ (l1 ++ [SEMI]))
          (buf.length + 1) (i + 1)
          { s with accesses := s.accesses ++ [i] ++ [i] ++ log1 } (by simp [hbuf])
          (by simp [hi, hp]; omega) hnlr (by simp [hbuf]; omega)
        obtain ⟨log3, hlog3⟩ := readSlice_mid buf (pre ++ (l1 ++ [SEMI])) r (NL :: post)
          (i + 1) (i + 1 + r.length)
          { s with accesses := s.accesses ++ [i] ++ [i] ++ log1 ++ log2 } (by simp [hbuf])
          (by simp [hi, hp]; omega) rfl
        refine ⟨f, [i] ++ [i] ++ log1 ++ log2 ++ log3, by simp, ?_⟩
        rw [processLoop]
        simp only [hice, if_true, bind_run, readByte_some hb, pure_run, hh, if_false]
        rw [hlog1]
        simp only []
        rw [hlog2]
        simp only []
        rw [hlog3]
        simp only [scanLine, if_true, hh, if_false, List.append_nil]
        cases parse r with
        | none => simp
        | some t =>
          have e : i + 1 + (r.length : Int) + 1 = nxt := by
            rw [hnxt]; simp only [List.length_cons]; push_cast; omega
          simp only [bind_run, modifyResults, e]
          simp
      · -- any other byte: go on inside the line
        have hmr : Marked r := by
          refine ⟨hnlr, ?_⟩
          rcases hm.2 with h | h
          · left
            rcases List.mem_cons.mp h with h | h
            · exact absurd h.symm hh
            · exact h
          · right
            rcases List.mem_cons.mp h with h | h
            · exact absurd h.symm hs
            · exact h
        obtain ⟨fuel', log, hfu, hrun⟩ := ih (l1 ++ [b]) f (i + 1) p nxt
          { s with accesses := s.accesses ++ [i, i] } (by simp [hbuf]) hp
          (by simp [hi]; omega) (by simp [hnxt]; omega)
          (by
            intro x hx
            rcases List.mem_append.mp hx with h | h
            · exact hl1 x h
            · simp at h; subst h; exact ⟨hh, hs⟩)
          hmr (by simp at hf; omega) (by simp at hce; omega)
        refine ⟨fuel', [i, i] ++ log, by simp at hfu ⊢; omega, ?_⟩
        rw [processLoop_plain parse buf ce f i p s b hb hice hh hs, hrun]
        simp only [scanLine, hh, hs, if_false]
        cases scanLine r with
        | none => simp
        | some kv =>
          obtain ⟨k, v⟩ := kv
          simp only [Option.map_some']
          cases parse v with
          | none => simp
          | some t => simp

theorem render_cons (l : List Byte) (ls : List (List Byte)) :
    render (l :: ls) = l ++ NL :: render ls := rfl

theorem render_append (xs ys : List (List Byte)) :
    render (xs ++ ys) = render xs ++ render ys := by
  induction xs with
  | nil => rfl
  | cons l ls ih => simp [render_cons, ih]

/-- Outcome of the scanner on a run of whole lines that ends with the chunk. -/
theorem processLoop_lines (parse : List Byte → Option ℚ) (buf post : List Byte) :
    ∀ (lines : List (List Byte)) (pre : List Byte) (fuel : Nat) (i ce : Int) (s : Machine),
      buf = pre ++ (render lines ++ post) → i = pre.length →
      ce = i + (render lines).length - 1 →
      (∀ l ∈ lines, Marked l) → (render lines).length + 1 ≤ fuel →
      ∃ log, processLoop parse buf ce fuel i i s
        = ((applyLines parse lines s.results).1,
            { accesses := s.accesses ++ log,
              results := (applyLines parse lines s.results).2 }) := by
  intro lines
  induction lines with
  | nil =>
    intro pre fuel i ce s _ _ hce _ hf
    obtain ⟨f, rfl⟩ : ∃ f, fuel = f + 1 := ⟨fuel - 1, by omega⟩
    refine ⟨[], ?_⟩
    rw [processLoop]
    have : ¬ i ≤ ce := by simp [render] at hce; omega
    simp [this, applyLines]
  | cons l ls ih =>
    intro pre fuel i ce s hbuf hi hce hm hf
    have hlen : (render (l :: ls)).length = l.length + 1 + (render ls).length := by
      simp [render_cons]; omega
    obtain ⟨fuel', log0, hfu, hrun⟩ := processLoop_line parse buf pre (render ls ++ post) ce
      l [] fuel i i (i + l.length + 1) s (by simp [hbuf, render_cons]) hi (by simp) rfl
      (by simp) (hm l (by simp)) (by omega) (by omega)
    have hrest : ∀ s1 : Machine, ∃ log, processLoop parse buf ce fuel'
        (i + l.length + 1) (i + l.length + 1) s1
        = ((applyLines parse ls s1.results).1,
            { accesses := s1.accesses ++ log,
              results := (applyLines parse ls s1.results).2 }) := by
      intro s1
      exact ih (pre ++ (l ++ [NL])) fuel' (i + l.length + 1) ce s1
        (by simp [hbuf, render_cons]) (by simp [hi]; omega) (by omega)
        (fun x hx => hm x (by simp [hx])) (by omega)
    rw [hrun]
    simp only [applyLines]
    cases hsl : scanLine l with
    | none =>
      obtain ⟨log, hlog⟩ := hrest { s with accesses := s.accesses ++ log0 }
      exact ⟨log0 ++ log, by simp [hlog]⟩
    | some kv =>
      obtain ⟨k, v⟩ := kv
      simp only []
      cases hpv : parse v with
      | none => exact ⟨log0, by simp⟩
      | some t =>
        obtain ⟨log, hlog⟩ := hrest (Machine.mk (s.accesses ++ log0)
          (recordSample s.results ([] ++ k) t))
        refine ⟨log0 ++ log, ?_⟩
        simp only [List.nil_append] at hlog ⊢
        rw [hlog]
        simp

/-- Scanning a whole buffer of lines as one chunk. -/
theorem processChunk_lines (parse : List Byte → Option ℚ) (lines : List (List Byte))
    (s : Machine) (hm : ∀ l ∈ lines, Marked l) :
    ∃ log, processChunk parse (render lines) 0 ((render lines).length - 1) s
      = ((applyLines parse lines s.results).1,
          { accesses := s.accesses ++ log,
            results := (applyLines parse lines s.results).2 }) := by
  unfold processChunk
  exact processLoop_lines parse (render lines) [] lines [] _ 0 _ s (by simp) (by simp)
    (by simp) hm (by omega)

/-! ## The result map -/

theorem lookup_setEntry (m : Results) (k k' : Key) (v : Weather) :
    lookup (setEntry m k v) k' = if k = k' then some v else lookup m k' := by
  induction m with
  | nil =>
    by_cases h : k = k' <;> simp [setEntry, lookup, h]
  | cons e r ih =>
    obtain ⟨k0, w0⟩ := e
    by_cases h0 : k0 = k
    · subst h0
      by_cases h : k0 = k' <;> simp [setEntry, lookup, h]
    · by_cases h : k = k'
      · subst h
        simp [setEntry, lookup, h0, ih]
      · by_cases h1 : k0 = k'
        · subst h1; simp [setEntry, lookup, h0, h]
        · simp [setEntry, lookup, h0, h1, ih, h]

theorem recordSample_eq (m : Results) (k : Key) (t : ℚ) :
    recordSample m k t = setEntry m k (accumulate (lookup m k) t) := by
  unfold recordSample getOrSet
  cases h : lookup m k with
  | none => simp [accumulate, Weather.single]
  | some w => simp [accumulate, Weather.merge]

theorem lookup_recordSample (m : Results) (k k' : Key) (t : ℚ) :
    lookup (recordSample m k t) k'
      = if k = k' then some (accumulate (lookup m k) t) else lookup m k' := by
  rw [recordSample_eq, lookup_setEntry]

theorem applyUpdates_cons (m : Results) (u : Key × ℚ) (ups : List (Key × ℚ)) :
    applyUpdates m (u :: ups) = applyUpdates (recordSample m u.1 u.2) ups := rfl

theorem applyUpdates_append (m : Results) (a b : List (Key × ℚ)) :
    applyUpdates m (a ++ b) = applyUpdates (applyUpdates m a) b := by
  simp [applyUpdates, List.foldl_append]

/-- The entry of a key after a sequence of updates depends only on its entry
before and on the samples of that key. -/
theorem lookup_applyUpdates (k : Key) :
    ∀ (ups : List (Key × ℚ)) (m : Results),
      lookup (applyUpdates m ups) k
        = match samplesFor k ups with
          | [] => lookup m k
          | t :: ts => some (ts.foldl Weather.merge (accumulate (lookup m k) t)) := by
  intro ups
  induction ups with
  | nil => intro m; simp [applyUpdates, samplesFor]
  | cons u ups ih =>
    intro m
    obtain ⟨k0, t0⟩ := u
    rw [applyUpdates_cons, ih]
    by_cases h : k0 = k
    · subst h
      simp only [samplesFor, List.filter_cons, decide_True, if_true, List.map_cons,
        lookup_recordSample]
      cases hs : List.map Prod.snd (List.filter (fun u => decide (u.1 = k0)) ups) with
      | nil => simp
      | cons t ts => simp [accumulate]
    · have e : samplesFor k ((k0, t0) :: ups) = samplesFor k ups := by
        simp [samplesFor, List.filter_cons, h]
      rw [e, lookup_recordSample, if_neg h]

theorem summarises_single (t : ℚ) : Summarises (Weather.single t) [t] := by
  simp [Summarises, Weather.single]

theorem summarises_merge {w : Weather} {xs : List ℚ} (h : Summarises w xs) (t : ℚ) :
    Summarises (w.merge t) (xs ++ [t]) := by
  obtain ⟨h1, h2, ⟨h3, h4⟩, ⟨h5, h6⟩, _⟩ := h
  refine ⟨?_, ?_, ⟨?_, ?_⟩, ⟨?_, ?_⟩, ?_⟩
  · simp [Weather.merge, h1]
  · simp [Weather.merge, h2]
  · simp only [Weather.merge, List.mem_append, List.mem_singleton]
    rcases le_total w.Min t with h | h
    · left; rw [min_eq_left h]; exact h3
    · right; rw [min_eq_right h]
  · intro x hx
    simp only [Weather.merge]
    rcases List.mem_append.mp hx with hx | hx
    · exact le_trans (min_le_left _ _) (h4 x hx)
    · simp at hx; subst hx; exact min_le_right _ _
  · simp only [Weather.merge, List.mem_append, List.mem_singleton]
    rcases le_total w.Max t with h | h
    · right; rw [max_eq_right h]
    · left; rw [max_eq_left h]; exact h5
  · intro x hx
    simp only [Weather.merge]
    rcases List.mem_append.mp hx with hx | hx
    · exact le_trans (h6 x hx) (le_max_left _ _)
    · simp at hx; subst hx; exact le_max_right _ _
  · simp [Weather.merge]

theorem summarises_foldl : ∀ (ts : List ℚ) (w : Weather) (xs : List ℚ),
    Summarises w xs → Summarises (ts.foldl Weather.merge w) (xs ++ ts) := by
  intro ts
  induction ts with
  | nil => intro w xs h; simpa using h
  | cons t ts ih =>
    intro w xs h
    have := ih (w.merge t) (xs ++ [t]) (summarises_merge h t)
    simpa using this

/-- Started from the empty map, the entry of a key summarises the samples of
that key, and the key is absent exactly when it has no sample. -/
theorem lookup_applyUpdates_empty (k : Key) (ups : List (Key × ℚ)) :
    match lookup (applyUpdates [] ups) k with
    | none => samplesFor k ups = []
    | some w => samplesFor k ups ≠ [] ∧ Summarises w (samplesFor k ups) := by
  rw [lookup_applyUpdates]
  cases h : samplesFor k ups with
  | nil => simp [lookup]
  | cons t ts =>
    simp only [lookup, accumulate]
    refine ⟨by simp, ?_⟩
    have := summarises_foldl ts (Weather.single t) [t] (summarises_single t)
    simpa using this

/-! ## Lines and updates -/

/-- Scanning a chunk that consists of whole lines, anywhere in the buffer. -/
theorem processChunk_on_lines (parse : List Byte → Option ℚ) (pre post : List Byte)
    (lines : List (List Byte)) (s : Machine) (hm : ∀ l ∈ lines, Marked l) :
    ∃ log, processChunk parse (pre ++ (render lines ++ post)) pre.length
        ((pre.length : Int) + (render lines).length - 1) s
      = ((applyLines parse lines s.results).1,
          { accesses := s.accesses ++ log,
            results := (applyLines parse lines s.results).2 }) := by
  unfold processChunk
  exact processLoop_lines parse _ post lines pre _ _ _ s rfl rfl rfl hm
    (by simp; omega)

theorem applyLines_cons_none (parse : List Byte → Option ℚ) (l : List Byte)
    (ls : List (List Byte)) (m : Results) (h : scanLine l = none) :
    applyLines parse (l :: ls) m = applyLines parse ls m := by
  simp [applyLines, h]

theorem applyLines_cons_some (parse : List Byte → Option ℚ) (l : List Byte)
    (ls : List (List Byte)) (m : Results) (k : Key) (v : List Byte) (t : ℚ)
    (h : scanLine l = some (k, v)) (hp : parse v = some t) :
    applyLines parse (l :: ls) m = applyLines parse ls (recordSample m k t) := by
  simp [applyLines, h, hp]

theorem applyLines_cons_bad (parse : List Byte → Option ℚ) (l : List Byte)
    (ls : List (List Byte)) (m : Results) (k : Key) (v : List Byte)
    (h : scanLine l = some (k, v)) (hp : parse v = none) :
    applyLines parse (l :: ls) m = (Except.error (Fault.parseFloat v), m) := by
  simp [applyLines, h, hp]

theorem lineUpdate_none_of_scanLine {parse : List Byte → Option ℚ} {l : List Byte}
    (h : scanLine l = none) : lineUpdate parse l = none := by
  simp [lineUpdate, h]

/-- When every value field parses, the lines are applied as their updates. -/
theorem applyLines_ok (parse : List Byte → Option ℚ) :
    ∀ (lines : List (List Byte)) (m : Results), (∀ l ∈ lines, ¬ BadField parse l) →
      applyLines parse lines m = (Except.ok (), applyUpdates m (updates parse lines)) := by
  intro lines
  induction lines with
  | nil => intro m _; rfl
  | cons l ls ih =>
    intro m h
    have hl := h l (by simp)
    have hls : ∀ x ∈ ls, ¬ BadField parse x := fun x hx => h x (by simp [hx])
    cases hsl : scanLine l with
    | none =>
      rw [applyLines_cons_none parse l ls m hsl, ih m hls]
      simp [updates, List.filterMap_cons, lineUpdate_none_of_scanLine hsl]
    | some kv =>
      obtain ⟨k, v⟩ := kv
      cases hpv : parse v with
      | none => exact absurd ⟨k, v, hsl, hpv⟩ hl
      | some t =>
        have e : lineUpdate parse l = some (k, t) := by simp [lineUpdate, hsl, hpv]
        rw [applyLines_cons_some parse l ls m k v t hsl hpv, ih _ hls]
        simp [updates, List.filterMap_cons, e, applyUpdates]

/-- The first line whose value field does not parse ends the run: the map holds
the updates of the lines before it and nothing of what follows. -/
theorem applyLines_bad (parse : List Byte → Option ℚ) (bad : List Byte)
    (after : List (List Byte)) (k : Key) (v : List Byte)
    (hsl : scanLine bad = some (k, v)) (hpv : parse v = none) :
    ∀ (before : List (List Byte)) (m : Results), (∀ l ∈ before, ¬ BadField parse l) →
      applyLines parse (before ++ bad :: after) m
        = (Except.error (Fault.parseFloat v), applyUpdates m (updates parse before)) := by
  intro before
  induction before with
  | nil =>
    intro m _
    rw [List.nil_append, applyLines_cons_bad parse bad after m k v hsl hpv]
    simp [updates, applyUpdates]
  | cons l ls ih =>
    intro m h
    have hl := h l (by simp)
    have hls : ∀ x ∈ ls, ¬ BadField parse x := fun x hx => h x (by simp [hx])
    cases hsl' : scanLine l with
    | none =>
      rw [List.cons_append, applyLines_cons_none parse l _ m hsl', ih m hls]
      simp [updates, List.filterMap_cons, lineUpdate_none_of_scanLine hsl']
    | some kv =>
      obtain ⟨k', v'⟩ := kv
      cases hpv' : parse v' with
      | none => exact absurd ⟨k', v', hsl', hpv'⟩ hl
      | some t =>
        have e : lineUpdate parse l = some (k', t) := by simp [lineUpdate, hsl', hpv']
        rw [List.cons_append, applyLines_cons_some parse l _ m k' v' t hsl' hpv', ih _ hls]
        simp [updates, List.filterMap_cons, e, applyUpdates]

/-- A line that the scanner takes for a comment can be put anywhere. -/
theorem applyLines_insert (parse : List Byte → Option ℚ) (c : List Byte)
    (after : List (List Byte)) (hc : scanLine c = none) :
    ∀ (before : List (List Byte)) (m : Results),
      applyLines parse (before ++ c :: after) m = applyLines parse (before ++ after) m := by
  intro before
  induction before with
  | nil => intro m; rw [List.nil_append, List.nil_append, applyLines_cons_none parse c _ m hc]
  | cons l ls ih =>
    intro m
    rw [List.cons_append, List.cons_append]
    cases hsl : scanLine l with
    | none => rw [applyLines_cons_none parse l _ m hsl, applyLines_cons_none parse l _ m hsl, ih]
    | some kv =>
      obtain ⟨k, v⟩ := kv
      cases hpv : parse v with
      | none =>
        rw [applyLines_cons_bad parse l _ m k v hsl hpv,
          applyLines_cons_bad parse l _ m k v hsl hpv]
      | some t =>
        rw [applyLines_cons_some parse l _ m k v t hsl hpv,
          applyLines_cons_some parse l _ m k v t hsl hpv, ih]

theorem scanLine_hash (rest : List Byte) : scanLine (HASH :: rest) = none := by
  simp [scanLine]

theorem scanLine_of_head {l : List Byte} (h : l.head? = some HASH) : scanLine l = none := by
  cases l with
  | nil => simp at h
  | cons b r =>
    simp only [List.head?_cons, Option.some.injEq] at h
    subst h
    exact scanLine_hash r

/-- A key without `#` and `;` in front of a `;` is taken as the key, the rest
of the line as the value field. -/
theorem scanLine_data : ∀ (k : Key) (v : List Byte), HASH ∉ k → SEMI ∉ k →
    scanLine (k ++ SEMI :: v) = some (k, v) := by
  intro k
  induction k with
  | nil => intro v _ _; simp [scanLine]; decide
  | cons b r ih =>
    intro v h1 h2
    have hb1 : b ≠ HASH := fun h => h1 (by simp [h])
    have hb2 : b ≠ SEMI := fun h => h2 (by simp [h])
    have := ih v (fun h => h1 (by simp [h])) (fun h => h2 (by simp [h]))
    simp [scanLine, hb1, hb2, this]

/-! ## Lines of the input format -/

theorem line_split {l : List Byte} (h : SEMI ∈ l) : l = keyOf l ++ SEMI :: valueOf l := by
  unfold keyOf valueOf
  have hsplit := (List.takeWhile_append_dropWhile (fun b => decide (b ≠ SEMI)) l).symm
  cases hd : l.dropWhile (fun b => decide (b ≠ SEMI)) with
  | nil =>
    rw [List.dropWhile_eq_nil_iff] at hd
    have := hd SEMI h
    simp at this
  | cons b r =>
    have hb : b = SEMI := by
      have := List.head_dropWhile_not (fun b => decide (b ≠ SEMI)) l (by rw [hd]; simp)
      simp only [hd, List.head_cons] at this
      simpa using this
    rw [hd, hb] at hsplit
    rw [List.drop_one, List.tail_cons]
    exact hsplit

theorem semi_not_mem_keyOf (l : List Byte) : SEMI ∉ keyOf l := by
  intro h
  have := List.mem_takeWhile_imp h
  simp at this

theorem scanLine_of_isData {l : List Byte} (hd : isData l) (hk : HASH ∉ keyOf l) :
    scanLine l = some (keyOf l, valueOf l) := by
  have h := line_split hd.2
  have := scanLine_data (keyOf l) (valueOf l) hk (semi_not_mem_keyOf l)
  rw [← h] at this
  exact this

theorem lineUpdate_of_isComment (parse : List Byte → Option ℚ) {l : List Byte}
    (h : isComment l) : lineUpdate parse l = none :=
  lineUpdate_none_of_scanLine (scanLine_of_head h)

theorem lineUpdate_of_isData (parse : List Byte → Option ℚ) {l : List Byte}
    (hd : isData l) (hk : HASH ∉ keyOf l) :
    lineUpdate parse l = (parse (valueOf l)).map (fun t => (keyOf l, t)) := by
  simp [lineUpdate, scanLine_of_isData hd hk]

/-- The samples the scanner records for a key are the parsed values of the data
lines of that key, when no key holds a `#`. -/
theorem samplesFor_updates (parse : List Byte → Option ℚ) (k : Key) :
    ∀ lines : List (List Byte),
      (∀ l ∈ lines, isComment l ∨ (isData l ∧ HASH ∉ keyOf l)) →
      samplesFor k (updates parse lines) = dataValues parse k lines := by
  intro lines
  induction lines with
  | nil => intro _; rfl
  | cons l ls ih =>
    intro h
    have ih' := ih (fun x hx => h x (by simp [hx]))
    unfold dataValues dataLines at ih' ⊢
    unfold samplesFor updates at ih' ⊢
    rcases h l (by simp) with hc | ⟨hd, hk⟩
    · have hnd : ¬ isData l := fun hd => hd.1 hc
      simp only [List.filterMap_cons, lineUpdate_of_isComment parse hc, List.filter_cons,
        hnd, false_and, decide_False]
      exact ih'
    · rw [List.filterMap_cons, lineUpdate_of_isData parse hd hk]
      by_cases hkk : keyOf l = k
      · cases hp : parse (valueOf l) with
        | none =>
          simp only [Option.map_none', List.filter_cons, hd, hkk, and_self, decide_True,
            if_true, List.filterMap_cons, hp]
          exact ih'
        | some t =>
          simp only [Option.map_some', List.filter_cons, hd, hkk, and_self, decide_True,
            if_true, List.filterMap_cons, hp, List.map_cons]
          rw [ih']
      · cases hp : parse (valueOf l) with
        | none =>
          simp only [Option.map_none', List.filter_cons, hd, hkk, and_false, decide_False]
          exact ih'
        | some t =>
          simp only [Option.map_some', List.filter_cons, hd, hkk, and_false, decide_False]
          exact ih'

theorem marked_of_format {l : List Byte} (h : FormatLine l) : Marked l := by
  refine ⟨h.1, ?_⟩
  rcases h.2 with hc | hd
  · left
    unfold isComment at hc
    cases l with
    | nil => simp at hc
    | cons b r => simp at hc; simp [hc]
  · right; exact hd.2

theorem not_badField_of_comment (parse : List Byte → Option ℚ) {l : List Byte}
    (h : isComment l) : ¬ BadField parse l := by
  rintro ⟨k, v, hs, _⟩
  rw [scanLine_of_head h] at hs
  exact absurd hs (by simp)

theorem badField_iff_of_isData (parse : List Byte → Option ℚ) {l : List Byte}
    (hd : isData l) (hk : HASH ∉ keyOf l) :
    BadField parse l ↔ parse (valueOf l) = none := by
  constructor
  · rintro ⟨k, v, hs, hp⟩
    rw [scanLine_of_isData hd hk] at hs
    simp only [Option.some.injEq, Prod.mk.injEq] at hs
    rw [hs.2]; exact hp
  · intro hp
    exact ⟨keyOf l, valueOf l, scanLine_of_isData hd hk, hp⟩

theorem length_dataValues (parse : List Byte → Option ℚ) (k : Key) :
    ∀ lines : List (List Byte),
      (∀ l ∈ lines, isData l → (parse (valueOf l)).isSome) →
      (dataValues parse k lines).length = (dataLines k lines).length := by
  intro lines
  induction lines with
  | nil => intro _; rfl
  | cons l ls ih =>
    intro h
    have ih' := ih (fun x hx => h x (by simp [hx]))
    unfold dataValues dataLines at ih' ⊢
    by_cases hc : isData l ∧ keyOf l = k
    · obtain ⟨t, ht⟩ := Option.isSome_iff_exists.mp (h l (by simp) hc.1)
      simp only [List.filter_cons, hc, and_self, decide_True, if_true, List.filterMap_cons, ht,
        List.length_cons]
      rw [ih']
    · simp only [List.filter_cons, hc, decide_False]
      exact ih'

/-! ## Properties of the map kept by every run -/

theorem keeps_bind {P : Results → Prop} {α β : Type} {x : Exec α} {f : α → Exec β}
    (hx : Keeps P x) (hf : ∀ a, Keeps P (f a)) : Keeps P (x >>= f) := by
  intro s hs
  have h1 := hx s hs
  rw [bind_run]
  cases hxs : x s with
  | mk r s1 =>
    rw [hxs] at h1
    cases r with
    | error e => exact h1
    | ok a => exact hf a s1 h1

theorem keeps_pure (P : Results → Prop) {α : Type} (a : α) : Keeps P (pure a : Exec α) :=
  fun _ hs => hs

theorem keeps_fail (P : Results → Prop) {α : Type} (e : Fault) :
    Keeps P (Exec.fail e : Exec α) :=
  fun _ hs => hs

theorem keeps_readByte (P : Results → Prop) (buf : List Byte) (i : Int) :
    Keeps P (readByte buf i) := by
  intro s hs
  unfold readByte
  cases byteAt buf i <;> exact hs

theorem keeps_readSlice (P : Results → Prop) (buf : List Byte) (lo hi : Int) :
    Keeps P (readSlice buf lo hi) := by
  intro s hs
  unfold readSlice
  split <;> exact hs

theorem keeps_modifyResults {P : Results → Prop} {f : Results → Results}
    (hf : ∀ m, P m → P (f m)) : Keeps P (modifyResults f) :=
  fun s hs => hf s.results hs

theorem keeps_scanForward (P : Results → Prop) (buf : List Byte) :
    ∀ (fuel : Nat) (i : Int), Keeps P (scanForward buf fuel i) := by
  intro fuel
  induction fuel with
  | zero => intro i; rw [scanForward]; exact keeps_fail P _
  | succ fuel ih =>
    intro i
    rw [scanForward]
    refine keeps_bind (keeps_readByte P buf i) (fun b => ?_)
    split
    · exact ih _
    · exact keeps_pure P _

theorem keeps_scanBackward (P : Results → Prop) (buf : List Byte) :
    ∀ (fuel : Nat) (j : Int), Keeps P (scanBackward buf fuel j) := by
  intro fuel
  induction fuel with
  | zero => intro j; rw [scanBackward]; exact keeps_fail P _
  | succ fuel ih =>
    intro j
    rw [scanBackward]
    refine keeps_bind (keeps_readByte P buf j) (fun b => ?_)
    split
    · exact ih _
    · exact keeps_pure P _

/-- A property of the map that every record update keeps is kept by the scanner,
whatever the buffer and the chunk, also by a run that stops with a fault. -/
theorem keeps_processLoop {P : Results → Prop}
    (hP : ∀ m k t, P m → P (recordSample m k t))
    (parse : List Byte → Option ℚ) (buf : List Byte) (ce : Int) :
    ∀ (fuel : Nat) (i prev : Int), Keeps P (processLoop parse buf ce fuel i prev) := by
  intro fuel
  induction fuel with
  | zero => intro i prev; rw [processLoop]; exact keeps_fail P _
  | succ fuel ih =>
    intro i prev
    rw [processLoop]
    split
    · refine keeps_bind (keeps_readByte P buf i) (fun b => ?_)
      refine keeps_bind ?_ (fun ip => ?_)
      · split
        · exact keeps_bind (keeps_scanForward P buf _ _) (fun _ => keeps_pure P _)
        · exact keeps_pure P _
      · refine keeps_bind (keeps_readByte P buf _) (fun b2 => ?_)
        split
        · refine keeps_bind (keeps_readSlice P buf _ _) (fun key => ?_)
          refine keeps_bind (keeps_scanForward P buf _ _) (fun j => ?_)
          refine keeps_bind (keeps_readSlice P buf _ _) (fun field => ?_)
          split
          · exact keeps_fail P _
          · exact keeps_bind (keeps_modifyResults (fun m hm => hP m _ _ hm)) (fun _ => ih _ _)
        · exact ih _ _
    · exact keeps_pure P _

theorem keeps_processChunk {P : Results → Prop}
    (hP : ∀ m k t, P m → P (recordSample m k t))
    (parse : List Byte → Option ℚ) (buf : List Byte) (cs ce : Int) :
    Keeps P (processChunk parse buf cs ce) :=
  keeps_processLoop hP parse buf ce _ _ _

theorem keeps_runChunks {P : Results → Prop}
    (hP : ∀ m k t, P m → P (recordSample m k t))
    (parse : List Byte → Option ℚ) (buf : List Byte) :
    ∀ chunks : List Chunk, Keeps P (runChunks parse buf chunks) := by
  intro chunks
  induction chunks with
  | nil => rw [runChunks]; exact keeps_pure P _
  | cons c cs ih =>
    rw [runChunks]
    exact keeps_bind (keeps_processChunk hP parse buf _ _) (fun _ => ih)

/-! ## The invariant of the entries in exact arithmetic -/

theorem valid_single (t : ℚ) : (Weather.single t).Valid := by
  simp [Weather.Valid, Weather.single]

theorem valid_merge {w : Weather} (h : w.Valid) (t : ℚ) : (w.merge t).Valid := by
  obtain ⟨h1, h2, h3, h4⟩ := h
  have hc : (0 : ℚ) < (w.Count : ℚ) := by exact_mod_cast (by omega : (0 : Int) < w.Count)
  have hc1 : (0 : ℚ) < ((w.Count + 1 : Int) : ℚ) := by push_cast; linarith
  have hsum : w.Sum = w.Avg * (w.Count : ℚ) := by
    rw [h2]; field_simp
  refine ⟨by simp only [Weather.merge]; omega, rfl, ?_, ?_⟩
  · simp only [Weather.merge]
    rw [le_div_iff₀ hc1]
    push_cast
    have hm1 : min w.Min t ≤ w.Min := min_le_left _ _
    have hm2 : min w.Min t ≤ t := min_le_right _ _
    nlinarith
  · simp only [Weather.merge]
    rw [div_le_iff₀ hc1]
    push_cast
    have hm1 : w.Max ≤ max w.Max t := le_max_left _ _
    have hm2 : t ≤ max w.Max t := le_max_right _ _
    nlinarith

theorem valid_accumulate (o : Option Weather) (t : ℚ) (h : ∀ w, o = some w → w.Valid) :
    (accumulate o t).Valid := by
  cases o with
  | none => exact valid_single t
  | some w => exact valid_merge (h w rfl) t

theorem mem_setEntry {m : Results} {k : Key} {v : Weather} {e : Key × Weather}
    (h : e ∈ setEntry m k v) : e ∈ m ∨ e = (k, v) := by
  induction m with
  | nil => simp [setEntry] at h; exact Or.inr h
  | cons x r ih =>
    obtain ⟨k0, w0⟩ := x
    by_cases h0 : k0 = k
    · simp only [setEntry, h0, if_true, List.mem_cons] at h
      rcases h with h | h
      · exact Or.inr h
      · exact Or.inl (List.mem_cons_of_mem _ h)
    · simp only [setEntry, h0, if_false, List.mem_cons] at h
      rcases h with h | h
      · exact Or.inl (by rw [h]; exact List.mem_cons_self _ _)
      · rcases ih h with h | h
        · exact Or.inl (List.mem_cons_of_mem _ h)
        · exact Or.inr h

theorem mem_of_lookup {m : Results} {k : Key} {w : Weather} (h : lookup m k = some w) :
    (k, w) ∈ m := by
  induction m with
  | nil => simp [lookup] at h
  | cons x r ih =>
    obtain ⟨k0, w0⟩ := x
    by_cases h0 : k0 = k
    · simp only [lookup, h0, if_true, Option.some.injEq] at h
      rw [h0, h]; exact List.mem_cons_self _ _
    · simp only [lookup, h0, if_false] at h
      exact List.mem_cons_of_mem _ (ih h)

/-- Every record update keeps the entries valid. -/
theorem valid_recordSample (m : Results) (k : Key) (t : ℚ)
    (h : ∀ e ∈ m, e.2.Valid) : ∀ e ∈ recordSample m k t, e.2.Valid := by
  intro e he
  rw [recordSample_eq] at he
  rcases mem_setEntry he with he | he
  · exact h e he
  · rw [he]
    exact valid_accumulate _ _ (fun w hw => h (k, w) (mem_of_lookup hw))

theorem valid_applyUpdates : ∀ (ups : List (Key × ℚ)) (m : Results),
    (∀ e ∈ m, e.2.Valid) → ∀ e ∈ applyUpdates m ups, e.2.Valid := by
  intro ups
  induction ups with
  | nil => intro m h; exact h
  | cons u ups ih =>
    intro m h
    rw [applyUpdates_cons]
    exact ih _ (valid_recordSample m u.1 u.2 h)

/-! ## Runs that return have stayed inside the buffer -/

theorem okInRange_bind {buf : List Byte} {α β : Type} {x : Exec α} {f : α → Exec β}
    (hx : OkInRange buf x) (hf : ∀ a, OkInRange buf (f a)) : OkInRange buf (x >>= f) := by
  intro s r s' hs h
  rw [bind_run] at h
  cases hxs : x s with
  | mk r1 s1 =>
    rw [hxs] at h
    cases r1 with
    | error e => simp at h
    | ok a => exact hf a s1 r s' (hx s a s1 hs hxs) h

theorem okInRange_pure (buf : List Byte) {α : Type} (a : α) :
    OkInRange buf (pure a : Exec α) := by
  intro s r s' hs h
  simp only [pure_run, Prod.mk.injEq] at h
  rw [← h.2]; exact hs

theorem okInRange_fail (buf : List Byte) {α : Type} (e : Fault) :
    OkInRange buf (Exec.fail e : Exec α) := by
  intro s r s' _ h
  simp at h

theorem okInRange_readByte (buf : List Byte) (i : Int) : OkInRange buf (readByte buf i) := by
  intro s r s' hs h
  cases hb : byteAt buf i with
  | none => rw [readByte_none hb] at h; simp at h
  | some b =>
    rw [readByte_some hb] at h
    simp only [Prod.mk.injEq] at h
    rw [← h.2]
    intro a ha
    simp only [List.mem_append, List.mem_singleton] at ha
    rcases ha with ha | ha
    · exact hs a ha
    · rw [ha]; exact byteAt_some_range hb

theorem mem_indexRange : ∀ (len : Nat) (lo a : Int), a ∈ indexRange lo len →
    lo ≤ a ∧ a < lo + len := by
  intro len
  induction len with
  | zero => intro lo a h; simp [indexRange] at h
  | succ len ih =>
    intro lo a h
    simp only [indexRange, List.mem_cons] at h
    rcases h with h | h
    · subst h; constructor <;> push_cast <;> omega
    · have := ih (lo + 1) a h
      constructor <;> push_cast <;> omega

theorem okInRange_readSlice (buf : List Byte) (lo hi : Int) :
    OkInRange buf (readSlice buf lo hi) := by
  intro s r s' hs h
  unfold readSlice at h
  by_cases hc : 0 ≤ lo ∧ lo ≤ hi ∧ hi ≤ buf.length
  · rw [if_pos hc] at h
    simp only [Prod.mk.injEq] at h
    rw [← h.2]
    intro a ha
    simp only [List.mem_append] at ha
    rcases ha with ha | ha
    · exact hs a ha
    · have := mem_indexRange _ _ _ ha
      have e : (((hi - lo).toNat : Nat) : Int) = hi - lo := by omega
      omega
  · rw [if_neg hc] at h; simp at h

theorem okInRange_modifyResults (buf : List Byte) (f : Results → Results) :
    OkInRange buf (modifyResults f) := by
  intro s r s' hs h
  simp only [modifyResults, Prod.mk.injEq] at h
  rw [← h.2]; exact hs

theorem okInRange_scanForward (buf : List Byte) :
    ∀ (fuel : Nat) (i : Int), OkInRange buf (scanForward buf fuel i) := by
  intro fuel
  induction fuel with
  | zero => intro i; rw [scanForward]; exact okInRange_fail buf _
  | succ fuel ih =>
    intro i
    rw [scanForward]
    refine okInRange_bind (okInRange_readByte buf i) (fun b => ?_)
    split
    · exact ih _
    · exact okInRange_pure buf _

theorem okInRange_scanBackward (buf : List Byte) :
    ∀ (fuel : Nat) (j : Int), OkInRange buf (scanBackward buf fuel j) := by
  intro fuel
  induction fuel with
  | zero => intro j; rw [scanBackward]; exact okInRange_fail buf _
  | succ fuel ih =>
    intro j
    rw [scanBackward]
    refine okInRange_bind (okInRange_readByte buf j) (fun b => ?_)
    split
    · exact ih _
    · exact okInRange_pure buf _

/-- A scan that returns has accessed the buffer only at indices inside it. -/
theorem okInRange_processLoop (parse : List Byte → Option ℚ) (buf : List Byte) (ce : Int) :
    ∀ (fuel : Nat) (i prev : Int), OkInRange buf (processLoop parse buf ce fuel i prev) := by
  intro fuel
  induction fuel with
  | zero => intro i prev; rw [processLoop]; exact okInRange_fail buf _
  | succ fuel ih =>
    intro i prev
    rw [processLoop]
    split
    · refine okInRange_bind (okInRange_readByte buf i) (fun b => ?_)
      refine okInRange_bind ?_ (fun ip => ?_)
      · split
        · exact okInRange_bind (okInRange_scanForward buf _ _) (fun _ => okInRange_pure buf _)
        · exact okInRange_pure buf _
      · refine okInRange_bind (okInRange_readByte buf _) (fun b2 => ?_)
        split
        · refine okInRange_bind (okInRange_readSlice buf _ _) (fun key => ?_)
          refine okInRange_bind (okInRange_scanForward buf _ _) (fun j => ?_)
          refine okInRange_bind (okInRange_readSlice buf _ _) (fun field => ?_)
          split
          · exact okInRange_fail buf _
          · exact okInRange_bind (okInRange_modifyResults buf _) (fun _ => ih _ _)
        · exact ih _ _
    · exact okInRange_pure buf _

theorem okInRange_processChunk (parse : List Byte → Option ℚ) (buf : List Byte) (cs ce : Int) :
    OkInRange buf (processChunk parse buf cs ce) :=
  okInRange_processLoop parse buf ce _ _ _

theorem updates_of_comments (parse : List Byte → Option ℚ) :
    ∀ lines : List (List Byte), (∀ l ∈ lines, isComment l) → updates parse lines = [] := by
  intro lines
  induction lines with
  | nil => intro _; rfl
  | cons l ls ih =>
    intro h
    have := ih (fun x hx => h x (by simp [hx]))
    unfold updates at this ⊢
    rw [List.filterMap_cons, lineUpdate_of_isComment parse (h l (by simp)), this]

/-! ## The fuel of the loops is never used up -/

theorem fuelSuffices_bind {α β : Type} {x : Exec α} {f : α → Exec β} (Q : α → Prop)
    (hx : FuelSuffices x) (hq : ∀ s a s', x s = (Except.ok a, s') → Q a)
    (hf : ∀ a, Q a → FuelSuffices (f a)) : FuelSuffices (x >>= f) := by
  intro s
  rw [bind_run]
  cases hxs : x s with
  | mk r s1 =>
    cases r with
    | error e =>
      have := hx s
      rw [hxs] at this
      simpa using this
    | ok a => exact hf a (hq s a s1 hxs) s1

theorem fuelSuffices_pure {α : Type} (a : α) : FuelSuffices (pure a : Exec α) := by
  intro s; simp

theorem fuelSuffices_fail {α : Type} (e : Fault) (he : e ≠ Fault.outOfFuel) :
    FuelSuffices (Exec.fail e : Exec α) := by
  intro s; simpa using he

theorem fuelSuffices_readByte (buf : List Byte) (i : Int) : FuelSuffices (readByte buf i) := by
  intro s
  unfold readByte
  cases byteAt buf i <;> simp

theorem readByte_ok {buf : List Byte} {i : Int} {s s' : Machine} {b : Byte}
    (h : readByte buf i s = (Except.ok b, s')) : byteAt buf i = some b := by
  cases hb : byteAt buf i with
  | none => rw [readByte_none hb] at h; simp at h
  | some c => rw [readByte_some hb] at h; simp at h; rw [h.1]

theorem fuelSuffices_readSlice (buf : List Byte) (lo hi : Int) :
    FuelSuffices (readSlice buf lo hi) := by
  intro s
  unfold readSlice
  split <;> simp

theorem fuelSuffices_modifyResults (f : Results → Results) :
    FuelSuffices (modifyResults f) := by
  intro s; simp [modifyResults]

theorem fuelSuffices_setStart (chunks : List Chunk) (i v : Int) :
    FuelSuffices (setStart chunks i v) := by
  intro s
  unfold setStart
  split <;> simp

theorem fuelSuffices_setEnd (chunks : List Chunk) (i v : Int) :
    FuelSuffices (setEnd chunks i v) := by
  intro s
  unfold setEnd
  split <;> simp

theorem fuelSuffices_scanForward (buf : List Byte) :
    ∀ (fuel : Nat) (i : Int), 0 < fuel → (0 ≤ i → (buf.length : Int) - i < fuel) →
      FuelSuffices (scanForward buf fuel i) := by
  intro fuel
  induction fuel with
  | zero => intro i h; omega
  | succ fuel ih =>
    intro i _ hi
    rw [scanForward]
    refine fuelSuffices_bind (fun b => byteAt buf i = some b) (fuelSuffices_readByte buf i)
      (fun s a s' h => readByte_ok h) (fun b hb => ?_)
    have hr := byteAt_some_range hb
    have := hi hr.1
    split
    · exact ih (i + 1) (by omega) (fun _ => by push_cast at this ⊢; omega)
    · exact fuelSuffices_pure _

theorem fuelSuffices_scanBackward (buf : List Byte) :
    ∀ (fuel : Nat) (j : Int), 0 < fuel → (j < (buf.length : Int) → j + 1 < fuel) →
      FuelSuffices (scanBackward buf fuel j) := by
  intro fuel
  induction fuel with
  | zero => intro j h; omega
  | succ fuel ih =>
    intro j _ hj
    rw [scanBackward]
    refine fuelSuffices_bind (fun b => byteAt buf j = some b) (fuelSuffices_readByte buf j)
      (fun s a s' h => readByte_ok h) (fun b hb => ?_)
    have hr := byteAt_some_range hb
    have := hj hr.2
    split
    · exact ih (j - 1) (by omega) (fun _ => by push_cast at this ⊢; omega)
    · exact fuelSuffices_pure _

theorem scanForward_ok_ge (buf : List Byte) :
    ∀ (fuel : Nat) (i : Int) (s : Machine) (j : Int) (s' : Machine),
      scanForward buf fuel i s = (Except.ok j, s') → i ≤ j ∧ byteAt buf j = some NL := by
  intro fuel
  induction fuel with
  | zero => intro i s j s' h; simp [scanForward] at h
  | succ fuel ih =>
    intro i s j s' h
    rw [scanForward] at h
    cases hb : byteAt buf i with
    | none => simp [readByte_none hb] at h
    | some b =>
      simp only [bind_run, readByte_some hb] at h
      by_cases hnl : b = NL
      · simp [hnl] at h
        rw [← h.1, hb, hnl]
        exact ⟨le_refl _, rfl⟩
      · simp [hnl] at h
        have := ih _ _ _ _ h
        exact ⟨by omega, this.2⟩

/-- The scanning loop never uses up its fuel. -/
theorem fuelSuffices_processLoop (parse : List Byte → Option ℚ) (buf : List Byte) (ce : Int) :
    ∀ (fuel : Nat) (i prev : Int), 0 < fuel → (0 ≤ i → (buf.length : Int) - i < fuel) →
      FuelSuffices (processLoop parse buf ce fuel i prev) := by
  intro fuel
  induction fuel with
  | zero => intro i prev h; omega
  | succ fuel ih =>
    intro i prev _ hi
    rw [processLoop]
    split
    · refine fuelSuffices_bind (fun b => byteAt buf i = some b) (fuelSuffices_readByte buf i)
        (fun s a s' h => readByte_ok h) (fun b hb => ?_)
      have hr := byteAt_some_range hb
      have hfu := hi hr.1
      refine fuelSuffices_bind (fun ip => i ≤ ip.1) ?_ ?_ (fun ip hip => ?_)
      · split
        · exact fuelSuffices_bind (fun _ => True)
            (fuelSuffices_scanForward buf _ _ (by omega) (fun _ => by push_cast; omega))
            (fun _ _ _ _ => trivial) (fun _ _ => fuelSuffices_pure _)
        · exact fuelSuffices_pure _
      · intro s a s' h
        split at h
        · rw [bind_run] at h
          cases hsf : scanForward buf (buf.length + 1) i s with
          | mk r s1 =>
            rw [hsf] at h
            cases r with
            | error e => simp at h
            | ok j =>
              simp only [pure_run, Prod.mk.injEq, Except.ok.injEq] at h
              rw [← h.1]
              exact (scanForward_ok_ge buf _ _ _ _ _ hsf).1
        · simp only [pure_run, Prod.mk.injEq, Except.ok.injEq] at h
          rw [← h.1]
      · refine fuelSuffices_bind (fun b2 => byteAt buf ip.1 = some b2)
          (fuelSuffices_readByte buf _) (fun s a s' h => readByte_ok h) (fun b2 hb2 => ?_)
        have hr2 := byteAt_some_range hb2
        split
        · refine fuelSuffices_bind (fun _ => True) (fuelSuffices_readSlice buf _ _)
            (fun _ _ _ _ => trivial) (fun key _ => ?_)
          refine fuelSuffices_bind (fun j => ip.1 + 1 ≤ j)
            (fuelSuffices_scanForward buf _ _ (by omega) (fun _ => by push_cast; omega))
            (fun s a s' h => (scanForward_ok_ge buf _ _ _ _ _ h).1) (fun j hj => ?_)
          refine fuelSuffices_bind (fun _ => True) (fuelSuffices_readSlice buf _ _)
            (fun _ _ _ _ => trivial) (fun field _ => ?_)
          split
          · exact fuelSuffices_fail _ (by simp)
          · exact fuelSuffices_bind (fun _ => True) (fuelSuffices_modifyResults _)
              (fun _ _ _ _ => trivial)
              (fun _ _ => ih _ _ (by omega) (fun _ => by push_cast at hfu ⊢; omega))
        · exact ih _ _ (by omega) (fun _ => by push_cast at hfu ⊢; omega)
    · exact fuelSuffices_pure _

/-- `processChunk` never stops for lack of fuel, whatever the buffer and the chunk. -/
theorem fuelSuffices_processChunk (parse : List Byte → Option ℚ) (buf : List Byte)
    (cs ce : Int) : FuelSuffices (processChunk parse buf cs ce) :=
  fuelSuffices_processLoop parse buf ce _ _ _ (by omega) (fun _ => by push_cast; omega)

theorem fuelSuffices_splitLoop (buf : List Byte) (c n : Int) :
    ∀ (fuel : Nat) (i : Int) (chunks : List Chunk), 0 < fuel → n - i < fuel →
      FuelSuffices (splitLoop buf c n fuel i chunks) := by
  intro fuel
  induction fuel with
  | zero => intro i chunks h; omega
  | succ fuel ih =>
    intro i chunks _ hi
    rw [splitLoop]
    split
    · refine fuelSuffices_bind (fun _ => True)
        (fuelSuffices_scanBackward buf _ _ (by omega) (fun _ => by push_cast; omega))
        (fun _ _ _ _ => trivial) (fun j _ => ?_)
      refine fuelSuffices_bind (fun _ => True) (fuelSuffices_setEnd _ _ _)
        (fun _ _ _ _ => trivial) (fun cs1 _ => ?_)
      refine fuelSuffices_bind (fun _ => True) (fuelSuffices_setStart _ _ _)
        (fun _ _ _ _ => trivial) (fun cs2 _ => ?_)
      exact ih _ _ (by omega) (by push_cast at hi ⊢; omega)
    · exact fuelSuffices_pure _

/-- `splitChunks` never stops for lack of fuel, whatever the buffer and the worker count. -/
theorem fuelSuffices_splitChunks (buf : List Byte) (n : Int) :
    FuelSuffices (splitChunks buf n) := by
  unfold splitChunks
  by_cases h0 : n = 0
  · simp only [h0, if_true]
    exact fuelSuffices_fail _ (by simp)
  · by_cases h1 : n < 0
    · simp only [h0, h1, if_true, if_false]
      exact fuelSuffices_fail _ (by simp)
    · simp only [h0, h1, if_false]
      refine fuelSuffices_bind (fun _ => True) (fuelSuffices_setStart _ _ _)
        (fun _ _ _ _ => trivial) (fun cs1 _ => ?_)
      refine fuelSuffices_bind (fun _ => True)
        (fuelSuffices_splitLoop buf _ n n.toNat 1 cs1 (by omega) (by omega))
        (fun _ _ _ _ => trivial) (fun cs2 _ => ?_)
      exact fuelSuffices_setEnd _ _ _

/-! ## Lines and chunks -/

theorem offset_zero (lines : List (List Byte)) : offset lines 0 = 0 := by
  simp [offset, render]

theorem offset_cons_succ (l : List Byte) (ls : List (List Byte)) (j : Nat) :
    offset (l :: ls) (j + 1) = l.length + 1 + offset ls j := by
  simp [offset, render_cons]; omega

theorem offset_length (lines : List (List Byte)) :
    offset lines lines.length = (render lines).length := by
  simp [offset]

theorem offset_succ (lines : List (List Byte)) (p : Nat) (hp : p < lines.length) :
    offset lines (p + 1) = offset lines p + (lines.getD p []).length + 1 := by
  unfold offset
  rw [List.take_succ, render_append]
  simp [List.getElem?_eq_getElem hp, List.getD_eq_getElem?_getD, render]
  omega

theorem offset_lt_succ (lines : List (List Byte)) (p : Nat) (hp : p < lines.length) :
    offset lines p < offset lines (p + 1) := by
  rw [offset_succ lines p hp]; omega

theorem offset_mono (lines : List (List Byte)) {a : Nat} :
    ∀ d : Nat, a + d ≤ lines.length → offset lines a ≤ offset lines (a + d) := by
  intro d
  induction d with
  | zero => intro _; exact le_refl _
  | succ d ih =>
    intro h
    have h1 := ih (by omega)
    have h2 := offset_lt_succ lines (a + d) (by omega)
    rw [show a + (d + 1) = a + d + 1 by omega]
    omega

theorem offset_strict (lines : List (List Byte)) {a b : Nat} (hab : a < b)
    (hb : b ≤ lines.length) : offset lines a < offset lines b := by
  have h1 := offset_lt_succ lines a (by omega)
  have h2 := offset_mono lines (a := a + 1) (b - (a + 1)) (by omega)
  rw [show a + 1 + (b - (a + 1)) = b by omega] at h2
  omega

theorem offset_le_iff (lines : List (List Byte)) {a b : Nat} (ha : a ≤ lines.length)
    (hb : b ≤ lines.length) : offset lines a ≤ offset lines b ↔ a ≤ b := by
  constructor
  · intro h
    by_contra hc
    have := offset_strict lines (show b < a by omega) ha
    omega
  · intro h
    have := offset_mono lines (a := a) (b - a) (by omega)
    rw [show a + (b - a) = b by omega] at this
    exact this

theorem offset_inj (lines : List (List Byte)) {a b : Nat} (ha : a ≤ lines.length)
    (hb : b ≤ lines.length) (h : offset lines a = offset lines b) : a = b := by
  have h1 := (offset_le_iff lines ha hb).mp (by omega)
  have h2 := (offset_le_iff lines hb ha).mp (by omega)
  omega

theorem lineIndexAt_offset : ∀ (lines : List (List Byte)) (a : Nat), a ≤ lines.length →
    lineIndexAt lines (offset lines a : Int) = a := by
  intro lines
  induction lines with
  | nil => intro a ha; simp at ha; subst ha; rfl
  | cons l ls ih =>
    intro a ha
    cases a with
    | zero => simp [lineIndexAt, offset_zero]
    | succ a =>
      rw [offset_cons_succ]
      have h1 : (l.length : Int) + 1 ≤ ((l.length + 1 + offset ls a : Nat) : Int) := by
        push_cast; omega
      have h2 : (((l.length + 1 + offset ls a : Nat) : Int)) - ((l.length : Int) + 1)
          = (offset ls a : Int) := by push_cast; omega
      simp only [lineIndexAt, h1, if_true, h2]
      rw [ih a (by simpa using ha)]

theorem byteAt_append_left (A B : List Byte) (i : Int) (h : i < A.length) :
    byteAt (A ++ B) i = byteAt A i := by
  unfold byteAt
  by_cases h0 : 0 ≤ i
  · simp only [h0, if_true]
    rw [List.getElem?_append_left (by omega)]
  · simp [h0]

theorem byteAt_append_right (A B : List Byte) (i : Int) (h : (A.length : Int) ≤ i) :
    byteAt (A ++ B) i = byteAt B (i - A.length) := by
  unfold byteAt
  have h0 : 0 ≤ i := by omega
  have h1 : 0 ≤ i - A.length := by omega
  simp only [h0, h1, if_true]
  rw [List.getElem?_append_right (by omega)]
  congr 1
  omega

theorem mem_of_byteAt {A : List Byte} {i : Int} {b : Byte} (h : byteAt A i = some b) :
    b ∈ A := by
  rw [byteAt_some_iff] at h
  exact List.getElem?_mem h.2

/-- In a buffer of newline-terminated lines, a newline byte is the end of a line. -/
theorem newline_ends_line : ∀ (lines : List (List Byte)), (∀ l ∈ lines, NL ∉ l) →
    ∀ b : Int, byteAt (render lines) b = some NL →
      ∃ m : Nat, m ≤ lines.length ∧ (offset lines m : Int) = b + 1 := by
  intro lines
  induction lines with
  | nil =>
    intro _ b h
    have := byteAt_some_range h
    simp [render] at this
    omega
  | cons l ls ih =>
    intro hnl b h
    rw [render_cons] at h
    by_cases h1 : b < l.length
    · rw [byteAt_append_left _ _ _ h1] at h
      exact absurd (mem_of_byteAt h) (hnl l (by simp))
    · by_cases h2 : b = l.length
      · refine ⟨1, by simp, ?_⟩
        rw [offset_cons_succ, offset_zero]
        push_cast; omega
      · rw [byteAt_append_right _ _ _ (by omega)] at h
        have h3 : byteAt (NL :: render ls) (b - l.length) = byteAt (render ls) (b - l.length - 1) := by
          have := byteAt_append_right [NL] (render ls) (b - l.length) (by simp; omega)
          simpa using this
        rw [h3] at h
        obtain ⟨m, hm, he⟩ := ih (fun x hx => hnl x (by simp [hx])) _ h
        refine ⟨m + 1, by simpa using hm, ?_⟩
        rw [offset_cons_succ]
        push_cast; omega

/-- Every chunk of a plan of a buffer of newline-terminated lines is cut at line
boundaries. -/
theorem aligned_of_plan {lines : List (List Byte)} {chunks : List Chunk}
    (hnl : ∀ l ∈ lines, NL ∉ l) (hp : Plan (render lines) chunks) (i : Nat)
    (hi : i < chunks.length) :
    ∃ a b : Nat, a ≤ b ∧ b ≤ lines.length ∧
      startOf chunks i = (offset lines a : Int) ∧ endOf chunks i + 1 = (offset lines b : Int) := by
  have hstart : ∃ a : Nat, a ≤ lines.length ∧ startOf chunks i = (offset lines a : Int) := by
    cases i with
    | zero => exact ⟨0, by omega, by rw [hp.first, offset_zero]; rfl⟩
    | succ j =>
      obtain ⟨m, hm, he⟩ := newline_ends_line lines hnl _ (hp.nl j hi)
      exact ⟨m, hm, by rw [hp.link j hi, he]⟩
  have hend : ∃ b : Nat, b ≤ lines.length ∧ endOf chunks i + 1 = (offset lines b : Int) := by
    by_cases hl : i + 1 < chunks.length
    · obtain ⟨m, hm, he⟩ := newline_ends_line lines hnl _ (hp.nl i hl)
      exact ⟨m, hm, he.symm⟩
    · have : i = chunks.length - 1 := by omega
      refine ⟨lines.length, le_refl _, ?_⟩
      rw [this, hp.last, offset_length]; omega
  obtain ⟨a, ha, hsa⟩ := hstart
  obtain ⟨b, hb, heb⟩ := hend
  refine ⟨a, b, ?_, hb, hsa, heb⟩
  have := hp.mono i hi
  exact (offset_le_iff lines ha hb).mp (by omega)

theorem linesOf_aligned (lines : List (List Byte)) (c : Chunk) (a b : Nat)
    (hab : a ≤ b) (hb : b ≤ lines.length)
    (hs : c.Start = (offset lines a : Int)) (he : c.End + 1 = (offset lines b : Int)) :
    linesOf lines c = (lines.drop a).take (b - a) := by
  unfold linesOf
  rw [hs, he, lineIndexAt_offset lines a (by omega), lineIndexAt_offset lines b hb]

theorem chunkLines_append (lines : List (List Byte)) (xs ys : List Chunk) :
    chunkLines lines (xs ++ ys) = chunkLines lines xs ++ chunkLines lines ys := by
  induction xs with
  | nil => rfl
  | cons c cs ih => simp [chunkLines, ih]

theorem updates_append (parse : List Byte → Option ℚ) (xs ys : List (List Byte)) :
    updates parse (xs ++ ys) = updates parse xs ++ updates parse ys := by
  simp [updates, List.filterMap_append]

theorem samplesFor_append (k : Key) (xs ys : List (Key × ℚ)) :
    samplesFor k (xs ++ ys) = samplesFor k xs ++ samplesFor k ys := by
  simp [samplesFor, List.filter_append]

theorem mem_linesOf_sub {lines : List (List Byte)} {c : Chunk} {l : List Byte}
    (h : l ∈ linesOf lines c) : l ∈ lines :=
  List.mem_of_mem_drop (List.mem_of_mem_take h)

/-- Scanning a chunk cut at line boundaries applies the lines of that chunk. -/
theorem processChunk_aligned (parse : List Byte → Option ℚ) (lines : List (List Byte))
    (c : Chunk) (s : Machine) (hm : ∀ l ∈ lines, Marked l) (hc : Aligned lines c) :
    ∃ log, processChunk parse (render lines) c.Start c.End s
      = ((applyLines parse (linesOf lines c) s.results).1,
          { accesses := s.accesses ++ log,
            results := (applyLines parse (linesOf lines c) s.results).2 }) := by
  obtain ⟨a, b, hab, hb, hs, he⟩ := hc
  have hl := linesOf_aligned lines c a b hab hb hs he
  have hsplit : lines = lines.take a ++ (linesOf lines c ++ lines.drop b) := by
    rw [hl]
    have h1 : (lines.drop a).take (b - a) ++ lines.drop b = lines.drop a := by
      have := List.take_append_drop (b - a) (lines.drop a)
      rw [List.drop_drop, show a + (b - a) = b by omega] at this
      exact this
    rw [h1, List.take_append_drop]
  have hbuf : render lines
      = render (lines.take a) ++ (render (linesOf lines c) ++ render (lines.drop b)) := by
    conv_lhs => rw [hsplit]
    rw [render_append, render_append]
  have hlen : ((render (linesOf lines c)).length : Int)
      = (offset lines b : Int) - (offset lines a : Int) := by
    have h2 : lines.take b = lines.take a ++ linesOf lines c := by
      rw [hl]
      have := List.take_add lines a (b - a)
      rw [show a + (b - a) = b by omega] at this
      exact this
    have h3 : offset lines b = offset lines a + (render (linesOf lines c)).length := by
      unfold offset
      rw [h2, render_append, List.length_append]
    omega
  have key := processChunk_on_lines parse (render (lines.take a)) (render (lines.drop b))
    (linesOf lines c) s (fun l hl => hm l (mem_linesOf_sub hl))
  rw [← hbuf] at key
  have e1 : (((render (lines.take a)).length : Nat) : Int) = c.Start := by rw [hs]; rfl
  have e2 : (((render (lines.take a)).length : Nat) : Int)
      + ((render (linesOf lines c)).length : Int) - 1 = c.End := by
    rw [hlen]
    have : (((render (lines.take a)).length : Nat) : Int) = (offset lines a : Int) := rfl
    omega
  rw [e2, e1] at key
  exact key

/-- The workers run one after another on chunks cut at line boundaries apply
the lines of the chunks in the order of the run, when every value field parses. -/
theorem runChunks_aligned (parse : List Byte → Option ℚ) (lines : List (List Byte))
    (hm : ∀ l ∈ lines, Marked l) (hgood : ∀ l ∈ lines, ¬ BadField parse l) :
    ∀ (cs : List Chunk) (s : Machine), (∀ c ∈ cs, Aligned lines c) →
      ∃ log, runChunks parse (render lines) cs s
        = (Except.ok (), Machine.mk (s.accesses ++ log)
            (applyUpdates s.results (updates parse (chunkLines lines cs)))) := by
  intro cs
  induction cs with
  | nil =>
    intro s _
    exact ⟨[], by simp [runChunks, chunkLines, updates, applyUpdates]⟩
  | cons c cs ih =>
    intro s hal
    obtain ⟨log1, h1⟩ := processChunk_aligned parse lines c s hm (hal c (by simp))
    rw [applyLines_ok parse _ _ (fun l hl => hgood l (mem_linesOf_sub hl))] at h1
    obtain ⟨log2, h2⟩ := ih
      (Machine.mk (s.accesses ++ log1)
        (applyUpdates s.results (updates parse (linesOf lines c))))
      (fun x hx => hal x (by simp [hx]))
    refine ⟨log1 ++ log2, ?_⟩
    rw [runChunks, bind_run, h1]
    simp only []
    rw [h2]
    simp [chunkLines, updates_append, applyUpdates_append]

/-- The lines of the chunks of a plan, taken chunk after chunk, are the lines
of the buffer: no line is lost, repeated or cut. -/
theorem chunkLines_plan {lines : List (List Byte)} {chunks : List Chunk}
    (hnl : ∀ l ∈ lines, NL ∉ l) (hp : Plan (render lines) chunks)
    (hpos : 0 < chunks.length) : chunkLines lines chunks = lines := by
  have step : ∀ n : Nat, n ≤ chunks.length →
      ∃ m : Nat, m ≤ lines.length ∧ chunkLines lines (chunks.take n) = lines.take m ∧
        (offset lines m : Int)
          = if n < chunks.length then startOf chunks n else ((render lines).length : Int) := by
    intro n
    induction n with
    | zero =>
      intro _
      exact ⟨0, by omega, by simp [chunkLines], by rw [if_pos hpos, hp.first, offset_zero]; rfl⟩
    | succ n ih =>
      intro hn
      have hn' : n < chunks.length := by omega
      obtain ⟨m, hm, hcl, hoff⟩ := ih (by omega)
      rw [if_pos hn'] at hoff
      obtain ⟨a, b, hab, hb, hs, he⟩ := aligned_of_plan hnl hp n hn'
      have ham : a = m := by
        apply offset_inj lines (by omega) hm
        have : (offset lines a : Int) = (offset lines m : Int) := by rw [← hs, hoff]
        exact_mod_cast this
      subst ham
      have hcn : chunks.getD n (Chunk.mk 0 0) = chunks[n] := by
        simp [List.getD_eq_getElem?_getD, List.getElem?_eq_getElem hn']
      have hl := linesOf_aligned lines chunks[n] a b hab hb
        (by rw [← hcn]; exact hs) (by rw [← hcn]; exact he)
      refine ⟨b, hb, ?_, ?_⟩
      · rw [List.take_succ, chunkLines_append, hcl, List.getElem?_eq_getElem hn']
        simp only [Option.toList, chunkLines, List.append_nil]
        rw [hl]
        have := List.take_add lines a (b - a)
        rw [show a + (b - a) = b by omega] at this
        exact this.symm
      · by_cases hl2 : n + 1 < chunks.length
        · rw [if_pos hl2, hp.link n hl2, ← he]
        · rw [if_neg hl2, ← he]
          have : n = chunks.length - 1 := by omega
          rw [this, hp.last]; omega
  obtain ⟨m, hm, hcl, hoff⟩ := step chunks.length (le_refl _)
  rw [if_neg (by omega)] at hoff
  have hml : m = lines.length := by
    apply offset_inj lines hm (le_refl _)
    rw [offset_length]
    exact_mod_cast hoff
  rw [List.take_length] at hcl
  rw [hcl, hml, List.take_length]

theorem scanLine_some : ∀ (l : List Byte) (k : Key) (v : List Byte),
    scanLine l = some (k, v) → l = k ++ SEMI :: v ∧ HASH ∉ k ∧ SEMI ∉ k := by
  intro l
  induction l with
  | nil => intro k v h; simp [scanLine] at h
  | cons b r ih =>
    intro k v h
    by_cases hh : b = HASH
    · simp [scanLine, hh] at h
    · by_cases hs : b = SEMI
      · subst hs
        simp only [scanLine, hh, if_false, if_true, Option.some.injEq, Prod.mk.injEq] at h
        obtain ⟨rfl, rfl⟩ := h
        simp
      · simp only [scanLine, hh, hs, if_false] at h
        cases hr : scanLine r with
        | none => rw [hr] at h; simp at h
        | some kv =>
          obtain ⟨k', v'⟩ := kv
          rw [hr] at h
          simp only [Option.map_some', Option.some.injEq, Prod.mk.injEq] at h
          obtain ⟨rfl, rfl⟩ := h
          obtain ⟨e1, e2, e3⟩ := ih k' v' hr
          refine ⟨by rw [e1]; simp, ?_, ?_⟩
          · intro hm
            rcases List.mem_cons.mp hm with h | h
            · exact hh h.symm
            · exact e2 h
          · intro hm
            rcases List.mem_cons.mp hm with h | h
            · exact hs h.symm
            · exact e3 h

theorem keyOf_split : ∀ (k : Key) (v : List Byte), SEMI ∉ k → keyOf (k ++ SEMI :: v) = k := by
  intro k
  induction k with
  | nil => intro v _; simp [keyOf]
  | cons b r ih =>
    intro v h
    have hb : b ≠ SEMI := fun e => h (by simp [e])
    have := ih v (fun e => h (by simp [e]))
    have hd : decide (b ≠ SEMI) = true := by simpa using hb
    unfold keyOf at this ⊢
    rw [List.cons_append, List.takeWhile_cons, hd, if_pos rfl, this]

theorem valueOf_split : ∀ (k : Key) (v : List Byte), SEMI ∉ k → valueOf (k ++ SEMI :: v) = v := by
  intro k
  induction k with
  | nil => intro v _; simp [valueOf]
  | cons b r ih =>
    intro v h
    have hb : b ≠ SEMI := fun e => h (by simp [e])
    have := ih v (fun e => h (by simp [e]))
    have hd : decide (b ≠ SEMI) = true := by simpa using hb
    unfold valueOf at this ⊢
    rw [List.cons_append, List.dropWhile_cons, hd, if_pos rfl, this]

/-- A line from which the scanner takes a key and a value field is a data line
with that key and that value field. -/
theorem isData_of_scanLine {l : List Byte} {k : Key} {v : List Byte}
    (h : scanLine l = some (k, v)) : isData l ∧ keyOf l = k ∧ valueOf l = v := by
  obtain ⟨e, h1, h2⟩ := scanLine_some l k v h
  refine ⟨⟨?_, by rw [e]; simp⟩, by rw [e]; exact keyOf_split k v h2,
    by rw [e]; exact valueOf_split k v h2⟩
  intro hc
  unfold isComment at hc
  rw [e] at hc
  cases k with
  | nil => simp at hc; exact absurd hc (by decide)
  | cons b r =>
    simp at hc
    exact h1 (by simp [hc])

theorem not_badField_of_parses (parse : List Byte → Option ℚ) {l : List Byte}
    (h : isData l → (parse (valueOf l)).isSome) : ¬ BadField parse l := by
  rintro ⟨k, v, hs, hp⟩
  obtain ⟨hd, _, hv⟩ := isData_of_scanLine hs
  have := h hd
  rw [hv, hp] at this
  simp at this

theorem exists_line_of_samples (parse : List Byte → Option ℚ) (k : Key)
    (ls : List (List Byte)) (h : samplesFor k (updates parse ls) ≠ []) :
    ∃ l ∈ ls, isData l ∧ keyOf l = k := by
  unfold samplesFor at h
  obtain ⟨t, ht⟩ := List.exists_mem_of_ne_nil _ h
  obtain ⟨u, hu, _⟩ := List.mem_map.mp ht
  obtain ⟨hu1, hu2⟩ := List.mem_filter.mp hu
  have hk : u.1 = k := by simpa using hu2
  unfold updates at hu1
  obtain ⟨l, hl, hlu⟩ := List.mem_filterMap.mp hu1
  refine ⟨l, hl, ?_⟩
  unfold lineUpdate at hlu
  cases hs : scanLine l with
  | none => rw [hs] at hlu; simp at hlu
  | some kv =>
    obtain ⟨k', v'⟩ := kv
    rw [hs] at hlu
    simp only [Option.map_eq_some'] at hlu
    obtain ⟨t', _, hut⟩ := hlu
    obtain ⟨hd, hk', _⟩ := isData_of_scanLine hs
    refine ⟨hd, ?_⟩
    rw [hk', ← hk, ← hut]

/-- A line of a chunk cut at line boundaries starts at an index of the chunk. -/
theorem mem_linesOf_position {lines : List (List Byte)} {c : Chunk} {l : List Byte}
    (hc : Aligned lines c) (h : l ∈ linesOf lines c) :
    ∃ p : Nat, p < lines.length ∧ lines.getD p [] = l ∧ c.covers (offset lines p : Int) := by
  obtain ⟨a, b, hab, hb, hs, he⟩ := hc
  rw [linesOf_aligned lines c a b hab hb hs he] at h
  obtain ⟨n, hn, hgl⟩ := List.getElem_of_mem h
  have hn2 : n < b - a := by
    have := hn
    simp only [List.length_take, List.length_drop] at this
    omega
  rw [List.getElem_take, List.getElem_drop] at hgl
  have hp : a + n < lines.length := by omega
  refine ⟨a + n, hp, ?_, ?_⟩
  · simp [List.getD_eq_getElem?_getD, List.getElem?_eq_getElem hp, hgl]
  · unfold Chunk.covers
    have h1 := (offset_le_iff lines (show a ≤ lines.length by omega)
      (show a + n ≤ lines.length by omega)).mpr (by omega)
    have h2 := offset_lt_succ lines (a + n) hp
    have h3 := (offset_le_iff lines (show a + n + 1 ≤ lines.length by omega) hb).mpr (by omega)
    omega

/-- When all data lines of a key lie inside the chunk `i` of a plan, no other
chunk of the plan holds a sample of that key. -/
theorem samples_only_in_chunk (parse : List Byte → Option ℚ) {lines : List (List Byte)}
    {chunks : List Chunk} (k : Key) (hnl : ∀ l ∈ lines, NL ∉ l)
    (hp : Plan (render lines) chunks) (i : Nat) (hi : i < chunks.length)
    (hkey : ∀ p : Nat, p < lines.length → isData (lines.getD p []) →
      keyOf (lines.getD p []) = k → lineInside lines p (chunks.getD i (Chunk.mk 0 0)))
    (j : Nat) (hj : j < chunks.length)
    (hne : samplesFor k (updates parse (linesOf lines (chunks.getD j (Chunk.mk 0 0)))) ≠ []) :
    j = i := by
  obtain ⟨l, hl, hd, hk⟩ := exists_line_of_samples parse k _ hne
  have hal : Aligned lines (chunks.getD j (Chunk.mk 0 0)) := by
    obtain ⟨a, b, h1, h2, h3, h4⟩ := aligned_of_plan hnl hp j hj
    exact ⟨a, b, h1, h2, h3, h4⟩
  obtain ⟨p, hpl, hpe, hcov⟩ := mem_linesOf_position hal hl
  have hin := hkey p hpl (by rw [hpe]; exact hd) (by rw [hpe]; exact hk)
  unfold lineInside at hin
  unfold Chunk.covers at hcov
  have hsj : startOf chunks j = (chunks.getD j (Chunk.mk 0 0)).Start := rfl
  have hej : endOf chunks j = (chunks.getD j (Chunk.mk 0 0)).End := rfl
  have hsi : startOf chunks i = (chunks.getD i (Chunk.mk 0 0)).Start := rfl
  have hei : endOf chunks i = (chunks.getD i (Chunk.mk 0 0)).End := rfl
  by_contra hji
  rcases Nat.lt_or_gt_of_ne hji with h | h
  · have := hp.end_lt_start j (i - j - 1) (by omega)
    rw [show j + (i - j - 1) + 1 = i by omega] at this
    omega
  · have := hp.end_lt_start i (j - i - 1) (by omega)
    rw [show i + (j - i - 1) + 1 = j by omega] at this
    omega

/-- The samples of a key gathered over chunks do not depend on the order of
the chunks when no two of the chunks both hold a sample of the key. -/
theorem samples_perm (parse : List Byte → Option ℚ) (lines : List (List Byte)) (k : Key)
    {xs ys : List Chunk} (hperm : xs.Perm ys)
    (hpw : xs.Pairwise (fun c d =>
      samplesFor k (updates parse (linesOf lines c)) = [] ∨
      samplesFor k (updates parse (linesOf lines d)) = [])) :
    samplesFor k (updates parse (chunkLines lines xs))
      = samplesFor k (updates parse (chunkLines lines ys)) := by
  induction hperm with
  | nil => rfl
  | cons c _ ih =>
    simp only [chunkLines, updates_append, samplesFor_append]
    rw [ih (List.Pairwise.of_cons hpw)]
  | swap c d l =>
    simp only [chunkLines, updates_append, samplesFor_append]
    have hr := (List.pairwise_cons.mp hpw).1 c (by simp)
    rcases hr with h | h <;> simp [h]
  | trans h1 _ ih1 ih2 =>
    rw [ih1 hpw]
    exact ih2 (h1.pairwise hpw (fun h => h.symm))

/-! ## Pre- and postconditions of runs -/

theorem triple_bind {α β : Type} {P : Machine → Prop} {x : Exec α} {f : α → Exec β}
    {R : β → Machine → Prop} {E : Fault → Machine → Prop} (Q : α → Machine → Prop)
    (hx : Triple P x Q E) (hf : ∀ a, Triple (Q a) (f a) R E) : Triple P (x >>= f) R E := by
  intro s hs
  have h1 := hx s hs
  rw [bind_run]
  cases hxs : x s with
  | mk r s1 =>
    rw [hxs] at h1
    cases r with
    | error e => exact h1
    | ok a => exact hf a s1 h1

theorem triple_pure {α : Type} {P : Machine → Prop} {Q : α → Machine → Prop}
    {E : Fault → Machine → Prop} (a : α) (h : ∀ s, P s → Q a s) :
    Triple P (pure a : Exec α) Q E :=
  fun s hs => h s hs

theorem triple_fail {α : Type} {P : Machine → Prop} {Q : α → Machine → Prop}
    {E : Fault → Machine → Prop} (e : Fault) (h : ∀ s, P s → E e s) :
    Triple P (Exec.fail e : Exec α) Q E :=
  fun s hs => h s hs

theorem triple_readByte {P : Machine → Prop} {Q : Byte → Machine → Prop}
    {E : Fault → Machine → Prop} (buf : List Byte) (i : Int)
    (hok : ∀ s b, P s → byteAt buf i = some b → Q b { s with accesses := s.accesses ++ [i] })
    (herr : ∀ s, P s → byteAt buf i = none →
      E (Fault.indexOutOfRange i) { s with accesses := s.accesses ++ [i] }) :
    Triple P (readByte buf i) Q E := by
  intro s hs
  cases hb : byteAt buf i with
  | none => rw [readByte_none hb]; exact herr s hs hb
  | some b => rw [readByte_some hb]; exact hok s b hs hb

theorem triple_readSlice {P : Machine → Prop} {Q : List Byte → Machine → Prop}
    {E : Fault → Machine → Prop} (buf : List Byte) (lo hi : Int)
    (hok : ∀ s, P s → 0 ≤ lo ∧ lo ≤ hi ∧ hi ≤ buf.length →
      Q ((buf.drop lo.toNat).take (hi - lo).toNat)
        { s with accesses := s.accesses ++ indexRange lo (hi - lo).toNat })
    (herr : ∀ s, P s → ¬ (0 ≤ lo ∧ lo ≤ hi ∧ hi ≤ buf.length) →
      E (Fault.sliceOutOfRange lo hi) s) :
    Triple P (readSlice buf lo hi) Q E := by
  intro s hs
  unfold readSlice
  by_cases hc : 0 ≤ lo ∧ lo ≤ hi ∧ hi ≤ buf.length
  · rw [if_pos hc]; exact hok s hs hc
  · rw [if_neg hc]; exact herr s hs hc

theorem triple_modifyResults {P : Machine → Prop} {Q : Unit → Machine → Prop}
    {E : Fault → Machine → Prop} (f : Results → Results)
    (h : ∀ s, P s → Q () { s with results := f s.results }) :
    Triple P (modifyResults f) Q E :=
  fun s hs => h s hs

theorem within_append {lo hi : Int} {s : Machine} (hs : Within lo hi s) (l : List Int)
    (hl : ∀ a ∈ l, lo ≤ a ∧ a ≤ hi) :
    Within lo hi { s with accesses := s.accesses ++ l } := by
  intro a ha
  rcases List.mem_append.mp ha with h | h
  · exact hs a h
  · exact hl a h

theorem within_results {lo hi : Int} {s : Machine} (hs : Within lo hi s) (m : Results) :
    Within lo hi { s with results := m } :=
  fun a ha => hs a ha

theorem triple_of_fact {α : Type} {F : Prop} {P : Machine → Prop} {x : Exec α}
    {Q : α → Machine → Prop} {E : Fault → Machine → Prop} (h : F → Triple P x Q E) :
    Triple (fun s => F ∧ P s) x Q E :=
  fun s hs => h hs.1 s hs.2

theorem triple_weaken {α : Type} {P : Machine → Prop} {x : Exec α}
    {Q Q' : α → Machine → Prop} {E E' : Fault → Machine → Prop} (h : Triple P x Q E)
    (hq : ∀ a s, Q a s → Q' a s) (he : ∀ e s, E e s → E' e s) : Triple P x Q' E' := by
  intro s hs
  have := h s hs
  cases hr : x s with
  | mk r s1 =>
    rw [hr] at this
    cases r with
    | error e => exact he e s1 this
    | ok a => exact hq a s1 this

/-- The forward scan inside a chunk that ends with a newline byte stays in the
chunk and stops at a newline of the chunk. -/
theorem triple_scanForward (buf : List Byte) (lo hi : Int) (h0 : 0 ≤ lo)
    (hnl : byteAt buf hi = some NL) :
    ∀ (fuel : Nat) (i : Int), lo ≤ i → i ≤ hi →
      Triple (Within lo hi) (scanForward buf fuel i)
        (fun j s => (i ≤ j ∧ j ≤ hi ∧ byteAt buf j = some NL) ∧ Within lo hi s)
        (fun e s => e = Fault.outOfFuel ∧ Within lo hi s) := by
  intro fuel
  induction fuel with
  | zero =>
    intro i _ _
    rw [scanForward]
    exact triple_fail _ (fun s hs => ⟨rfl, hs⟩)
  | succ fuel ih =>
    intro i hlo hhi
    rw [scanForward]
    have hin := byteAt_some_range hnl
    refine triple_bind (fun b s => byteAt buf i = some b ∧ Within lo hi s)
      (triple_readByte buf i
        (fun s b hs hb => ⟨hb, within_append hs _ (by simp; omega)⟩)
        (fun s _ hb => by rw [byteAt_none_iff] at hb; omega))
      (fun b => triple_of_fact (fun hbi => ?_))
    by_cases hb : b = NL
    · subst hb
      simp only [ne_eq, not_true_eq_false, if_false]
      exact triple_pure _ (fun s hs => ⟨⟨le_refl _, hhi, hbi⟩, hs⟩)
    · simp only [hb, ne_eq, not_false_eq_true, if_true]
      have hne : i ≠ hi := by
        intro e; rw [e, hnl] at hbi
        exact hb (Option.some.inj hbi).symm
      exact triple_weaken (ih (i + 1) (by omega) (by omega))
        (fun j s h => ⟨⟨by omega, h.1.2⟩, h.2⟩) (fun e s h => h)

/-- The scanning loop on a chunk that ends with a newline byte accesses the
buffer only inside the chunk, and stops early only for a value that does not
parse (or for lack of fuel, which does not occur). -/
theorem triple_processLoop (parse : List Byte → Option ℚ) (buf : List Byte) (cs ce : Int)
    (h0 : 0 ≤ cs) (hnl : byteAt buf ce = some NL) :
    ∀ (fuel : Nat) (i prev : Int), cs ≤ prev → prev ≤ i →
      Triple (Within cs ce) (processLoop parse buf ce fuel i prev)
        (fun _ s => Within cs ce s)
        (fun e s => (e = Fault.outOfFuel ∨ ∃ f, e = Fault.parseFloat f) ∧ Within cs ce s) := by
  intro fuel
  induction fuel with
  | zero =>
    intro i prev _ _
    rw [processLoop]
    exact triple_fail _ (fun s hs => ⟨Or.inl rfl, hs⟩)
  | succ fuel ih =>
    intro i prev hp hpi
    have hin := byteAt_some_range hnl
    have hscan : ∀ i0 : Int, cs ≤ i0 → i0 ≤ ce →
        Triple (Within cs ce) (scanForward buf (buf.length + 1) i0)
          (fun j s => (i0 ≤ j ∧ j ≤ ce ∧ byteAt buf j = some NL) ∧ Within cs ce s)
          (fun e s => (e = Fault.outOfFuel ∨ ∃ f, e = Fault.parseFloat f) ∧ Within cs ce s) :=
      fun i0 h1 h2 => triple_weaken (triple_scanForward buf cs ce h0 hnl _ i0 h1 h2)
        (fun _ _ h => h) (fun e s h => ⟨Or.inl h.1, h.2⟩)
    rw [processLoop]
    by_cases hice : i ≤ ce
    · simp only [hice, if_true]
      refine triple_bind (fun b s => byteAt buf i = some b ∧ Within cs ce s)
        (triple_readByte buf i
          (fun s b hs hb => ⟨hb, within_append hs _ (by simp; omega)⟩)
          (fun s _ hb => by rw [byteAt_none_iff] at hb; omega))
        (fun b => triple_of_fact (fun hbi => ?_))
      refine triple_bind
        (fun ip s => (cs ≤ ip.2 ∧ ip.2 ≤ ip.1 + 1 ∧ i ≤ ip.1 ∧ ip.1 ≤ ce ∧
          (ip.2 ≤ ip.1 ∨ byteAt buf ip.1 = some NL)) ∧ Within cs ce s) ?_
        (fun ip => triple_of_fact (fun hip => ?_))
      · by_cases hb : b = HASH
        · simp only [hb, if_true]
          refine triple_bind
            (fun j s => (i ≤ j ∧ j ≤ ce ∧ byteAt buf j = some NL) ∧ Within cs ce s)
            (hscan i (by omega) hice)
            (fun j => triple_of_fact (fun hj => triple_pure _
              (fun s hs => ⟨⟨by simp; omega, by simp, hj.1, hj.2.1, Or.inr hj.2.2⟩, hs⟩)))
        · simp only [hb, if_false]
          exact triple_pure _
            (fun s hs => ⟨⟨hp, by simp; omega, le_refl _, hice, Or.inl hpi⟩, hs⟩)
      · obtain ⟨i1, p1⟩ := ip
        obtain ⟨hp1, hp1s, hi1, hi1ce, hor⟩ := hip
        simp only [] at hp1 hp1s hi1 hi1ce hor ⊢
        refine triple_bind (fun b2 s => byteAt buf i1 = some b2 ∧ Within cs ce s)
          (triple_readByte buf i1
            (fun s b hs hb => ⟨hb, within_append hs _ (by simp; omega)⟩)
            (fun s _ hb => by rw [byteAt_none_iff] at hb; omega))
          (fun b2 => triple_of_fact (fun hsemi => ?_))
        by_cases hb2 : b2 = SEMI
        · subst hb2
          simp only [if_true]
          have hp1i1 : p1 ≤ i1 := by
            rcases hor with h | h
            · exact h
            · rw [h] at hsemi; exact absurd (Option.some.inj hsemi) (by decide)
          have hi1lt : i1 < ce := by
            have : i1 ≠ ce := by
              intro e; rw [e, hnl] at hsemi
              exact absurd (Option.some.inj hsemi) (by decide)
            omega
          refine triple_bind (fun _ s => Within cs ce s)
            (triple_readSlice buf p1 i1
              (fun s hs _ => within_append hs _ (fun a ha => by
                have := mem_indexRange _ _ _ ha
                have e : (((i1 - p1).toNat : Nat) : Int) = i1 - p1 := by omega
                omega))
              (fun s _ hc => absurd ⟨by omega, hp1i1, by omega⟩ hc))
            (fun key => ?_)
          refine triple_bind
            (fun j s => (i1 + 1 ≤ j ∧ j ≤ ce ∧ byteAt buf j = some NL) ∧ Within cs ce s)
            (hscan (i1 + 1) (by omega) (by omega))
            (fun j => triple_of_fact (fun hj => ?_))
          refine triple_bind (fun _ s => Within cs ce s)
            (triple_readSlice buf (i1 + 1) j
              (fun s hs _ => within_append hs _ (fun a ha => by
                have := mem_indexRange _ _ _ ha
                have e : (((j - (i1 + 1)).toNat : Nat) : Int) = j - (i1 + 1) := by omega
                omega))
              (fun s _ hc => absurd ⟨by omega, hj.1, by omega⟩ hc))
            (fun field => ?_)
          cases parse field with
          | none =>
            exact triple_fail _ (fun s hs => ⟨Or.inr ⟨_, rfl⟩, hs⟩)
          | some t =>
            exact triple_bind (fun _ s => Within cs ce s)
              (triple_modifyResults _ (fun s hs => within_results hs _))
              (fun _ => ih (j + 1) (j + 1) (by omega) (le_refl _))
        · simp only [hb2, if_false]
          exact ih (i1 + 1) p1 hp1 hp1s
    · simp only [hice, if_false]
      exact triple_pure _ (fun s hs => hs)

/-! ## When the planner returns -/

theorem scanBackward_ok_start (buf : List Byte) (fuel : Nat) (j : Int) (s : Machine)
    (r : Int) (s' : Machine) (h : scanBackward buf fuel j s = (Except.ok r, s')) :
    0 ≤ j ∧ j < (buf.length : Int) := by
  cases fuel with
  | zero => simp [scanBackward] at h
  | succ fuel =>
    rw [scanBackward] at h
    cases hb : byteAt buf j with
    | none => simp [readByte_none hb] at h
    | some b => exact byteAt_some_range hb

/-- When the loop of the planner returns, every probe from the current
iteration on was inside the buffer. -/
theorem splitLoop_probes (buf : List Byte) (c n : Int) :
    ∀ (fuel : Nat) (i : Int) (chunks : List Chunk) (s : Machine) (cs : List Chunk)
      (s' : Machine), splitLoop buf c n fuel i chunks s = (Except.ok cs, s') →
      ∀ k : Int, i ≤ k → k < n → c * k + 50 < (buf.length : Int) := by
  intro fuel
  induction fuel with
  | zero => intro i chunks s cs s' h; simp [splitLoop] at h
  | succ fuel ih =>
    intro i chunks s cs s' h k hik hkn
    rw [splitLoop] at h
    have hin : i < n := by omega
    simp only [hin, if_true, bind_run] at h
    cases hscan : scanBackward buf (buf.length + 1) (c * i + 50) s with
    | mk r s1 =>
      rw [hscan] at h
      cases r with
      | error e => simp at h
      | ok j =>
        have hst := scanBackward_ok_start buf _ _ _ _ _ hscan
        simp only [] at h
        cases he : setEnd chunks (i - 1) j s1 with
        | mk r2 s2 =>
          rw [he] at h
          cases r2 with
          | error e => simp at h
          | ok c2 =>
            simp only [] at h
            cases hs : setStart c2 i (j + 1) s2 with
            | mk r3 s3 =>
              rw [hs] at h
              cases r3 with
              | error e => simp at h
              | ok c3 =>
                simp only [] at h
                by_cases hk : k = i
                · rw [hk]; exact hst.2
                · exact ih _ _ _ _ _ h k (by omega) hkn

theorem splitChunks_probes (buf : List Byte) (n : Int) (s s' : Machine) (chunks : List Chunk)
    (hn : 1 ≤ n) (h : splitChunks buf n s = (Except.ok chunks, s')) :
    ∀ k : Int, 1 ≤ k → k < n →
      Int.tdiv (buf.length : Int) n * k + 50 < (buf.length : Int) := by
  unfold splitChunks at h
  have hn0 : ¬ (n = 0) := by omega
  have hn1 : ¬ (n < 0) := by omega
  simp only [hn0, hn1, if_false, bind_run] at h
  cases h1 : setStart (List.replicate n.toNat (Chunk.mk 0 0)) 0 0 s with
  | mk r1 s1 =>
    rw [h1] at h
    cases r1 with
    | error e => simp at h
    | ok c1 =>
      simp only [] at h
      cases h2 : splitLoop buf (Int.tdiv (buf.length : Int) n) n n.toNat 1 c1 s1 with
      | mk r2 s2 =>
        rw [h2] at h
        cases r2 with
        | error e => simp at h
        | ok c2 => exact splitLoop_probes buf _ n _ _ _ _ _ _ h2

/-- The backward scan from an index of the buffer at or above a newline returns. -/
theorem triple_scanBackward_finds (buf : List Byte) (r : Int) (hr : byteAt buf r = some NL) :
    ∀ (fuel : Nat) (j : Int), r ≤ j → j < (buf.length : Int) → j - r < fuel →
      Triple (fun _ => True) (scanBackward buf fuel j) (fun _ _ => True)
        (fun _ _ => False) := by
  intro fuel
  induction fuel with
  | zero => intro j h1 _ h3; omega
  | succ fuel ih =>
    intro j h1 h2 h3
    have hr0 := byteAt_some_range hr
    rw [scanBackward]
    refine triple_bind (fun b _ => byteAt buf j = some b)
      (triple_readByte buf j (fun s b _ hb => hb)
        (fun s _ hb => by rw [byteAt_none_iff] at hb; omega))
      (fun b => ?_)
    intro s hb
    by_cases hnl : b = NL
    · simp [hnl]
    · simp only [hnl, ne_eq, not_false_eq_true, if_true]
      have hne : j ≠ r := by
        intro e; rw [e, hr] at hb
        exact hnl (Option.some.inj hb).symm
      exact ih (j - 1) (by omega) (by omega) (by push_cast at h3 ⊢; omega) s trivial

/-- The loop of the planner returns when every probe lies in the buffer and a
newline is stored at or below the first of them. -/
theorem triple_splitLoop_returns (buf : List Byte) (c : Int) (N : Nat) (hc : 0 ≤ c)
    (r : Int) (hr : byteAt buf r = some NL) :
    ∀ (fuel : Nat) (i : Nat) (chunks : List Chunk), 1 ≤ i → N - i < fuel →
      chunks.length = N → r ≤ c * i + 50 →
      (∀ k : Int, (i : Int) ≤ k → k < N → c * k + 50 < (buf.length : Int)) →
      Triple (fun _ => True) (splitLoop buf c N fuel i chunks) (fun cs _ => cs.length = N)
        (fun _ _ => False) := by
  intro fuel
  induction fuel with
  | zero => intro i chunks _ h; omega
  | succ fuel ih =>
    intro i chunks hi1 hfu hlen hri hpr
    rw [splitLoop]
    by_cases hlt : (i : Int) < N
    · have hiN : i < N := by exact_mod_cast hlt
      simp only [hlt, if_true]
      refine triple_bind (fun _ _ => True)
        (triple_scanBackward_finds buf r hr _ _ hri (hpr i (le_refl _) hlt) (by
          have := hpr i (le_refl _) hlt
          have := byteAt_some_range hr
          push_cast; omega))
        (fun j => ?_)
      refine triple_bind (fun c2 _ => c2.length = N) ?_ (fun c2 => ?_)
      · intro s _
        rw [setEnd_run chunks ((i : Int) - 1) j s (by omega)]
        simp [hlen]
      · refine triple_bind (fun c3 _ => c3.length = N) ?_ (fun c3 => ?_)
        · intro s h2
          rw [setStart_run c2 (i : Int) (j + 1) s (by omega)]
          simp [h2]
        · intro s h3
          have hmul : c * (i : Int) ≤ c * ((i + 1 : Nat) : Int) :=
            Int.mul_le_mul_of_nonneg_left (by push_cast; omega) hc
          have := ih (i + 1) c3 (by omega) (by omega) h3 (by omega)
            (fun k hk1 hk2 => hpr k (by push_cast at hk1; omega) hk2) s trivial
          have hcast : ((i : Int) + 1) = ((i + 1 : Nat) : Int) := by push_cast; ring
          rw [hcast]
          exact this
    · simp only [hlt, if_false]
      exact triple_pure _ (fun _ _ => hlen)

theorem splitChunks_returns (buf : List Byte) (n : Int) (s : Machine) (hn : 2 ≤ n)
    (hprobe : Int.tdiv (buf.length : Int) n * (n - 1) + 50 < (buf.length : Int))
    (r : Int) (hr : byteAt buf r = some NL)
    (hrle : r ≤ Int.tdiv (buf.length : Int) n + 50) :
    ∃ chunks s', splitChunks buf n s = (Except.ok chunks, s') := by
  obtain ⟨N, rfl⟩ : ∃ N : Nat, n = N := ⟨n.toNat, by omega⟩
  have hc : 0 ≤ Int.tdiv (buf.length : Int) (N : Int) :=
    Int.tdiv_nonneg (by omega) (by omega)
  have hpr : ∀ k : Int, ((1 : Nat) : Int) ≤ k → k < N →
      Int.tdiv (buf.length : Int) (N : Int) * k + 50 < (buf.length : Int) := by
    intro k _ hk2
    have : Int.tdiv (buf.length : Int) (N : Int) * k
        ≤ Int.tdiv (buf.length : Int) (N : Int) * ((N : Int) - 1) :=
      Int.mul_le_mul_of_nonneg_left (by omega) hc
    omega
  have key : Triple (fun _ => True) (splitChunks buf (N : Int)) (fun _ _ => True)
      (fun _ _ => False) := by
    unfold splitChunks
    have hn0 : ¬ ((N : Int) = 0) := by omega
    have hn1 : ¬ ((N : Int) < 0) := by omega
    simp only [hn0, hn1, if_false, Int.toNat_ofNat]
    refine triple_bind (fun c1 _ => c1.length = N) ?_ (fun c1 => ?_)
    · intro s _
      rw [setStart_run _ 0 0 s (by simp; omega)]
      simp
    · refine triple_bind (fun c2 _ => c2.length = N) ?_ (fun c2 => ?_)
      · intro s h1
        have := triple_splitLoop_returns buf _ N hc r hr N 1 c1 (le_refl _) (by omega) h1
          (by simpa using hrle) hpr s trivial
        simpa using this
      · intro s h2
        rw [setEnd_run c2 ((N : Int) - 1) _ s (by omega)]
        simp
  have := key s trivial
  cases hres : splitChunks buf (N : Int) s with
  | mk r1 s1 =>
    rw [hres] at this
    cases r1 with
    | error e => exact absurd this id
    | ok cs => exact ⟨cs, s1, rfl⟩

/-! ## How the planner stops -/

/-- The way a run of the planner stops early: an index expression whose index
is outside the buffer, recorded in the access log. -/
theorem triple_scanBackward_fault (buf : List Byte) :
    ∀ (fuel : Nat) (j : Int),
      Triple (fun _ => True) (scanBackward buf fuel j) (fun _ _ => True)
        (fun e s => e = Fault.outOfFuel ∨
          ∃ i : Int, e = Fault.indexOutOfRange i ∧ byteAt buf i = none ∧ i ∈ s.accesses) := by
  intro fuel
  induction fuel with
  | zero => intro j; rw [scanBackward]; exact triple_fail _ (fun _ _ => Or.inl rfl)
  | succ fuel ih =>
    intro j
    rw [scanBackward]
    refine triple_bind (fun _ _ => True)
      (triple_readByte buf j (fun _ _ _ _ => trivial)
        (fun s _ hb => Or.inr ⟨j, rfl, hb, by simp⟩))
      (fun b => ?_)
    by_cases hnl : b = NL
    · simp only [hnl, ne_eq, not_true_eq_false, if_false]
      exact triple_pure _ (fun _ _ => trivial)
    · simp only [hnl, ne_eq, not_false_eq_true, if_true]
      exact ih (j - 1)

theorem triple_splitLoop_fault (buf : List Byte) (c : Int) (N : Nat) :
    ∀ (fuel : Nat) (i : Nat) (chunks : List Chunk), 1 ≤ i → chunks.length = N →
      Triple (fun _ => True) (splitLoop buf c N fuel i chunks) (fun cs _ => cs.length = N)
        (fun e s => e = Fault.outOfFuel ∨
          ∃ i : Int, e = Fault.indexOutOfRange i ∧ byteAt buf i = none ∧ i ∈ s.accesses) := by
  intro fuel
  induction fuel with
  | zero => intro i chunks _ _; rw [splitLoop]; exact triple_fail _ (fun _ _ => Or.inl rfl)
  | succ fuel ih =>
    intro i chunks hi1 hlen
    rw [splitLoop]
    by_cases hlt : (i : Int) < N
    · have hiN : i < N := by exact_mod_cast hlt
      simp only [hlt, if_true]
      refine triple_bind (fun _ _ => True) (triple_scanBackward_fault buf _ _) (fun j => ?_)
      refine triple_bind (fun c2 _ => c2.length = N) ?_ (fun c2 => ?_)
      · intro s _
        rw [setEnd_run chunks ((i : Int) - 1) j s (by omega)]
        simp [hlen]
      · refine triple_bind (fun c3 _ => c3.length = N) ?_ (fun c3 => ?_)
        · intro s h2
          rw [setStart_run c2 (i : Int) (j + 1) s (by omega)]
          simp [h2]
        · intro s h3
          have := ih (i + 1) c3 (by omega) h3 s trivial
          have hcast : ((i : Int) + 1) = ((i + 1 : Nat) : Int) := by push_cast; ring
          rw [hcast]
          exact this
    · simp only [hlt, if_false]
      exact triple_pure _ (fun _ _ => hlen)

theorem triple_splitChunks_fault (buf : List Byte) (n : Int) (hn : 1 ≤ n) :
    Triple (fun _ => True) (splitChunks buf n) (fun _ _ => True)
      (fun e s => e = Fault.outOfFuel ∨
        ∃ i : Int, e = Fault.indexOutOfRange i ∧ byteAt buf i = none ∧ i ∈ s.accesses) := by
  obtain ⟨N, rfl⟩ : ∃ N : Nat, n = N := ⟨n.toNat, by omega⟩
  unfold splitChunks
  have hn0 : ¬ ((N : Int) = 0) := by omega
  have hn1 : ¬ ((N : Int) < 0) := by omega
  simp only [hn0, hn1, if_false, Int.toNat_ofNat]
  refine triple_bind (fun c1 _ => c1.length = N) ?_ (fun c1 => ?_)
  · intro s _
    rw [setStart_run _ 0 0 s (by simp; omega)]
    simp
  · refine triple_bind (fun c2 _ => c2.length = N) ?_ (fun c2 => ?_)
    · intro s h1
      have := triple_splitLoop_fault buf (Int.tdiv (buf.length : Int) (N : Int)) N N 1 c1
        (le_refl _) h1 s trivial
      simpa using this
    · intro s h2
      rw [setEnd_run c2 ((N : Int) - 1) _ s (by omega)]
      simp

/-- A run of the planner that stops early stops at an index expression whose
index is outside the buffer. -/
theorem splitChunks_fault (buf : List Byte) (n : Int) (hn : 1 ≤ n) (s : Machine) (e : Fault)
    (s' : Machine) (h : splitChunks buf n s = (Except.error e, s')) :
    ∃ i : Int, e = Fault.indexOutOfRange i ∧ (i < 0 ∨ (buf.length : Int) ≤ i) ∧
      i ∈ s'.accesses := by
  have h1 := triple_splitChunks_fault buf n hn s trivial
  rw [h] at h1
  rcases h1 with h1 | ⟨i, hi, hb, hm⟩
  · exact absurd (by rw [h, h1]) (fuelSuffices_splitChunks buf n s)
  · exact ⟨i, hi, (byteAt_none_iff buf i).mp hb, hm⟩

theorem okInRange_setStart (buf : List Byte) (chunks : List Chunk) (i v : Int) :
    OkInRange buf (setStart chunks i v) := by
  intro s r s' hs h
  unfold setStart at h
  split at h
  · cases h; exact hs
  · cases h

theorem okInRange_setEnd (buf : List Byte) (chunks : List Chunk) (i v : Int) :
    OkInRange buf (setEnd chunks i v) := by
  intro s r s' hs h
  unfold setEnd at h
  split at h
  · cases h; exact hs
  · cases h

theorem okInRange_splitLoop (buf : List Byte) (c n : Int) :
    ∀ (fuel : Nat) (i : Int) (chunks : List Chunk),
      OkInRange buf (splitLoop buf c n fuel i chunks) := by
  intro fuel
  induction fuel with
  | zero => intro i chunks; rw [splitLoop]; exact okInRange_fail buf _
  | succ fuel ih =>
    intro i chunks
    rw [splitLoop]
    split
    · refine okInRange_bind (okInRange_scanBackward buf _ _) (fun j => ?_)
      refine okInRange_bind (okInRange_setEnd buf _ _ _) (fun c2 => ?_)
      exact okInRange_bind (okInRange_setStart buf _ _ _) (fun c3 => ih _ _)
    · exact okInRange_pure buf _

/-- A run of the planner that returns has accessed the buffer only at indices
inside it. -/
theorem okInRange_splitChunks (buf : List Byte) (n : Int) : OkInRange buf (splitChunks buf n) := by
  unfold splitChunks
  split
  · exact okInRange_fail buf _
  · split
    · exact okInRange_fail buf _
    · refine okInRange_bind (okInRange_setStart buf _ _ _) (fun c1 => ?_)
      exact okInRange_bind (okInRange_splitLoop buf _ _ _ _ _) (fun c2 => okInRange_setEnd buf _ _ _)

/-! ## Lines without `#` and `;` join the next key -/

/-- The scanning loop steps over bytes other than `#` and `;` without moving
the record start. -/
theorem processLoop_junk (parse : List Byte → Option ℚ) (buf : List Byte) (ce : Int) :
    ∀ (junk pre rest : List Byte) (fuel : Nat) (i prev : Int) (s : Machine),
      buf = pre ++ (junk ++ rest) → i = pre.length →
      (∀ b ∈ junk, b ≠ HASH ∧ b ≠ SEMI) → i + junk.length - 1 ≤ ce →
      ∃ log, processLoop parse buf ce (fuel + junk.length) i prev s
        = processLoop parse buf ce fuel (i + junk.length) prev
            { s with accesses := s.accesses ++ log } := by
  intro junk
  induction junk with
  | nil =>
    intro pre rest fuel i prev s _ _ _ _
    exact ⟨[], by simp⟩
  | cons b r ih =>
    intro pre rest fuel i prev s hbuf hi hj hce
    have hb : byteAt buf i = some b :=
      byteAt_of_split (A := pre) (C := r ++ rest) (by simp [hbuf]) hi
    have hice : i ≤ ce := by simp at hce; omega
    obtain ⟨log, hlog⟩ := ih (pre ++ [b]) rest fuel (i + 1) prev
      { s with accesses := s.accesses ++ [i, i] } (by simp [hbuf]) (by simp [hi])
      (fun x hx => hj x (by simp [hx])) (by simp at hce ⊢; omega)
    refine ⟨[i, i] ++ log, ?_⟩
    have hf : fuel + (b :: r).length = (fuel + r.length) + 1 := by simp; omega
    rw [hf, processLoop_plain parse buf ce _ i prev s b hb hice (hj b (by simp)).1
      (hj b (by simp)).2, hlog]
    have e : i + 1 + (r.length : Int) = i + ((b :: r).length : Int) := by
      simp only [List.length_cons]; push_cast; omega
    rw [e]
    simp

/-- What the scanner takes from bytes without `#` and `;` followed by a line:
the key of the line with those bytes in front. -/
theorem scanLine_junk : ∀ (junk l : List Byte), (∀ b ∈ junk, b ≠ HASH ∧ b ≠ SEMI) →
    scanLine (junk ++ l) = (scanLine l).map (fun kv => (junk ++ kv.1, kv.2)) := by
  intro junk
  induction junk with
  | nil =>
    intro l _
    rw [List.nil_append]
    cases scanLine l with
    | none => rfl
    | some kv => simp
  | cons b r ih =>
    intro l hj
    have h1 := (hj b (by simp)).1
    have h2 := (hj b (by simp)).2
    rw [List.cons_append, scanLine]
    simp only [h1, h2, if_false]
    rw [ih l (fun x hx => hj x (by simp [hx]))]
    cases scanLine l <;> simp

/-- Outcome of the scanner on one unit: bytes without `#` and `;`, then a
marked line. -/
theorem processLoop_unit (parse : List Byte → Option ℚ) (buf pre post : List Byte) (ce : Int)
    (u junk l : List Byte) (fuel : Nat) (p nxt : Int) (s : Machine) (hu : u = junk ++ l)
    (hbuf : buf = pre ++ (u ++ NL :: post)) (hp : p = pre.length)
    (hnxt : nxt = p + u.length + 1)
    (hj : ∀ b ∈ junk, b ≠ HASH ∧ b ≠ SEMI) (hm : Marked l)
    (hf : u.length + 1 ≤ fuel) (hce : p + u.length ≤ ce) :
    ∃ (fuel' : Nat) (log : List Int), fuel ≤ fuel' + u.length + 1 ∧
      processLoop parse buf ce fuel p p s
        = match scanLine u with
          | none =>
            processLoop parse buf ce fuel' nxt nxt { s with accesses := s.accesses ++ log }
          | some (k, v) =>
            match parse v with
            | none => (Except.error (Fault.parseFloat v),
                { s with accesses := s.accesses ++ log })
            | some t =>
              processLoop parse buf ce fuel' nxt nxt
                { accesses := s.accesses ++ log,
                  results := recordSample s.results k t } := by
  subst hu
  have hlen : (junk ++ l).length = junk.length + l.length := List.length_append _ _
  obtain ⟨f0, rfl⟩ : ∃ f0, fuel = f0 + junk.length := ⟨fuel - junk.length, by omega⟩
  obtain ⟨log1, hlog1⟩ := processLoop_junk parse buf ce junk pre (l ++ NL :: post) f0 p p s
    (by simp [hbuf]) hp hj (by
      have : 0 < l.length := by
        rcases hm.2 with h | h <;> exact List.length_pos_of_mem h
      omega)
  obtain ⟨fuel', log2, hfu, hrun⟩ := processLoop_line parse buf pre post ce l junk f0
    (p + junk.length) p nxt { s with accesses := s.accesses ++ log1 }
    (by simp [hbuf]) hp rfl (by rw [hnxt, hlen]; push_cast; omega) hj hm (by omega)
    (by rw [hlen] at hce; push_cast at hce; omega)
  refine ⟨fuel', log1 ++ log2, by omega, ?_⟩
  rw [hlog1, hrun, scanLine_junk junk l hj]
  cases scanLine l with
  | none => simp
  | some kv =>
    obtain ⟨k, v⟩ := kv
    simp only [Option.map_some']
    cases parse v with
    | none => simp
    | some t => simp

/-- Outcome of the scanner on a run of units followed by bytes without `#` and
`;` that end the chunk. -/
theorem processLoop_units (parse : List Byte → Option ℚ) (buf post tail : List Byte)
    (htail : ∀ b ∈ tail, b ≠ HASH ∧ b ≠ SEMI) :
    ∀ (units : List (List Byte)) (pre : List Byte) (fuel : Nat) (i ce : Int) (s : Machine),
      buf = pre ++ (render units ++ (tail ++ post)) → i = pre.length →
      ce = i + (render units).length + tail.length - 1 →
      (∀ u ∈ units, ∃ junk l, u = junk ++ l ∧ (∀ b ∈ junk, b ≠ HASH ∧ b ≠ SEMI) ∧ Marked l) →
      (render units).length + tail.length + 1 ≤ fuel →
      ∃ log, processLoop parse buf ce fuel i i s
        = ((applyLines parse units s.results).1,
            { accesses := s.accesses ++ log,
              results := (applyLines parse units s.results).2 }) := by
  intro units
  induction units with
  | nil =>
    intro pre fuel i ce s hbuf hi hce _ hf
    obtain ⟨f0, rfl⟩ : ∃ f0, fuel = (f0 + 1) + tail.length :=
      ⟨fuel - tail.length - 1, by simp [render] at hf; omega⟩
    obtain ⟨log, hlog⟩ := processLoop_junk parse buf ce tail pre post (f0 + 1) i i s
      (by simp [hbuf, render]) hi htail (by simp [render] at hce; omega)
    refine ⟨log, ?_⟩
    rw [hlog, processLoop]
    have : ¬ i + (tail.length : Int) ≤ ce := by simp [render] at hce; omega
    simp [this, applyLines]
  | cons u us ih =>
    intro pre fuel i ce s hbuf hi hce hu hf
    obtain ⟨junk, l, hul, hj, hm⟩ := hu u (by simp)
    have hlen : (render (u :: us)).length = u.length + 1 + (render us).length := by
      simp [render_cons]; omega
    obtain ⟨fuel', log0, hfu, hrun⟩ := processLoop_unit parse buf pre
      (render us ++ (tail ++ post)) ce u junk l fuel i (i + u.length + 1) s hul
      (by simp [hbuf, render_cons]) hi rfl hj hm (by omega) (by omega)
    have hrest : ∀ s1 : Machine, ∃ log, processLoop parse buf ce fuel'
        (i + u.length + 1) (i + u.length + 1) s1
        = ((applyLines parse us s1.results).1,
            { accesses := s1.accesses ++ log,
              results := (applyLines parse us s1.results).2 }) := by
      intro s1
      exact ih (pre ++ (u ++ [NL])) fuel' (i + u.length + 1) ce s1
        (by simp [hbuf, render_cons]) (by simp [hi]; omega) (by omega)
        (fun x hx => hu x (by simp [hx])) (by omega)
    rw [hrun]
    simp only [applyLines]
    cases hsl : scanLine u with
    | none =>
      obtain ⟨log, hlog⟩ := hrest { s with accesses := s.accesses ++ log0 }
      exact ⟨log0 ++ log, by simp [hlog]⟩
    | some kv =>
      obtain ⟨k, v⟩ := kv
      simp only []
      cases hpv : parse v with
      | none => exact ⟨log0, by simp⟩
      | some t =>
        obtain ⟨log, hlog⟩ := hrest (Machine.mk (s.accesses ++ log0)
          (recordSample s.results k t))
        exact ⟨log0 ++ log, by simp [hlog]⟩

theorem render_unmarked (ls : List (List Byte)) (h : ∀ l ∈ ls, Unmarked l) :
    ∀ b ∈ render ls, b ≠ HASH ∧ b ≠ SEMI := by
  induction ls with
  | nil => intro b hb; simp [render] at hb
  | cons l r ih =>
    intro b hb
    rw [render_cons] at hb
    rcases List.mem_append.mp hb with hb | hb
    · have := h l (by simp)
      exact ⟨fun e => this.2.1 (e ▸ hb), fun e => this.2.2 (e ▸ hb)⟩
    · rcases List.mem_cons.mp hb with hb | hb
      · subst hb; exact ⟨by decide, by decide⟩
      · exact ih (fun x hx => h x (by simp [hx])) b hb

theorem render_groupLines : ∀ gs : List (List (List Byte) × List Byte),
    render (groupLines gs) = render (gs.map unitOf) := by
  intro gs
  induction gs with
  | nil => rfl
  | cons g gs ih =>
    simp only [groupLines, List.map_cons, render_cons, unitOf]
    rw [render_append, render_cons, ih]
    simp

/-! ## A last line without newline -/

/-- The forward scan over bytes without newline that end the buffer reads the
index one past the last byte. -/
theorem scanForward_overrun (buf : List Byte) :
    ∀ (mid A : List Byte) (fuel : Nat) (i : Int) (s : Machine),
      buf = A ++ mid → i = A.length → NL ∉ mid → mid.length + 1 ≤ fuel →
      ∃ log, scanForward buf fuel i s
        = (Except.error (Fault.indexOutOfRange (buf.length : Int)),
            { s with accesses := s.accesses ++ (log ++ [(buf.length : Int)]) }) := by
  intro mid
  induction mid with
  | nil =>
    intro A fuel i s hbuf hi _ hf
    obtain ⟨f, rfl⟩ : ∃ f, fuel = f + 1 := ⟨fuel - 1, by simp at hf; omega⟩
    refine ⟨[], ?_⟩
    have hiL : i = (buf.length : Int) := by rw [hi, hbuf]; simp
    subst hiL
    have hb : byteAt buf (buf.length : Int) = none :=
      (byteAt_none_iff buf _).mpr (Or.inr (le_refl _))
    rw [scanForward, bind_run, readByte_none hb]
    simp
  | cons b mid ih =>
    intro A fuel i s hbuf hi hnl hf
    obtain ⟨f, rfl⟩ : ∃ f, fuel = f + 1 := ⟨fuel - 1, by simp at hf; omega⟩
    have hbn : b ≠ NL := fun h => hnl (by simp [h])
    have hmid : NL ∉ mid := fun h => hnl (by simp [h])
    have hb : byteAt buf i = some b := byteAt_of_split hbuf hi
    obtain ⟨log, hlog⟩ := ih (A ++ [b]) f (i + 1) { s with accesses := s.accesses ++ [i] }
      (by simpa using hbuf) (by simp [hi]) hmid (by simp at hf ⊢; omega)
    refine ⟨i :: log, ?_⟩
    rw [scanForward]
    simp only [bind_run, readByte_some hb, hbn, ne_eq, not_false_eq_true, if_true]
    rw [hlog]
    simp

/-- Outcome of the scanner on a last line that holds a `#` or a `;` and has no
newline after it: the scan for the newline leaves the buffer. -/
theorem processLoop_last_line (parse : List Byte → Option ℚ) (buf pre : List Byte) (ce : Int) :
    ∀ (l2 l1 : List Byte) (fuel : Nat) (i p : Int) (s : Machine),
      buf = pre ++ (l1 ++ l2) →
      p = pre.length → i = p + l1.length →
      (∀ b ∈ l1, b ≠ HASH ∧ b ≠ SEMI) → Marked l2 →
      l2.length + 1 ≤ fuel → i + l2.length - 1 ≤ ce →
      ∃ log, processLoop parse buf ce fuel i p s
        = (Except.error (Fault.indexOutOfRange (buf.length : Int)),
            { s with accesses := s.accesses ++ (log ++ [(buf.length : Int)]) }) := by
  intro l2
  induction l2 with
  | nil =>
    intro l1 fuel i p s _ _ _ _ hm
    exact absurd hm.2 (by simp)
  | cons b r ih =>
    intro l1 fuel i p s hbuf hp hi hl1 hm hf hce
    obtain ⟨f, rfl⟩ : ∃ f, fuel = f + 1 := ⟨fuel - 1, by simp at hf; omega⟩
    have hnlr : NL ∉ r := fun h => hm.1 (by simp [h])
    have hice : i ≤ ce := by simp at hce; omega
    have hb : byteAt buf i = some b :=
      byteAt_of_split (A := pre ++ l1) (C := r) (by simp [hbuf]) (by simp [hi, hp])
    by_cases hh : b = HASH
    · -- a comment: the scan for its newline leaves the buffer
      obtain ⟨log, hlog⟩ := scanForward_overrun buf (b :: r) (pre ++ l1) (buf.length + 1) i
        { s with accesses := s.accesses ++ [i] } (by simp [hbuf]) (by simp [hi, hp]) hm.1
        (by simp [hbuf]; omega)
      refine ⟨[i] ++ log, ?_⟩
      rw [processLoop]
      simp only [hice, if_true, bind_run, readByte_some hb, pure_run, hh]
      rw [hlog]
      simp
    · by_cases hs : b = SEMI
      · -- a record: the scan for the end of the value leaves the buffer
        subst hs
        obtain ⟨log1, hlog1⟩ := readSlice_mid buf pre l1 (SEMI :: r) p i
          { s with accesses := s.accesses ++ [i] ++ [i] } (by simp [hbuf]) hp hi
        obtain ⟨log2, hlog2⟩ := scanForward_overrun buf r (pre ++ (l1 ++ [SEMI]))
          (buf.length + 1) (i + 1)
          { s with accesses := s.accesses ++ [i] ++ [i] ++ log1 } (by simp [hbuf])
          (by simp [hi, hp]; omega) hnlr (by simp [hbuf]; omega)
        refine ⟨[i] ++ [i] ++ log1 ++ log2, ?_⟩
        rw [processLoop]
        simp only [hice, if_true, bind_run, readByte_some hb, pure_run, hh, if_false]
        rw [hlog1]
        simp only []
        rw [hlog2]
        simp
      · -- any other byte: go on inside the line
        have hmr : Marked r := by
          refine ⟨hnlr, ?_⟩
          rcases hm.2 with h | h
          · left
            rcases List.mem_cons.mp h with h | h
            · exact absurd h.symm hh
            · exact h
          · right
            rcases List.mem_cons.mp h with h | h
            · exact absurd h.symm hs
            · exact h
        obtain ⟨log, hrun⟩ := ih (l1 ++ [b]) f (i + 1) p
          { s with accesses := s.accesses ++ [i, i] } (by simp [hbuf]) hp
          (by simp [hi]; omega)
          (by
            intro x hx
            rcases List.mem_append.mp hx with h | h
            · exact hl1 x h
            · simp at h; subst h; exact ⟨hh, hs⟩)
          hmr (by simp at hf; omega) (by simp at hce ⊢; omega)
        refine ⟨[i, i] ++ log, ?_⟩
        rw [processLoop_plain parse buf ce f i p s b hb hice hh hs, hrun]
        simp

/-- Outcome of the scanner on a run of units inside a chunk, up to the byte
after the last of them. -/
theorem processLoop_units_then (parse : List Byte → Option ℚ) (buf post : List Byte) (ce : Int) :
    ∀ (units : List (List Byte)) (pre : List Byte) (fuel : Nat) (i nxt : Int) (s : Machine),
      buf = pre ++ (render units ++ post) → i = pre.length →
      nxt = i + (render units).length → nxt - 1 ≤ ce →
      (∀ u ∈ units, ∃ junk l, u = junk ++ l ∧ (∀ b ∈ junk, b ≠ HASH ∧ b ≠ SEMI) ∧ Marked l) →
      (render units).length ≤ fuel →
      ∃ (fuel' : Nat) (log : List Int), fuel ≤ fuel' + (render units).length ∧
        processLoop parse buf ce fuel i i s
          = match applyLines parse units s.results with
            | (Except.ok _, m) =>
              processLoop parse buf ce fuel' nxt nxt (Machine.mk (s.accesses ++ log) m)
            | (Except.error e, m) => (Except.error e, Machine.mk (s.accesses ++ log) m) := by
  intro units
  induction units with
  | nil =>
    intro pre fuel i nxt s _ _ hnxt _ _ _
    refine ⟨fuel, [], by simp, ?_⟩
    have : nxt = i := by simp [hnxt, render]
    simp [applyLines, this]
  | cons u us ih =>
    intro pre fuel i nxt s hbuf hi hnxt hce hu hf
    obtain ⟨junk, l, hul, hj, hm⟩ := hu u (by simp)
    have hlen : (render (u :: us)).length = u.length + 1 + (render us).length := by
      simp [render_cons]; omega
    obtain ⟨fuel1, log0, hfu, hrun⟩ := processLoop_unit parse buf pre
      (render us ++ post) ce u junk l fuel i (i + u.length + 1) s hul
      (by simp [hbuf, render_cons]) hi rfl hj hm (by omega) (by omega)
    have hrest : ∀ s1 : Machine, ∃ (fuel' : Nat) (log : List Int),
        fuel1 ≤ fuel' + (render us).length ∧
        processLoop parse buf ce fuel1 (i + u.length + 1) (i + u.length + 1) s1
          = match applyLines parse us s1.results with
            | (Except.ok _, m) =>
              processLoop parse buf ce fuel' nxt nxt (Machine.mk (s1.accesses ++ log) m)
            | (Except.error e, m) => (Except.error e, Machine.mk (s1.accesses ++ log) m) := by
      intro s1
      exact ih (pre ++ (u ++ [NL])) fuel1 (i + u.length + 1) nxt s1
        (by simp [hbuf, render_cons]) (by simp [hi]; omega) (by omega) hce
        (fun x hx => hu x (by simp [hx])) (by omega)
    rw [hrun]
    simp only [applyLines]
    cases hsl : scanLine u with
    | none =>
      obtain ⟨fuel', log, hfu', hlog⟩ := hrest { s with accesses := s.accesses ++ log0 }
      refine ⟨fuel', log0 ++ log, by omega, ?_⟩
      simp only [hlog]
      cases applyLines parse us s.results with
      | mk r m => cases r <;> simp
    | some kv =>
      obtain ⟨k, v⟩ := kv
      simp only []
      cases hpv : parse v with
      | none => exact ⟨fuel1, log0, by omega, by simp⟩
      | some t =>
        obtain ⟨fuel', log, hfu', hlog⟩ := hrest (Machine.mk (s.accesses ++ log0)
          (recordSample s.results k t))
        refine ⟨fuel', log0 ++ log, by omega, ?_⟩
        simp only [hlog]
        cases applyLines parse us (recordSample s.results k t) with
        | mk r m => cases r <;> simp

/-- Outcome of the scanner on a last unit without newline after it. -/
theorem processLoop_last_unit (parse : List Byte → Option ℚ) (buf pre : List Byte) (ce : Int)
    (junk l : List Byte) (fuel : Nat) (p : Int) (s : Machine)
    (hbuf : buf = pre ++ (junk ++ l)) (hp : p = pre.length)
    (hj : ∀ b ∈ junk, b ≠ HASH ∧ b ≠ SEMI) (hm : Marked l)
    (hf : junk.length + l.length + 1 ≤ fuel) (hce : p + junk.length + l.length - 1 ≤ ce) :
    ∃ log, processLoop parse buf ce fuel p p s
      = (Except.error (Fault.indexOutOfRange (buf.length : Int)),
          { s with accesses := s.accesses ++ (log ++ [(buf.length : Int)]) }) := by
  obtain ⟨f0, rfl⟩ : ∃ f0, fuel = f0 + junk.length := ⟨fuel - junk.length, by omega⟩
  have hpos : 0 < l.length := by
    rcases hm.2 with h | h <;> exact List.length_pos_of_mem h
  obtain ⟨log1, hlog1⟩ := processLoop_junk parse buf ce junk pre l f0 p p s hbuf hp hj
    (by omega)
  obtain ⟨log2, hlog2⟩ := processLoop_last_line parse buf pre ce l junk f0
    (p + junk.length) p { s with accesses := s.accesses ++ log1 } hbuf hp rfl hj hm
    (by omega) (by omega)
  refine ⟨log1 ++ log2, ?_⟩
  rw [hlog1, hlog2]
  simp

theorem not_badField_unitOf (parse : List Byte → Option ℚ) (g : List (List Byte) × List Byte)
    (hg : ∀ l ∈ g.1, Unmarked l) (h : ¬ BadField parse g.2) : ¬ BadField parse (unitOf g) := by
  rintro ⟨k, v, hs, hp⟩
  unfold unitOf at hs
  rw [scanLine_junk (render g.1) g.2 (render_unmarked g.1 hg)] at hs
  cases hsl : scanLine g.2 with
  | none => rw [hsl] at hs; simp at hs
  | some kv =>
    rw [hsl] at hs
    simp only [Option.map_some', Option.some.injEq, Prod.mk.injEq] at hs
    exact h ⟨kv.1, kv.2, hsl, by rw [hs.2]; exact hp⟩


/-! ## Steps of a worker on the shared map -/

theorem lookup_single (k : Key) (e : Weather) : lookup [(k, e)] k = some e := by
  simp [lookup]

theorem setEntry_single (k : Key) (e e' : Weather) : setEntry [(k, e)] k e' = [(k, e')] := by
  simp [setEntry]

theorem stepWorker_insert (m : Results) (k : Key) (t : ℚ) (rest : List (Key × ℚ)) (r : ℚ)
    (c : Int) (h : lookup m k = none) :
    stepWorker m (Worker.mk ((k, t) :: rest) 0 r c)
      = (setEntry m k { Sum := t, Count := 1, Min := t, Max := t, Avg := t },
          Worker.mk rest 0 r c) := by
  simp [stepWorker, h]

theorem stepWorker_found (m : Results) (k : Key) (t : ℚ) (rest : List (Key × ℚ)) (r : ℚ)
    (c : Int) (e : Weather) (h : lookup m k = some e) :
    stepWorker m (Worker.mk ((k, t) :: rest) 0 r c)
      = (m, Worker.mk ((k, t) :: rest) 1 r c) := by
  simp [stepWorker, h]

theorem stepWorker_loadSum (m : Results) (k : Key) (t : ℚ) (rest : List (Key × ℚ)) (r : ℚ)
    (c : Int) (e : Weather) (h : lookup m k = some e) :
    stepWorker m (Worker.mk ((k, t) :: rest) 1 r c)
      = (m, Worker.mk ((k, t) :: rest) 2 e.Sum c) := by
  simp [stepWorker, h]

theorem stepWorker_storeSum (m : Results) (k : Key) (t : ℚ) (rest : List (Key × ℚ)) (r : ℚ)
    (c : Int) (e : Weather) (h : lookup m k = some e) :
    stepWorker m (Worker.mk ((k, t) :: rest) 2 r c)
      = (setEntry m k { e with Sum := r + t }, Worker.mk ((k, t) :: rest) 3 r c) := by
  simp [stepWorker, h]

theorem stepWorker_loadCount (m : Results) (k : Key) (t : ℚ) (rest : List (Key × ℚ)) (r : ℚ)
    (c : Int) (e : Weather) (h : lookup m k = some e) :
    stepWorker m (Worker.mk ((k, t) :: rest) 3 r c)
      = (m, Worker.mk ((k, t) :: rest) 4 r e.Count) := by
  simp [stepWorker, h]

theorem stepWorker_storeCount (m : Results) (k : Key) (t : ℚ) (rest : List (Key × ℚ)) (r : ℚ)
    (c : Int) (e : Weather) (h : lookup m k = some e) :
    stepWorker m (Worker.mk ((k, t) :: rest) 4 r c)
      = (setEntry m k { e with Count := c + 1 }, Worker.mk ((k, t) :: rest) 5 r c) := by
  simp [stepWorker, h]

theorem stepWorker_avgLoadSum (m : Results) (k : Key) (t : ℚ) (rest : List (Key × ℚ)) (r : ℚ)
    (c : Int) (e : Weather) (h : lookup m k = some e) :
    stepWorker m (Worker.mk ((k, t) :: rest) 5 r c)
      = (m, Worker.mk ((k, t) :: rest) 6 e.Sum c) := by
  simp [stepWorker, h]

theorem stepWorker_avgLoadCount (m : Results) (k : Key) (t : ℚ) (rest : List (Key × ℚ)) (r : ℚ)
    (c : Int) (e : Weather) (h : lookup m k = some e) :
    stepWorker m (Worker.mk ((k, t) :: rest) 6 r c)
      = (m, Worker.mk ((k, t) :: rest) 7 r e.Count) := by
  simp [stepWorker, h]

theorem stepWorker_storeAvg (m : Results) (k : Key) (t : ℚ) (rest : List (Key × ℚ)) (r : ℚ)
    (c : Int) (e : Weather) (h : lookup m k = some e) :
    stepWorker m (Worker.mk ((k, t) :: rest) 7 r c)
      = (setEntry m k { e with Avg := r / (c : ℚ) }, Worker.mk ((k, t) :: rest) 8 r c) := by
  simp [stepWorker, h]

theorem stepWorker_loadMin (m : Results) (k : Key) (t : ℚ) (rest : List (Key × ℚ)) (r : ℚ)
    (c : Int) (e : Weather) (h : lookup m k = some e) :
    stepWorker m (Worker.mk ((k, t) :: rest) 8 r c)
      = (m, Worker.mk ((k, t) :: rest) 9 e.Min c) := by
  simp [stepWorker, h]

theorem stepWorker_storeMin (m : Results) (k : Key) (t : ℚ) (rest : List (Key × ℚ)) (r : ℚ)
    (c : Int) (e : Weather) (h : lookup m k = some e) :
    stepWorker m (Worker.mk ((k, t) :: rest) 9 r c)
      = (setEntry m k { e with Min := min r t }, Worker.mk ((k, t) :: rest) 10 r c) := by
  simp [stepWorker, h]

theorem stepWorker_loadMax (m : Results) (k : Key) (t : ℚ) (rest : List (Key × ℚ)) (r : ℚ)
    (c : Int) (e : Weather) (h : lookup m k = some e) :
    stepWorker m (Worker.mk ((k, t) :: rest) 10 r c)
      = (m, Worker.mk ((k, t) :: rest) 11 e.Max c) := by
  simp [stepWorker, h]

theorem stepWorker_storeMax (m : Results) (k : Key) (t : ℚ) (rest : List (Key × ℚ)) (r : ℚ)
    (c : Int) (e : Weather) (h : lookup m k = some e) :
    stepWorker m (Worker.mk ((k, t) :: rest) 11 r c)
      = (setEntry m k { e with Max := max r t }, Worker.mk ((k, t) :: rest) 12 r c) := by
  simp [stepWorker, h]

theorem stepWorker_set (m : Results) (k : Key) (t : ℚ) (rest : List (Key × ℚ)) (r : ℚ)
    (c : Int) (e : Weather) (h : lookup m k = some e) :
    stepWorker m (Worker.mk ((k, t) :: rest) 12 r c)
      = (setEntry m k e, Worker.mk rest 0 r c) := by
  simp [stepWorker, h]

theorem stepAt_first (m : Results) (a b : Worker) :
    stepAt m [a, b] 0 = ((stepWorker m a).1, [(stepWorker m a).2, b]) := rfl

theorem stepAt_second (m : Results) (a b : Worker) :
    stepAt m [a, b] 1 = ((stepWorker m b).1, [a, (stepWorker m b).2]) := rfl

theorem runSchedule_cons (m : Results) (ws : List Worker) (i : Nat) (rest : List Nat) :
    runSchedule m ws (i :: rest) = runSchedule (stepAt m ws i).1 (stepAt m ws i).2 rest := rfl

theorem runSchedule_nil (m : Results) (ws : List Worker) : runSchedule m ws [] = (m, ws) := rfl


/-- The race between two updates of one key: under the schedule `raceSchedule` the sample of
the second update of the first worker is lost from `Sum` and from `Count`. -/
theorem runSchedule_race (k : Key) (t1 t2 t3 : ℚ) :
    runSchedule [] [Worker.start [(k, t1), (k, t2)], Worker.start [(k, t3)]] raceSchedule
      = ([(k, { Min := min (min t1 t2) t3, Max := max (max t1 t2) t3, Avg := (t1 + t3) / 2,
                Sum := t1 + t3, Count := 2 })],
         [Worker.mk [] 0 t1 2, Worker.mk [] 0 (max t1 t2) 2]) := by
  have h0 : lookup ([] : Results) k = none := rfl
  simp only [raceSchedule, List.replicate, List.cons_append, List.nil_append, Worker.start]
  rw [runSchedule_cons, stepAt_first, stepWorker_insert _ _ _ _ _ _ h0]
  simp only [setEntry]
  rw [runSchedule_cons, stepAt_first, stepWorker_found _ _ _ _ _ _ _ (lookup_single _ _)]
  simp only [setEntry_single]
  rw [runSchedule_cons, stepAt_second, stepWorker_found _ _ _ _ _ _ _ (lookup_single _ _)]
  simp only [setEntry_single]
  rw [runSchedule_cons, stepAt_first, stepWorker_loadSum _ _ _ _ _ _ _ (lookup_single _ _)]
  simp only [setEntry_single]
  rw [runSchedule_cons, stepAt_second, stepWorker_loadSum _ _ _ _ _ _ _ (lookup_single _ _)]
  simp only [setEntry_single]
  rw [runSchedule_cons, stepAt_first, stepWorker_storeSum _ _ _ _ _ _ _ (lookup_single _ _)]
  simp only [setEntry_single]
  rw [runSchedule_cons, stepAt_second, stepWorker_storeSum _ _ _ _ _ _ _ (lookup_single _ _)]
  simp only [setEntry_single]
  rw [runSchedule_cons, stepAt_first, stepWorker_loadCount _ _ _ _ _ _ _ (lookup_single _ _)]
  simp only [setEntry_single]
  rw [runSchedule_cons, stepAt_second, stepWorker_loadCount _ _ _ _ _ _ _ (lookup_single _ _)]
  simp only [setEntry_single]
  rw [runSchedule_cons, stepAt_first, stepWorker_storeCount _ _ _ _ _ _ _ (lookup_single _ _)]
  simp only [setEntry_single]
  rw [runSchedule_cons, stepAt_second, stepWorker_storeCount _ _ _ _ _ _ _ (lookup_single _ _)]
  simp only [setEntry_single]
  rw [runSchedule_cons, stepAt_first, stepWorker_avgLoadSum _ _ _ _ _ _ _ (lookup_single _ _)]
  simp only [setEntry_single]
  rw [runSchedule_cons, stepAt_first, stepWorker_avgLoadCount _ _ _ _ _ _ _ (lookup_single _ _)]
  simp only [setEntry_single]
  rw [runSchedule_cons, stepAt_first, stepWorker_storeAvg _ _ _ _ _ _ _ (lookup_single _ _)]
  simp only [setEntry_single]
  rw [runSchedule_cons, stepAt_first, stepWorker_loadMin _ _ _ _ _ _ _ (lookup_single _ _)]
  simp only [setEntry_single]
  rw [runSchedule_cons, stepAt_first, stepWorker_storeMin _ _ _ _ _ _ _ (lookup_single _ _)]
  simp only [setEntry_single]
  rw [runSchedule_cons, stepAt_first, stepWorker_loadMax _ _ _ _ _ _ _ (lookup_single _ _)]
  simp only [setEntry_single]
  rw [runSchedule_cons, stepAt_first, stepWorker_storeMax _ _ _ _ _ _ _ (lookup_single _ _)]
  simp only [setEntry_single]
  rw [runSchedule_cons, stepAt_first, stepWorker_set _ _ _ _ _ _ _ (lookup_single _ _)]
  simp only [setEntry_single]
  rw [runSchedule_cons, stepAt_second, stepWorker_avgLoadSum _ _ _ _ _ _ _ (lookup_single _ _)]
  simp only [setEntry_single]
  rw [runSchedule_cons, stepAt_second, stepWorker_avgLoadCount _ _ _ _ _ _ _ (lookup_single _ _)]
  simp only [setEntry_single]
  rw [runSchedule_cons, stepAt_second, stepWorker_storeAvg _ _ _ _ _ _ _ (lookup_single _ _)]
  simp only [setEntry_single]
  rw [runSchedule_cons, stepAt_second, stepWorker_loadMin _ _ _ _ _ _ _ (lookup_single _ _)]
  simp only [setEntry_single]
  rw [runSchedule_cons, stepAt_second, stepWorker_storeMin _ _ _ _ _ _ _ (lookup_single _ _)]
  simp only [setEntry_single]
  rw [runSchedule_cons, stepAt_second, stepWorker_loadMax _ _ _ _ _ _ _ (lookup_single _ _)]
  simp only [setEntry_single]
  rw [runSchedule_cons, stepAt_second, stepWorker_storeMax _ _ _ _ _ _ _ (lookup_single _ _)]
  simp only [setEntry_single]
  rw [runSchedule_cons, stepAt_second, stepWorker_set _ _ _ _ _ _ _ (lookup_single _ _)]
  simp only [setEntry_single]
  rw [runSchedule_nil]
  norm_num

/-! ## A worker that runs alone makes its updates one after another -/

theorem setEntry_setEntry (m : Results) (k : Key) (a b : Weather) :
    setEntry (setEntry m k a) k b = setEntry m k b := by
  induction m with
  | nil => simp [setEntry]
  | cons e r ih =>
    obtain ⟨k0, w0⟩ := e
    by_cases h : k0 = k
    · simp [setEntry, h]
    · simp [setEntry, h, ih]

theorem runSchedule_append (m : Results) (ws : List Worker) (a b : List Nat) :
    runSchedule m ws (a ++ b)
      = runSchedule (runSchedule m ws a).1 (runSchedule m ws a).2 b := by
  induction a generalizing m ws with
  | nil => rfl
  | cons i a ih => rw [List.cons_append, runSchedule_cons, ih, runSchedule_cons]

theorem stepAt_some (m : Results) (ws : List Worker) (i : Nat) (w : Worker)
    (h : ws[i]? = some w) :
    stepAt m ws i = ((stepWorker m w).1, ws.set i (stepWorker m w).2) := by
  simp [stepAt, h]

theorem set_of_getElem? {α : Type} : ∀ (ws : List α) (i : Nat) (w : α), ws[i]? = some w →
    ws.set i w = ws := by
  intro ws
  induction ws with
  | nil => intro i w h; simp at h
  | cons a r ih =>
    intro i w h
    cases i with
    | zero => simp at h; simp [h]
    | succ i => simp at h; simp [ih i w h]

/-- The steps of one worker under a schedule that picks no other worker. -/
theorem runSchedule_replicate (i : Nat) :
    ∀ (n : Nat) (m : Results) (ws : List Worker) (w : Worker), ws[i]? = some w →
      runSchedule m ws (List.replicate n i)
        = (((fun p : Results × Worker => stepWorker p.1 p.2)^[n] (m, w)).1,
            ws.set i ((fun p : Results × Worker => stepWorker p.1 p.2)^[n] (m, w)).2) := by
  intro n
  induction n with
  | zero =>
    intro m ws w h
    simp [runSchedule_nil, set_of_getElem? ws i w h]
  | succ n ih =>
    intro m ws w h
    have hi : i < ws.length := (List.getElem?_eq_some_iff.mp h).1
    rw [List.replicate_succ, runSchedule_cons, stepAt_some m ws i w h]
    rw [ih (stepWorker m w).1 (ws.set i (stepWorker m w).2) (stepWorker m w).2
      (by simp [hi])]
    simp [Function.iterate_succ_apply]

/-- One record update made without interference is the update `recordSample`
of the sequential run. -/
theorem stepWorker_record (m : Results) (k : Key) (t : ℚ) (rest : List (Key × ℚ)) (r : ℚ)
    (c : Int) :
    ∃ (n : Nat) (r' : ℚ) (c' : Int),
      (fun p : Results × Worker => stepWorker p.1 p.2)^[n] (m, Worker.mk ((k, t) :: rest) 0 r c)
        = (recordSample m k t, Worker.mk rest 0 r' c') := by
  cases h : lookup m k with
  | none =>
    refine ⟨1, r, c, ?_⟩
    simp only [Function.iterate_succ_apply, Function.iterate_zero_apply]
    rw [stepWorker_insert m k t rest r c h, recordSample_eq, h]
    rfl
  | some e =>
    have hl : ∀ x : Weather, lookup (setEntry m k x) k = some x := by
      intro x; rw [lookup_setEntry, if_pos rfl]
    refine ⟨13, e.Max, e.Count + 1, ?_⟩
    simp only [Function.iterate_succ_apply, Function.iterate_zero_apply]
    rw [stepWorker_found m k t rest r c e h]
    simp only []
    rw [stepWorker_loadSum m k t rest r c e h]
    simp only []
    rw [stepWorker_storeSum m k t rest _ c e h]
    simp only []
    rw [stepWorker_loadCount _ k t rest _ c _ (hl _)]
    simp only []
    rw [stepWorker_storeCount _ k t rest _ _ _ (hl _), setEntry_setEntry]
    simp only []
    rw [stepWorker_avgLoadSum _ k t rest _ _ _ (hl _)]
    simp only []
    rw [stepWorker_avgLoadCount _ k t rest _ _ _ (hl _)]
    simp only []
    rw [stepWorker_storeAvg _ k t rest _ _ _ (hl _), setEntry_setEntry]
    simp only []
    rw [stepWorker_loadMin _ k t rest _ _ _ (hl _)]
    simp only []
    rw [stepWorker_storeMin _ k t rest _ _ _ (hl _), setEntry_setEntry]
    simp only []
    rw [stepWorker_loadMax _ k t rest _ _ _ (hl _)]
    simp only []
    rw [stepWorker_storeMax _ k t rest _ _ _ (hl _), setEntry_setEntry]
    simp only []
    rw [stepWorker_set _ k t rest _ _ _ (hl _), setEntry_setEntry]
    rw [recordSample_eq, h]
    simp [accumulate, Weather.merge]

/-- A worker that runs alone applies its updates in order, as the sequential
run of its chunk does. -/
theorem stepWorker_updates :
    ∀ (ups : List (Key × ℚ)) (m : Results) (r : ℚ) (c : Int),
      ∃ (n : Nat) (r' : ℚ) (c' : Int),
        (fun p : Results × Worker => stepWorker p.1 p.2)^[n] (m, Worker.mk ups 0 r c)
          = (applyUpdates m ups, Worker.mk [] 0 r' c') := by
  intro ups
  induction ups with
  | nil => intro m r c; exact ⟨0, r, c, rfl⟩
  | cons u ups ih =>
    intro m r c
    obtain ⟨k, t⟩ := u
    obtain ⟨n1, r1, c1, h1⟩ := stepWorker_record m k t ups r c
    obtain ⟨n2, r2, c2, h2⟩ := ih (recordSample m k t) r1 c1
    refine ⟨n2 + n1, r2, c2, ?_⟩
    rw [Function.iterate_add_apply, h1, h2, applyUpdates_cons]

/-- Two workers that run one after another leave the map of the sequential
run: the updates of the first, then those of the second. -/
theorem runSchedule_sequential (m : Results) (ups0 ups1 : List (Key × ℚ)) :
    ∃ (sched : List Nat) (ws : List Worker),
      runSchedule m [Worker.start ups0, Worker.start ups1] sched
        = (applyUpdates m (ups0 ++ ups1), ws) ∧ Finished ws := by
  obtain ⟨n0, r0, c0, h0⟩ := stepWorker_updates ups0 m 0 0
  obtain ⟨n1, r1, c1, h1⟩ := stepWorker_updates ups1 (applyUpdates m ups0) 0 0
  refine ⟨List.replicate n0 0 ++ List.replicate n1 1,
    [Worker.mk [] 0 r0 c0, Worker.mk [] 0 r1 c1], ?_, ?_⟩
  · rw [runSchedule_append,
      runSchedule_replicate 0 n0 m _ (Worker.start ups0) rfl]
    simp only [Worker.start] at h0 h1 ⊢
    rw [h0]
    simp only [List.set_cons_zero]
    rw [runSchedule_replicate 1 n1 _ _ (Worker.mk ups1 0 0 0) rfl, h1, applyUpdates_append]
    rfl
  · intro w hw
    simp at hw
    rcases hw with h | h <;> rw [h]

theorem parseDecimal_1 : parseDecimal (ascii "1") = some 1 := by
  simp [parseDecimal, ascii, digitsValue]

theorem parseDecimal_2 : parseDecimal (ascii "2") = some 2 := by
  simp [parseDecimal, ascii, digitsValue]

theorem parseDecimal_4 : parseDecimal (ascii "4") = some 4 := by
  simp [parseDecimal, ascii, digitsValue]

/-- The sequential run of a worker on a chunk cut at line boundaries makes the
updates of the lines of the chunk, in order: the updates a `Worker` is given. -/
theorem processChunk_updates (parse : List Byte → Option ℚ) (lines : List (List Byte))
    (hm : ∀ l ∈ lines, Marked l) (hgood : ∀ l ∈ lines, ¬ BadField parse l) (c : Chunk)
    (hc : Aligned lines c) (s : Machine) :
    ∃ log, processChunk parse (render lines) c.Start c.End s
      = (Except.ok (), Machine.mk (s.accesses ++ log)
          (applyUpdates s.results (updates parse (linesOf lines c)))) := by
  obtain ⟨log, hlog⟩ := processChunk_aligned parse lines c s hm hc
  rw [applyLines_ok parse (linesOf lines c) s.results
    (fun l hl => hgood l (mem_linesOf_sub hl))] at hlog
  exact ⟨log, hlog⟩


/-! ## Indivisible field statements lose no sample -/

theorem samplesFor_cons (k k0 : Key) (t0 : ℚ) (rest : List (Key × ℚ)) :
    samplesFor k ((k0, t0) :: rest)
      = if k0 = k then t0 :: samplesFor k rest else samplesFor k rest := by
  unfold samplesFor
  by_cases h : k0 = k <;> simp [List.filter_cons, h]

theorem sumOf_setEntry (m : Results) (k0 k : Key) (e : Weather) :
    sumOf (setEntry m k0 e) k = if k0 = k then e.Sum else sumOf m k := by
  unfold sumOf
  rw [lookup_setEntry]
  by_cases h : k0 = k <;> simp [h]

theorem countOf_setEntry (m : Results) (k0 k : Key) (e : Weather) :
    countOf (setEntry m k0 e) k = if k0 = k then e.Count else countOf m k := by
  unfold countOf
  rw [lookup_setEntry]
  by_cases h : k0 = k <;> simp [h]

/-- A step keeps what is stored in `Sum` plus what the worker still owes. -/
theorem stepWorkerAtomic_sum (m : Results) (w : Worker) (k : Key) :
    sumOf (stepWorkerAtomic m w).1 k + owedSum k (stepWorkerAtomic m w).2
      = sumOf m k + owedSum k w := by
  obtain ⟨todo, pc, r, c⟩ := w
  cases todo with
  | nil => simp [stepWorkerAtomic]
  | cons u rest =>
    obtain ⟨k0, t0⟩ := u
    have hown : ∀ e : Weather, lookup m k0 = some e → k0 = k → sumOf m k = e.Sum := by
      intro e he hk; unfold sumOf; rw [← hk, he]
    cases hl : lookup m k0 with
    | none =>
      cases pc with
      | zero =>
        have hz : k0 = k → sumOf m k = 0 := by
          intro hk; unfold sumOf; rw [← hk, hl]
        simp only [stepWorkerAtomic, hl, sumOf_setEntry]
        cases rest with
        | nil =>
          by_cases hk : k0 = k
          · simp [owedSum, hk, hz hk, samplesFor]
          · simp [owedSum, hk, samplesFor]
        | cons u2 rest2 =>
          obtain ⟨k1, t1⟩ := u2
          by_cases hk : k0 = k
          · by_cases hk1 : k1 = k <;>
              simp [owedSum, hk, hk1, hz hk, samplesFor_cons]
          · by_cases hk1 : k1 = k <;> simp [owedSum, hk, hk1, samplesFor_cons]
      | succ p => simp [stepWorkerAtomic, hl]
    | some e =>
      have hs := hown e hl
      rcases pc with _ | _ | _ | _ | _ | _ | p
      · simp [stepWorkerAtomic, hl, owedSum]
      · simp only [stepWorkerAtomic, hl, sumOf_setEntry, owedSum]
        by_cases hk : k0 = k
        · simp [hk, hs hk]; ring
        · simp [hk]
      · simp only [stepWorkerAtomic, hl, sumOf_setEntry, owedSum]
        by_cases hk : k0 = k
        · simp [hk, hs hk]
        · simp [hk]
      · simp only [stepWorkerAtomic, hl, sumOf_setEntry, owedSum]
        by_cases hk : k0 = k
        · simp [hk, hs hk]
        · simp [hk]
      · simp only [stepWorkerAtomic, hl, sumOf_setEntry, owedSum]
        by_cases hk : k0 = k
        · simp [hk, hs hk]
        · simp [hk]
      · simp only [stepWorkerAtomic, hl, sumOf_setEntry, owedSum]
        by_cases hk : k0 = k
        · simp [hk, hs hk]
        · simp [hk]
      · simp only [stepWorkerAtomic, hl, sumOf_setEntry]
        cases rest with
        | nil =>
          by_cases hk : k0 = k
          · simp [owedSum, hk, hs hk, samplesFor]
          · simp [owedSum, hk, samplesFor]
        | cons u2 rest2 =>
          obtain ⟨k1, t1⟩ := u2
          by_cases hk : k0 = k
          · by_cases hk1 : k1 = k <;> simp [owedSum, hk, hk1, hs hk, samplesFor_cons]
          · by_cases hk1 : k1 = k <;> simp [owedSum, hk, hk1, samplesFor_cons]

/-- A step keeps what is stored in `Count` plus what the worker still owes. -/
theorem stepWorkerAtomic_count (m : Results) (w : Worker) (k : Key) :
    countOf (stepWorkerAtomic m w).1 k + owedCount k (stepWorkerAtomic m w).2
      = countOf m k + owedCount k w := by
  obtain ⟨todo, pc, r, c⟩ := w
  cases todo with
  | nil => simp [stepWorkerAtomic]
  | cons u rest =>
    obtain ⟨k0, t0⟩ := u
    have hown : ∀ e : Weather, lookup m k0 = some e → k0 = k → countOf m k = e.Count := by
      intro e he hk; unfold countOf; rw [← hk, he]
    cases hl : lookup m k0 with
    | none =>
      cases pc with
      | zero =>
        have hz : k0 = k → countOf m k = 0 := by
          intro hk; unfold countOf; rw [← hk, hl]
        simp only [stepWorkerAtomic, hl, countOf_setEntry]
        cases rest with
        | nil =>
          by_cases hk : k0 = k
          · simp [owedCount, hk, hz hk, samplesFor]
          · simp [owedCount, hk, samplesFor]
        | cons u2 rest2 =>
          obtain ⟨k1, t1⟩ := u2
          by_cases hk : k0 = k
          · by_cases hk1 : k1 = k
            · simp [owedCount, hk, hk1, hz hk, samplesFor_cons]; omega
            · simp [owedCount, hk, hk1, hz hk, samplesFor_cons]
          · by_cases hk1 : k1 = k
            · simp [owedCount, hk, hk1, samplesFor_cons]; omega
            · simp [owedCount, hk, hk1, samplesFor_cons]
      | succ p => simp [stepWorkerAtomic, hl]
    | some e =>
      have hs := hown e hl
      rcases pc with _ | _ | _ | _ | _ | _ | p
      · simp [stepWorkerAtomic, hl, owedCount]
      · simp only [stepWorkerAtomic, hl, countOf_setEntry, owedCount]
        by_cases hk : k0 = k
        · simp [hk, hs hk]
        · simp [hk]
      · simp only [stepWorkerAtomic, hl, countOf_setEntry, owedCount]
        by_cases hk : k0 = k
        · simp [hk, hs hk]; ring
        · simp [hk]
      · simp only [stepWorkerAtomic, hl, countOf_setEntry, owedCount]
        by_cases hk : k0 = k
        · simp [hk, hs hk]
        · simp [hk]
      · simp only [stepWorkerAtomic, hl, countOf_setEntry, owedCount]
        by_cases hk : k0 = k
        · simp [hk, hs hk]
        · simp [hk]
      · simp only [stepWorkerAtomic, hl, countOf_setEntry, owedCount]
        by_cases hk : k0 = k
        · simp [hk, hs hk]
        · simp [hk]
      · simp only [stepWorkerAtomic, hl, countOf_setEntry]
        cases rest with
        | nil =>
          by_cases hk : k0 = k
          · simp [owedCount, hk, hs hk, samplesFor]
          · simp [owedCount, hk, samplesFor]
        | cons u2 rest2 =>
          obtain ⟨k1, t1⟩ := u2
          by_cases hk : k0 = k
          · by_cases hk1 : k1 = k
            · simp [owedCount, hk, hk1, hs hk, samplesFor_cons]; omega
            · simp [owedCount, hk, hk1, hs hk, samplesFor_cons]
          · by_cases hk1 : k1 = k
            · simp [owedCount, hk, hk1, samplesFor_cons]; omega
            · simp [owedCount, hk, hk1, samplesFor_cons]

theorem sum_map_set {G : Type} [AddCommGroup G] (f : Worker → G) :
    ∀ (ws : List Worker) (i : Nat) (w w' : Worker), ws[i]? = some w →
      ((ws.set i w').map f).sum + f w = (ws.map f).sum + f w' := by
  intro ws
  induction ws with
  | nil => intro i w w' h; simp at h
  | cons a r ih =>
    intro i w w' h
    cases i with
    | zero =>
      simp at h
      subst h
      simp only [List.set_cons_zero, List.map_cons, List.sum_cons]
      abel
    | succ i =>
      simp at h
      have := ih i w w' h
      simp only [List.set_cons_succ, List.map_cons, List.sum_cons]
      rw [add_assoc, this, add_assoc]

/-- A step of any worker keeps, for every key, what is stored plus what all
workers still owe. -/
theorem stepAtAtomic_inv (m : Results) (ws : List Worker) (i : Nat) (k : Key) :
    sumOf (stepAtAtomic m ws i).1 k + ((stepAtAtomic m ws i).2.map (owedSum k)).sum
        = sumOf m k + (ws.map (owedSum k)).sum ∧
    countOf (stepAtAtomic m ws i).1 k + ((stepAtAtomic m ws i).2.map (owedCount k)).sum
        = countOf m k + (ws.map (owedCount k)).sum := by
  unfold stepAtAtomic
  cases h : ws[i]? with
  | none => simp
  | some w =>
    simp only []
    have h1 := sum_map_set (owedSum k) ws i w (stepWorkerAtomic m w).2 h
    have h2 := stepWorkerAtomic_sum m w k
    have h3 := sum_map_set (owedCount k) ws i w (stepWorkerAtomic m w).2 h
    have h4 := stepWorkerAtomic_count m w k
    constructor
    · linarith
    · linarith

theorem runScheduleAtomic_inv (k : Key) :
    ∀ (sched : List Nat) (m : Results) (ws : List Worker),
      sumOf (runScheduleAtomic m ws sched).1 k
          + ((runScheduleAtomic m ws sched).2.map (owedSum k)).sum
          = sumOf m k + (ws.map (owedSum k)).sum ∧
      countOf (runScheduleAtomic m ws sched).1 k
          + ((runScheduleAtomic m ws sched).2.map (owedCount k)).sum
          = countOf m k + (ws.map (owedCount k)).sum := by
  intro sched
  induction sched with
  | nil => intro m ws; exact ⟨rfl, rfl⟩
  | cons i rest ih =>
    intro m ws
    have h1 := ih (stepAtAtomic m ws i).1 (stepAtAtomic m ws i).2
    have h2 := stepAtAtomic_inv m ws i k
    show sumOf (runScheduleAtomic (stepAtAtomic m ws i).1 (stepAtAtomic m ws i).2 rest).1 k
          + ((runScheduleAtomic (stepAtAtomic m ws i).1 (stepAtAtomic m ws i).2 rest).2.map
              (owedSum k)).sum = _ ∧
        countOf (runScheduleAtomic (stepAtAtomic m ws i).1 (stepAtAtomic m ws i).2 rest).1 k
          + ((runScheduleAtomic (stepAtAtomic m ws i).1 (stepAtAtomic m ws i).2 rest).2.map
              (owedCount k)).sum = _
    exact ⟨h1.1.trans h2.1, h1.2.trans h2.2⟩

theorem owed_start (k : Key) (ups : List (Key × ℚ)) :
    owedSum k (Worker.start ups) = (samplesFor k ups).sum ∧
    owedCount k (Worker.start ups) = ((samplesFor k ups).length : Int) := by
  cases ups with
  | nil => simp [owedSum, owedCount, Worker.start, samplesFor]
  | cons u rest =>
    obtain ⟨k0, t0⟩ := u
    by_cases hk : k0 = k
    · simp [owedSum, owedCount, Worker.start, samplesFor_cons, hk]; ring
    · simp [owedSum, owedCount, Worker.start, samplesFor_cons, hk]

theorem owed_finished (k : Key) (ws : List Worker) (h : Finished ws) :
    (ws.map (owedSum k)).sum = 0 ∧ (ws.map (owedCount k)).sum = 0 := by
  induction ws with
  | nil => simp
  | cons w r ih =>
    have hw : w.todo = [] := h w (by simp)
    have hr := ih (fun x hx => h x (by simp [hx]))
    obtain ⟨todo, pc, rg, c⟩ := w
    simp only at hw
    subst hw
    simp [owedSum, owedCount, hr.1, hr.2]

theorem owed_starts (k : Key) (upss : List (List (Key × ℚ))) :
    ((upss.map Worker.start).map (owedSum k)).sum = (samplesFor k upss.flatten).sum ∧
    ((upss.map Worker.start).map (owedCount k)).sum
      = ((samplesFor k upss.flatten).length : Int) := by
  induction upss with
  | nil => simp [samplesFor]
  | cons ups r ih =>
    simp only [List.map_cons, List.sum_cons, List.flatten_cons, samplesFor_append,
      List.sum_append, List.length_append, (owed_start k ups).1, (owed_start k ups).2, ih.1,
      ih.2]
    simp

/-- With indivisible field statements no sample is lost: whatever the schedule,
once all workers have made their updates the `Sum` of a key is the sum of its
samples and its `Count` their number.  The loss under `raceSchedule` needs the
load and the store of one statement to be separate steps. -/
theorem runScheduleAtomic_exact (upss : List (List (Key × ℚ))) (sched : List Nat) (k : Key)
    (hfin : Finished (runScheduleAtomic [] (upss.map Worker.start) sched).2) :
    sumOf (runScheduleAtomic [] (upss.map Worker.start) sched).1 k
      = (samplesFor k upss.flatten).sum ∧
    countOf (runScheduleAtomic [] (upss.map Worker.start) sched).1 k
      = ((samplesFor k upss.flatten).length : Int) := by
  have h := runScheduleAtomic_inv k sched [] (upss.map Worker.start)
  have hf := owed_finished k _ hfin
  have hs := owed_starts k upss
  rw [hf.1, hs.1] at h
  rw [hf.2, hs.2] at h
  have z1 : sumOf [] k = 0 := rfl
  have z2 : countOf [] k = 0 := rfl
  rw [z1, z2] at h
  constructor
  · linarith [h.1]
  · linarith [h.2]

/-! ## The record update in `float64` -/

theorem leB_refl {x : F64} (h : x ≠ F64.nan) : F64.leB x x = true := by
  rcases x with _ | (_ | _) | ⟨na, a⟩
  · exact absurd rfl h
  · rfl
  · rfl
  · simp [F64.leB]

theorem leB_not_nan {x y : F64} (h : F64.leB x y = true) : x ≠ F64.nan ∧ y ≠ F64.nan := by
  rcases x with _ | (_ | _) | ⟨na, a⟩ <;> rcases y with _ | (_ | _) | ⟨nb, b⟩ <;>
    simp [F64.leB] at h ⊢

theorem leB_total {x y : F64} (hx : x ≠ F64.nan) (hy : y ≠ F64.nan) :
    F64.leB x y = true ∨ F64.leB y x = true := by
  rcases x with _ | (_ | _) | ⟨na, a⟩ <;> rcases y with _ | (_ | _) | ⟨nb, b⟩ <;>
    simp [F64.leB] at hx hy ⊢
  omega

theorem leB_trans {x y z : F64} (h1 : F64.leB x y = true) (h2 : F64.leB y z = true) :
    F64.leB x z = true := by
  rcases x with _ | (_ | _) | ⟨na, a⟩ <;> rcases y with _ | (_ | _) | ⟨nb, b⟩ <;>
    rcases z with _ | (_ | _) | ⟨nc, c⟩ <;> simp [F64.leB] at h1 h2 ⊢
  omega

theorem min_le_left {x y : F64} (hx : x ≠ F64.nan) (hy : y ≠ F64.nan) :
    F64.leB (F64.min x y) x = true := by
  have hmin : F64.min x y = if F64.leB x y && !F64.leB y x then x
      else if F64.leB y x && !F64.leB x y then y
      else if x.signBit then x else y := by
    rcases x with _ | (_ | _) | ⟨na, a⟩ <;> rcases y with _ | (_ | _) | ⟨nb, b⟩ <;>
      first | exact absurd rfl hx | exact absurd rfl hy | rfl
  rw [hmin]
  have hxx := leB_refl hx
  have ht := leB_total hx hy
  by_cases h1 : F64.leB x y = true <;> by_cases h2 : F64.leB y x = true <;>
    by_cases hs : x.signBit = true <;> simp_all

theorem le_max_left {x y : F64} (hx : x ≠ F64.nan) (hy : y ≠ F64.nan) :
    F64.leB x (F64.max x y) = true := by
  have hmax : F64.max x y = if F64.leB x y && !F64.leB y x then y
      else if F64.leB y x && !F64.leB x y then x
      else if x.signBit then y else x := by
    rcases x with _ | (_ | _) | ⟨na, a⟩ <;> rcases y with _ | (_ | _) | ⟨nb, b⟩ <;>
      first | exact absurd rfl hx | exact absurd rfl hy | rfl
  rw [hmax]
  have hxx := leB_refl hx
  have ht := leB_total hx hy
  by_cases h1 : F64.leB x y = true <;> by_cases h2 : F64.leB y x = true <;>
    by_cases hs : x.signBit = true <;> simp_all

/-- The bounds kept by a merge when no value is not a number. -/
theorem min_le_max_merge {x y t : F64} (h : F64.leB x y = true) (ht : t ≠ F64.nan) :
    F64.leB (F64.min x t) (F64.max y t) = true :=
  leB_trans (leB_trans (min_le_left (leB_not_nan h).1 ht) h) (le_max_left (leB_not_nan h).2 ht)

theorem mem_setEntry64 {m : Results64} {k : Key} {v : Weather64} {e : Key × Weather64}
    (h : e ∈ setEntry64 m k v) : e ∈ m ∨ e = (k, v) := by
  induction m with
  | nil => simp [setEntry64] at h; exact Or.inr h
  | cons x r ih =>
    obtain ⟨k0, w0⟩ := x
    by_cases h0 : k0 = k
    · simp only [setEntry64, h0, if_true, List.mem_cons] at h
      rcases h with h | h
      · exact Or.inr h
      · exact Or.inl (List.mem_cons_of_mem _ h)
    · simp only [setEntry64, h0, if_false, List.mem_cons] at h
      rcases h with h | h
      · exact Or.inl (by rw [h]; exact List.mem_cons_self _ _)
      · rcases ih h with h | h
        · exact Or.inl (List.mem_cons_of_mem _ h)
        · exact Or.inr h

theorem mem_of_lookup64 {m : Results64} {k : Key} {w : Weather64}
    (h : lookup64 m k = some w) : (k, w) ∈ m := by
  induction m with
  | nil => simp [lookup64] at h
  | cons x r ih =>
    obtain ⟨k0, w0⟩ := x
    by_cases h0 : k0 = k
    · simp only [lookup64, h0, if_true, Option.some.injEq] at h
      rw [h0, h]; exact List.mem_cons_self _ _
    · simp only [lookup64, h0, if_false] at h
      exact List.mem_cons_of_mem _ (ih h)

theorem lookup64_setEntry64 (m : Results64) (k k' : Key) (v : Weather64) :
    lookup64 (setEntry64 m k v) k' = if k = k' then some v else lookup64 m k' := by
  induction m with
  | nil =>
    by_cases h : k = k' <;> simp [setEntry64, lookup64, h]
  | cons e r ih =>
    obtain ⟨k0, w0⟩ := e
    by_cases h0 : k0 = k
    · subst h0
      by_cases h : k0 = k' <;> simp [setEntry64, lookup64, h]
    · by_cases h : k = k'
      · subst h
        simp [setEntry64, lookup64, h0, ih]
      · by_cases h1 : k0 = k'
        · subst h1; simp [setEntry64, lookup64, h0, h]
        · simp [setEntry64, lookup64, h0, h1, ih, h]

/-- The record update sets the entry of its key: the single-sample entry when the key is
absent, the merged entry when it is present. -/
theorem recordSample64_eq (m : Results64) (k : Key) (t : F64) :
    recordSample64 m k t
      = setEntry64 m k (match lookup64 m k with
          | none => Weather64.single t
          | some w => w.merge t) := by
  unfold recordSample64
  cases lookup64 m k with
  | none => rfl
  | some w => rfl

/-- A property of entries that holds of a single-sample entry and is kept by a merge holds of
every entry stored by a sequence of record updates. -/
theorem inv_applyUpdates64 (P : Weather64 → Prop) (S : F64 → Prop)
    (h1 : ∀ t, S t → P (Weather64.single t))
    (h2 : ∀ w t, P w → S t → P (w.merge t)) :
    ∀ (ups : List (Key × F64)) (m : Results64), (∀ u ∈ ups, S u.2) → (∀ e ∈ m, P e.2) →
      ∀ e ∈ applyUpdates64 m ups, P e.2 := by
  intro ups
  induction ups with
  | nil => intro m _ h; exact h
  | cons u ups ih =>
    intro m hs h
    have hu := hs u (by simp)
    refine ih (recordSample64 m u.1 u.2) (fun x hx => hs x (by simp [hx])) ?_
    intro e he
    rw [recordSample64_eq] at he
    rcases mem_setEntry64 he with he | he
    · exact h e he
    · rw [he]
      cases hl : lookup64 m u.1 with
      | none => exact h1 _ hu
      | some w => exact h2 w _ (h (u.1, w) (mem_of_lookup64 hl)) hu

/-- Rounding leaves a quotient alone whose value needs no rounding. -/
theorem roundNearestEven_rep (k c : Nat) (hk : roundNearestEven k 1 = k) (hc : 0 < c) :
    roundNearestEven (k * c) c = k := by
  simp only [roundNearestEven, Nat.div_one, one_mul] at hk
  simp only [roundNearestEven]
  rw [Nat.mul_div_cancel k hc]
  generalize bits k - 53 = s at hk ⊢
  have hpos : 0 < 2 ^ s := Nat.two_pow_pos s
  have hdvd : 2 ^ s ∣ k := ⟨_, by rw [Nat.mul_comm]; exact hk.symm⟩
  obtain ⟨j, rfl⟩ := hdvd
  have e1 : 2 ^ s * j * c = j * (c * 2 ^ s) := by ring
  have hg : 0 < c * 2 ^ s := Nat.mul_pos hc hpos
  rw [e1, Nat.mul_div_cancel j hg, Nat.mul_mod_left]
  simp only [Nat.mul_zero, hg, if_true]
  ring

theorem scale_pos : 0 < F64.scale := by decide!

theorem ofInt_one : F64.ofInt 1 = F64.fin false F64.scale := by decide!

/-- Dividing a `float64` value by `float64(1)` gives the value. -/
theorem div_ofInt_one (x : F64) (hx : x.Rep) : F64.div x (F64.ofInt 1) = x := by
  rw [ofInt_one]
  rcases x with _ | a | ⟨na, k⟩
  · rfl
  · simp [F64.div]
  · obtain ⟨h1, h2⟩ := hx
    have hc := scale_pos
    simp only [F64.div, Nat.pos_iff_ne_zero.mp hc, if_false, Bool.xor_false, F64.round]
    rw [roundNearestEven_rep k F64.scale h1 hc, if_neg (Nat.not_le.mpr h2)]

theorem stored_single (t : F64) (ht : t.Rep) : (Weather64.single t).Stored :=
  ⟨le_refl _, (div_ofInt_one t ht).symm⟩

theorem stored_merge (w : Weather64) (t : F64) (h : w.Stored) : (w.merge t).Stored :=
  ⟨by have := h.1; simp only [Weather64.merge]; omega, rfl⟩

theorem min_le_right {x y : F64} (hx : x ≠ F64.nan) (hy : y ≠ F64.nan) :
    F64.leB (F64.min x y) y = true := by
  have hmin : F64.min x y = if F64.leB x y && !F64.leB y x then x
      else if F64.leB y x && !F64.leB x y then y
      else if x.signBit then x else y := by
    rcases x with _ | (_ | _) | ⟨na, a⟩ <;> rcases y with _ | (_ | _) | ⟨nb, b⟩ <;>
      first | exact absurd rfl hx | exact absurd rfl hy | rfl
  rw [hmin]
  have hyy := leB_refl hy
  have ht := leB_total hx hy
  by_cases h1 : F64.leB x y = true <;> by_cases h2 : F64.leB y x = true <;>
    by_cases hs : x.signBit = true <;> simp_all

theorem le_max_right {x y : F64} (hx : x ≠ F64.nan) (hy : y ≠ F64.nan) :
    F64.leB y (F64.max x y) = true := by
  have hmax : F64.max x y = if F64.leB x y && !F64.leB y x then y
      else if F64.leB y x && !F64.leB x y then x
      else if x.signBit then y else x := by
    rcases x with _ | (_ | _) | ⟨na, a⟩ <;> rcases y with _ | (_ | _) | ⟨nb, b⟩ <;>
      first | exact absurd rfl hx | exact absurd rfl hy | rfl
  rw [hmax]
  have hyy := leB_refl hy
  have ht := leB_total hx hy
  by_cases h1 : F64.leB x y = true <;> by_cases h2 : F64.leB y x = true <;>
    by_cases hs : x.signBit = true <;> simp_all

theorem min_eq_or {x y : F64} (hx : x ≠ F64.nan) (hy : y ≠ F64.nan) :
    F64.min x y = x ∨ F64.min x y = y := by
  have hmin : F64.min x y = if F64.leB x y && !F64.leB y x then x
      else if F64.leB y x && !F64.leB x y then y
      else if x.signBit then x else y := by
    rcases x with _ | (_ | _) | ⟨na, a⟩ <;> rcases y with _ | (_ | _) | ⟨nb, b⟩ <;>
      first | exact absurd rfl hx | exact absurd rfl hy | rfl
  rw [hmin]
  split
  · exact Or.inl rfl
  · split
    · exact Or.inr rfl
    · split
      · exact Or.inl rfl
      · exact Or.inr rfl

theorem max_eq_or {x y : F64} (hx : x ≠ F64.nan) (hy : y ≠ F64.nan) :
    F64.max x y = x ∨ F64.max x y = y := by
  have hmax : F64.max x y = if F64.leB x y && !F64.leB y x then y
      else if F64.leB y x && !F64.leB x y then x
      else if x.signBit then y else x := by
    rcases x with _ | (_ | _) | ⟨na, a⟩ <;> rcases y with _ | (_ | _) | ⟨nb, b⟩ <;>
      first | exact absurd rfl hx | exact absurd rfl hy | rfl
  rw [hmax]
  split
  · exact Or.inr rfl
  · split
    · exact Or.inl rfl
    · split
      · exact Or.inr rfl
      · exact Or.inl rfl

theorem not_nan_of_isFinite {x : F64} (h : x.isFinite = true) : x ≠ F64.nan := by
  intro e; rw [e] at h; exact absurd h (by decide)

theorem leB_iff_toInt {x y : F64} (hx : x.isFinite = true) (hy : y.isFinite = true) :
    F64.leB x y = true ↔ x.toInt ≤ y.toInt := by
  rcases x with _ | a | ⟨na, a⟩ <;> rcases y with _ | b | ⟨nb, b⟩ <;>
    simp [F64.isFinite] at hx hy
  simp [F64.leB]

/-- The invariant with the values taken as exact numbers holds of a single-sample entry with a
finite sample. -/
theorem exact_single (t : F64) (ht : t.isFinite = true) : (Weather64.single t).Exact := by
  refine ⟨⟨ht, ht, ht, ht⟩, le_refl _, ?_, le_refl _, le_refl _⟩
  simp [Weather64.single]

/-- The invariant with the values taken as exact numbers is kept by a merge whose `float64`
sum and quotient are the exact sum and quotient. -/
theorem exact_merge (w : Weather64) (t : F64) (h : w.Exact) (ht : t.isFinite = true)
    (hs1 : (F64.add w.Sum t).isFinite = true)
    (hs2 : (F64.add w.Sum t).toInt = w.Sum.toInt + t.toInt)
    (hq1 : (F64.div (F64.add w.Sum t) (F64.ofInt (w.Count + 1))).isFinite = true)
    (hq2 : (F64.div (F64.add w.Sum t) (F64.ofInt (w.Count + 1))).toInt * (w.Count + 1)
      = (F64.add w.Sum t).toInt) :
    (w.merge t).Exact := by
  obtain ⟨⟨f1, f2, f3, f4⟩, hc, havg, hlo, hhi⟩ := h
  have n1 := not_nan_of_isFinite f1
  have n2 := not_nan_of_isFinite f2
  have nt := not_nan_of_isFinite ht
  have hminf : (F64.min w.Min t).isFinite = true := by
    rcases min_eq_or n1 nt with e | e <;> rw [e] <;> assumption
  have hmaxf : (F64.max w.Max t).isFinite = true := by
    rcases max_eq_or n2 nt with e | e <;> rw [e] <;> assumption
  have a1 := (leB_iff_toInt hminf f1).mp (min_le_left n1 nt)
  have a2 := (leB_iff_toInt hminf ht).mp (min_le_right n1 nt)
  have b1 := (leB_iff_toInt f2 hmaxf).mp (le_max_left n2 nt)
  have b2 := (leB_iff_toInt ht hmaxf).mp (le_max_right n2 nt)
  refine ⟨⟨hminf, hmaxf, hq1, hs1⟩, by simp only [Weather64.merge]; omega, hq2, ?_, ?_⟩
  · simp only [Weather64.merge]
    have hpos : (0 : Int) < w.Count + 1 := by omega
    refine le_of_mul_le_mul_right ?_ hpos
    rw [hq2, hs2, ← havg]
    nlinarith
  · simp only [Weather64.merge]
    have hpos : (0 : Int) < w.Count + 1 := by omega
    refine le_of_mul_le_mul_right ?_ hpos
    rw [hq2, hs2, ← havg]
    nlinarith

/-! ## The claims -/

/-- Witness of C1: a buffer of 105 bytes planned for two workers; the plan returned has the
two chunks `[0, 100]` and `[101, 104]`, and they partition the buffer after a newline. -/
theorem splitChunks_partition_witness :
    (1 : Int) ≤ 2 ∧
    splitChunks (List.replicate 100 97 ++ [10, 98, 59, 49, 10]) 2 (Machine.init [])
      = (Except.ok [Chunk.mk 0 100, Chunk.mk 101 104], Machine.mk [102, 101, 100] []) ∧
    ((([Chunk.mk 0 100, Chunk.mk 101 104] : List Chunk).length : Int) = 2 ∧
    (∀ c ∈ [Chunk.mk 0 100, Chunk.mk 101 104], c.Start ≤ c.End + 1) ∧
    (∀ (a b : Nat) (ca cb : Chunk), a < b →
      [Chunk.mk 0 100, Chunk.mk 101 104][a]? = some ca →
      [Chunk.mk 0 100, Chunk.mk 101 104][b]? = some cb →
      ∀ x : Int, ¬ (ca.covers x ∧ cb.covers x)) ∧
    (∀ x : Int, (0 ≤ x ∧ x < (List.replicate 100 97 ++ [10, 98, 59, 49, 10]).length) ↔
      ∃ c ∈ [Chunk.mk 0 100, Chunk.mk 101 104], c.covers x) ∧
    (∀ (i : Nat) (c : Chunk), 1 ≤ i → [Chunk.mk 0 100, Chunk.mk 101 104][i]? = some c →
      byteAt (List.replicate 100 97 ++ [10, 98, 59, 49, 10]) (c.Start - 1) = some NL)) :=
  ⟨by decide, by decide,
    splitChunks_partition (List.replicate 100 97 ++ [10, 98, 59, 49, 10]) 2 (Machine.init [])
      (Machine.mk [102, 101, 100] []) [Chunk.mk 0 100, Chunk.mk 101 104] (by decide)
      (by decide)⟩

/-- C2: a buffer of newline-terminated lines, each a comment line or a data line `key;value`
whose key holds no `#` and whose value parses, scanned as the single chunk from `0` to `L-1`
from the empty map, gives a map whose keys are exactly the keys of the data lines and in which
the entry of a key has as `Count` the number of its data lines, as `Min` and `Max` the least and
greatest of its parsed values, as `Sum` their sum and as `Avg` the quotient `Sum / Count`. -/
theorem processChunk_single_worker (parse : List Byte → Option ℚ) (lines : List (List Byte))
    (hwf : ∀ l ∈ lines, NL ∉ l ∧
      (isComment l ∨ (isData l ∧ HASH ∉ keyOf l ∧ (parse (valueOf l)).isSome))) :
    ∃ (log : List Int) (m : Results),
      processChunk parse (render lines) 0 (((render lines).length : Int) - 1) (Machine.init [])
        = (Except.ok (), Machine.mk log m) ∧
      ∀ k : Key, (lookup m k = none ↔ dataLines k lines = []) ∧
        ∀ w, lookup m k = some w →
          w.Count = ((dataLines k lines).length : Int) ∧
          (w.Min ∈ dataValues parse k lines ∧ ∀ x ∈ dataValues parse k lines, w.Min ≤ x) ∧
          (w.Max ∈ dataValues parse k lines ∧ ∀ x ∈ dataValues parse k lines, x ≤ w.Max) ∧
          w.Sum = (dataValues parse k lines).sum ∧
          w.Avg = w.Sum / (w.Count : ℚ) := by
  have hm : ∀ l ∈ lines, Marked l := by
    intro l hl
    obtain ⟨h1, h2⟩ := hwf l hl
    exact marked_of_format ⟨h1, h2.imp id (fun h => h.1)⟩
  have hgood : ∀ l ∈ lines, ¬ BadField parse l := by
    intro l hl
    rcases (hwf l hl).2 with hc | ⟨hd, hk, hp⟩
    · exact not_badField_of_comment parse hc
    · rw [badField_iff_of_isData parse hd hk]
      intro hn; rw [hn] at hp; simp at hp
  have hshape : ∀ l ∈ lines, isComment l ∨ (isData l ∧ HASH ∉ keyOf l) := by
    intro l hl
    exact (hwf l hl).2.imp id (fun h => ⟨h.1, h.2.1⟩)
  have hparse : ∀ l ∈ lines, isData l → (parse (valueOf l)).isSome := by
    intro l hl hd
    rcases (hwf l hl).2 with hc | ⟨_, _, hp⟩
    · exact absurd hc hd.1
    · exact hp
  obtain ⟨log, hrun⟩ := processChunk_lines parse lines (Machine.init []) hm
  rw [applyLines_ok parse lines _ hgood] at hrun
  refine ⟨_, _, hrun, ?_⟩
  intro k
  have key := lookup_applyUpdates_empty k (updates parse lines)
  rw [samplesFor_updates parse k lines hshape] at key
  have hlen := length_dataValues parse k lines hparse
  simp only [Machine.init] at key ⊢
  constructor
  · constructor
    · intro hnone
      rw [hnone] at key
      simp only at key
      rw [key] at hlen
      exact List.length_eq_zero.mp hlen.symm
    · intro hnil
      cases hl : lookup (applyUpdates [] (updates parse lines)) k with
      | none => rfl
      | some w =>
        rw [hl] at key
        simp only at key
        rw [hnil] at hlen
        exact absurd (List.length_eq_zero.mp hlen) key.1
  · intro w hw
    rw [hw] at key
    obtain ⟨_, h1, h2, h3, h4, h5⟩ := key
    exact ⟨by rw [h1, hlen], h3, h4, h2, h5⟩

theorem parseDecimal_10 : parseDecimal (ascii "10.0") = some 10 := by
  simp [parseDecimal, ascii, digitsValue]; norm_num

theorem parseDecimal_20 : parseDecimal (ascii "20.0") = some 20 := by
  simp [parseDecimal, ascii, digitsValue]; norm_num

theorem parseDecimal_5 : parseDecimal (ascii "5.0") = some 5 := by
  simp [parseDecimal, ascii, digitsValue]; norm_num

/-- Witness of C2: the buffer `A;10.0\nA;20.0\nB;5.0\n` is well formed, and its scan gives
`A`: min 10, max 20, avg 15, sum 30, count 2 and `B`: min = max = avg = sum = 5, count 1. -/
theorem processChunk_single_worker_witness :
    (∀ l ∈ [ascii "A;10.0", ascii "A;20.0", ascii "B;5.0"], NL ∉ l ∧
      (isComment l ∨ (isData l ∧ HASH ∉ keyOf l ∧ (parseDecimal (valueOf l)).isSome))) ∧
    ∃ (log : List Int) (m : Results),
      processChunk parseDecimal (ascii "A;10.0\nA;20.0\nB;5.0\n") 0 19 (Machine.init [])
        = (Except.ok (), Machine.mk log m) ∧
      lookup m (ascii "A") = some { Min := 10, Max := 20, Avg := 15, Sum := 30, Count := 2 } ∧
      lookup m (ascii "B") = some { Min := 5, Max := 5, Avg := 5, Sum := 5, Count := 1 } := by
  have hwf : ∀ l ∈ [ascii "A;10.0", ascii "A;20.0", ascii "B;5.0"], NL ∉ l ∧
      (isComment l ∨ (isData l ∧ HASH ∉ keyOf l ∧ (parseDecimal (valueOf l)).isSome)) := by
    decide
  refine ⟨hwf, ?_⟩
  obtain ⟨log, m, hrun, hk⟩ := processChunk_single_worker parseDecimal
    [ascii "A;10.0", ascii "A;20.0", ascii "B;5.0"] hwf
  have hbuf : render [ascii "A;10.0", ascii "A;20.0", ascii "B;5.0"]
      = ascii "A;10.0\nA;20.0\nB;5.0\n" := by decide
  have hlen : (((ascii "A;10.0\nA;20.0\nB;5.0\n").length : Int) - 1) = 19 := by decide
  rw [hbuf, hlen] at hrun
  refine ⟨log, m, hrun, ?_, ?_⟩
  · obtain ⟨hnone, hsome⟩ := hk (ascii "A")
    have hdl : dataLines (ascii "A") [ascii "A;10.0", ascii "A;20.0", ascii "B;5.0"]
        = [ascii "A;10.0", ascii "A;20.0"] := by decide
    have hdv : dataValues parseDecimal (ascii "A")
        [ascii "A;10.0", ascii "A;20.0", ascii "B;5.0"] = [10, 20] := by
      unfold dataValues
      rw [hdl]
      have e1 : valueOf (ascii "A;10.0") = ascii "10.0" := by decide
      have e2 : valueOf (ascii "A;20.0") = ascii "20.0" := by decide
      simp [List.filterMap_cons, e1, e2, parseDecimal_10, parseDecimal_20]
    cases hl : lookup m (ascii "A") with
    | none =>
      have := hnone.mp hl
      rw [hdl] at this
      exact absurd this (by simp)
    | some w =>
      obtain ⟨h1, ⟨h2, h3⟩, ⟨h4, h5⟩, h6, h7⟩ := hsome w hl
      rw [hdv] at h2 h3 h4 h5 h6
      rw [hdl] at h1
      have hmin : w.Min = 10 := by
        simp at h2 h3
        rcases h2 with h | h
        · exact h
        · linarith [h3.1]
      have hmax : w.Max = 20 := by
        simp at h4 h5
        rcases h4 with h | h
        · linarith [h5.2]
        · exact h
      have hsum : w.Sum = 30 := by rw [h6]; norm_num
      have hcnt : w.Count = 2 := by simpa using h1
      have havg : w.Avg = 15 := by rw [h7, hsum, hcnt]; norm_num
      cases w
      simp_all
  · obtain ⟨hnone, hsome⟩ := hk (ascii "B")
    have hdl : dataLines (ascii "B") [ascii "A;10.0", ascii "A;20.0", ascii "B;5.0"]
        = [ascii "B;5.0"] := by decide
    have hdv : dataValues parseDecimal (ascii "B")
        [ascii "A;10.0", ascii "A;20.0", ascii "B;5.0"] = [5] := by
      unfold dataValues
      rw [hdl]
      have e1 : valueOf (ascii "B;5.0") = ascii "5.0" := by decide
      simp [List.filterMap_cons, e1, parseDecimal_5]
    cases hl : lookup m (ascii "B") with
    | none =>
      have := hnone.mp hl
      rw [hdl] at this
      exact absurd this (by simp)
    | some w =>
      obtain ⟨h1, ⟨h2, h3⟩, ⟨h4, h5⟩, h6, h7⟩ := hsome w hl
      rw [hdv] at h2 h3 h4 h5 h6
      rw [hdl] at h1
      have hmin : w.Min = 5 := by simpa using h2
      have hmax : w.Max = 5 := by simpa using h4
      have hsum : w.Sum = 5 := by rw [h6]; norm_num
      have hcnt : w.Count = 1 := by simpa using h1
      have havg : w.Avg = 5 := by rw [h7, hsum, hcnt]; norm_num
      cases w
      simp_all

theorem updates_eq_dataUpdates (parse : List Byte → Option ℚ) :
    ∀ lines : List (List Byte),
      (∀ l ∈ lines, isComment l ∨ (isData l ∧ HASH ∉ keyOf l)) →
      updates parse lines = dataUpdates parse lines := by
  intro lines
  induction lines with
  | nil => intro _; rfl
  | cons l ls ih =>
    intro h
    have ih' := ih (fun x hx => h x (by simp [hx]))
    unfold updates dataUpdates at ih' ⊢
    rw [List.filterMap_cons, List.filterMap_cons, ih']
    rcases h l (by simp) with hc | ⟨hd, hk⟩
    · have hnd : ¬ isData l := fun hd => hd.1 hc
      rw [lineUpdate_of_isComment parse hc, if_neg hnd]
    · rw [lineUpdate_of_isData parse hd hk, if_pos hd]

/-- C3: in a buffer of newline-terminated comment and `key;value` lines, a further
newline-terminated line that begins with `#` (its other bytes arbitrary) may be inserted at the
start, between two lines or at the end: scanning the whole buffer from the empty map ends in the
same way and leaves exactly the same map. -/
theorem comment_line_ignored (parse : List Byte → Option ℚ) (before after : List (List Byte))
    (c : List Byte) (hwf : ∀ l ∈ before ++ after, FormatLine l)
    (hc : isComment c) (hcn : NL ∉ c) :
    ∃ (out : Except Fault Unit) (m : Results) (log1 log2 : List Int),
      processChunk parse (render (before ++ c :: after)) 0
          (((render (before ++ c :: after)).length : Int) - 1) (Machine.init [])
        = (out, Machine.mk log1 m) ∧
      processChunk parse (render (before ++ after)) 0
          (((render (before ++ after)).length : Int) - 1) (Machine.init [])
        = (out, Machine.mk log2 m) := by
  have hm2 : ∀ l ∈ before ++ after, Marked l := fun l hl => marked_of_format (hwf l hl)
  have hmc : Marked c := marked_of_format ⟨hcn, Or.inl hc⟩
  have hm1 : ∀ l ∈ before ++ c :: after, Marked l := by
    intro l hl
    rcases List.mem_append.mp hl with h | h
    · exact hm2 l (List.mem_append.mpr (Or.inl h))
    · rcases List.mem_cons.mp h with h | h
      · rw [h]; exact hmc
      · exact hm2 l (List.mem_append.mpr (Or.inr h))
  obtain ⟨log1, h1⟩ := processChunk_lines parse (before ++ c :: after) (Machine.init []) hm1
  obtain ⟨log2, h2⟩ := processChunk_lines parse (before ++ after) (Machine.init []) hm2
  rw [applyLines_insert parse c after (scanLine_of_head hc) before] at h1
  exact ⟨_, _, _, _, h1, h2⟩

/-- Witness of C3: the comment line `#x;y#z` put between the lines `A;1.5` and `B;2`. -/
theorem comment_line_ignored_witness :
    (∀ l ∈ [ascii "A;1.5"] ++ [ascii "B;2"], FormatLine l) ∧
    isComment (ascii "#x;y#z") ∧ NL ∉ ascii "#x;y#z" ∧
    ∃ (out : Except Fault Unit) (m : Results) (log1 log2 : List Int),
      processChunk parseDecimal (render ([ascii "A;1.5"] ++ ascii "#x;y#z" :: [ascii "B;2"])) 0
          (((render ([ascii "A;1.5"] ++ ascii "#x;y#z" :: [ascii "B;2"])).length : Int) - 1)
          (Machine.init [])
        = (out, Machine.mk log1 m) ∧
      processChunk parseDecimal (render ([ascii "A;1.5"] ++ [ascii "B;2"])) 0
          (((render ([ascii "A;1.5"] ++ [ascii "B;2"])).length : Int) - 1) (Machine.init [])
        = (out, Machine.mk log2 m) :=
  ⟨by decide, by decide, by decide,
    comment_line_ignored parseDecimal [ascii "A;1.5"] [ascii "B;2"] (ascii "#x;y#z")
      (by decide) (by decide) (by decide)⟩

/-- C4, at the input `St#1;5.0\n`: the line does not begin with `#`, it is a data line with key
`St#1` whose value `5.0` parses, and yet the scan of the chunk ends without any update: from
the `#` at index 2 the scanner skips to the newline, and the map stays empty. -/
theorem hash_inside_key_drops_record :
    ¬ isComment (ascii "St#1;5.0") ∧ isData (ascii "St#1;5.0") ∧
    keyOf (ascii "St#1;5.0") = ascii "St#1" ∧
    (parseDecimal (valueOf (ascii "St#1;5.0"))).isSome ∧
    processChunk parseDecimal (ascii "St#1;5.0\n") 0 8 (Machine.init [])
      = (Except.ok (), Machine.mk [0, 0, 1, 1, 2, 2, 3, 4, 5, 6, 7, 8, 8] []) := by
  decide

/-- The backward scan on a stretch without newline runs down to index `-1`. -/
theorem scanBackward_no_newline (buf : List Byte) :
    ∀ (fuel : Nat) (j : Int) (s : Machine),
      -1 ≤ j → j < buf.length → j + 2 ≤ fuel →
      (∀ m : Int, 0 ≤ m → m ≤ j → byteAt buf m ≠ some NL) →
      ∃ s', scanBackward buf fuel j s = (Except.error (Fault.indexOutOfRange (-1)), s') ∧
        (-1 : Int) ∈ s'.accesses ∧ s'.results = s.results := by
  intro fuel
  induction fuel with
  | zero => intro j s h1 _ h3 _; omega
  | succ fuel ih =>
    intro j s h1 h2 h3 h4
    rw [scanBackward]
    by_cases hj : j = -1
    · subst hj
      have hb : byteAt buf (-1) = none := by rw [byteAt_none_iff]; omega
      exact ⟨{ s with accesses := s.accesses ++ [-1] },
        by simp only [bind_run, readByte_none hb], by simp, rfl⟩
    · have hj0 : 0 ≤ j := by omega
      cases hb : byteAt buf j with
      | none =>
        rw [byteAt_none_iff] at hb
        omega
      | some b =>
        have hbn : b ≠ NL := by
          intro h; subst h; exact h4 j hj0 (le_refl _) hb
        simp only [bind_run, readByte_some hb, hbn, ne_eq, not_false_eq_true, if_true]
        obtain ⟨s', e1, e2, e3⟩ := ih (j - 1) { s with accesses := s.accesses ++ [j] }
          (by omega) (by omega) (by omega) (fun m hm1 hm2 => h4 m hm1 (by omega))
        exact ⟨s', e1, e2, e3⟩

/-- For two or more workers, when the first probe `chunkSize + 50` lies in the buffer and no
newline is stored at or before it, `splitChunks` walks down to index `-1` and is stopped there
by the runtime's range check. -/
theorem splitChunks_scan_passes_start (buf : List Byte) (n : Int) (s : Machine)
    (hn : 2 ≤ n) (hin : Int.tdiv (buf.length : Int) n + 50 < buf.length)
    (hno : ∀ m : Int, 0 ≤ m → m ≤ Int.tdiv (buf.length : Int) n + 50 →
      byteAt buf m ≠ some NL) :
    ∃ s', splitChunks buf n s = (Except.error (Fault.indexOutOfRange (-1)), s') ∧
      (-1 : Int) ∈ s'.accesses := by
  obtain ⟨N, rfl⟩ : ∃ N : Nat, n = N := ⟨n.toNat, by omega⟩
  have hc : 0 ≤ Int.tdiv (buf.length : Int) (N : Int) :=
    Int.tdiv_nonneg (by omega) (by omega)
  unfold splitChunks
  have hn0 : ¬ ((N : Int) = 0) := by omega
  have hn1 : ¬ ((N : Int) < 0) := by omega
  simp only [hn0, hn1, if_false, bind_run, Int.toNat_ofNat]
  have e0 := setStart_run (List.replicate N (Chunk.mk 0 0)) 0 0 s (by simp; omega)
  simp only [e0]
  obtain ⟨M, rfl⟩ : ∃ M : Nat, N = M + 1 := ⟨N - 1, by omega⟩
  rw [splitLoop]
  have h1 : (1 : Int) < ((M + 1 : Nat) : Int) := by omega
  simp only [h1, if_true, bind_run, mul_one]
  obtain ⟨s', e1, e2, _⟩ := scanBackward_no_newline buf (buf.length + 1)
    (Int.tdiv (buf.length : Int) ((M + 1 : Nat) : Int) + 50) s (by omega) hin (by omega) hno
  rw [e1]
  exact ⟨s', rfl, e2⟩

/-- C6, at the input of 101 bytes `a` planned for two workers: no newline is found, the scan
that starts at index 100 walks past the start of the buffer, index `-1` is accessed, and the
run is stopped by the range check of the runtime, not by an error of the planner. -/
theorem splitChunks_no_newline_reads_before_start :
    ∃ s', splitChunks (List.replicate 101 97) 2 (Machine.init [])
        = (Except.error (Fault.indexOutOfRange (-1)), s') ∧
      (-1 : Int) ∈ s'.accesses :=
  splitChunks_scan_passes_start (List.replicate 101 97) 2 (Machine.init []) (by decide)
    (by decide)
    (by
      intro m _ _ h
      rw [byteAt_some_iff] at h
      have hmem : NL ∈ List.replicate 101 97 := List.getElem?_mem h.2
      exact absurd (List.eq_of_mem_replicate hmem) (by decide))

/-- C10: for one worker `splitChunks` returns the single chunk from `0` to `L - 1` for every
buffer, also the empty one, and leaves the state as it was: no index of the buffer is
accessed, so no boundary is searched and no fault can occur. -/
theorem splitChunks_single_worker (buf : List Byte) (s : Machine) :
    splitChunks buf 1 s = (Except.ok [Chunk.mk 0 ((buf.length : Int) - 1)], s) :=
  splitChunks_one buf s

/-- C8: for a buffer made only of newline-terminated lines that begin with `#` (the empty
buffer included), planning for one worker and scanning the chunk on a new map returns without
a fault, every index accessed lies inside the buffer, and the map is left empty. -/
theorem comments_only_empty_map (parse : List Byte → Option ℚ) (lines : List (List Byte))
    (h : ∀ l ∈ lines, NL ∉ l ∧ isComment l) :
    ∃ log : List Int,
      ProcessRows parse (render lines) 1 (Machine.init []) = (Except.ok (), Machine.mk log []) ∧
      ∀ a ∈ log, 0 ≤ a ∧ a < ((render lines).length : Int) := by
  have hm : ∀ l ∈ lines, Marked l :=
    fun l hl => marked_of_format ⟨(h l hl).1, Or.inl (h l hl).2⟩
  have hgood : ∀ l ∈ lines, ¬ BadField parse l :=
    fun l hl => not_badField_of_comment parse (h l hl).2
  obtain ⟨log, hrun⟩ := processChunk_lines parse lines (Machine.init []) hm
  rw [applyLines_ok parse lines _ hgood, updates_of_comments parse lines (fun l hl => (h l hl).2)]
    at hrun
  have hsafe := okInRange_processChunk parse (render lines) 0
    (((render lines).length : Int) - 1) (Machine.init []) () _
    (by intro a ha; simp [Machine.init] at ha) hrun
  refine ⟨[] ++ log, ?_, ?_⟩
  · unfold ProcessRows
    simp only [bind_run, splitChunks_one, modifyResults, runChunks]
    have e : ({ accesses := (Machine.init []).accesses, results := [] } : Machine)
        = Machine.init [] := rfl
    rw [e, hrun]
    simp [Machine.init, applyUpdates]
  · intro a ha
    exact hsafe a (by simpa [Machine.init] using ha)

/-- Witness of C8: a buffer of two comment lines. -/
theorem comments_only_empty_map_witness :
    (∀ l ∈ [ascii "# station;value", ascii "#"], NL ∉ l ∧ isComment l) ∧
    ∃ log : List Int,
      ProcessRows parseDecimal (render [ascii "# station;value", ascii "#"]) 1 (Machine.init [])
        = (Except.ok (), Machine.mk log []) ∧
      ∀ a ∈ log, 0 ≤ a ∧ a < ((render [ascii "# station;value", ascii "#"]).length : Int) :=
  ⟨by decide, comments_only_empty_map parseDecimal [ascii "# station;value", ascii "#"]
    (by decide)⟩

/-! ## Parse failures -/

theorem exists_first {α : Type} (p : α → Prop) :
    ∀ l : List α, (∃ x ∈ l, p x) →
      ∃ (before : List α) (bad : α) (after : List α),
        l = before ++ bad :: after ∧ p bad ∧ ∀ x ∈ before, ¬ p x := by
  intro l
  induction l with
  | nil => rintro ⟨x, hx, _⟩; simp at hx
  | cons a r ih =>
    rintro ⟨x, hx, hpx⟩
    by_cases ha : p a
    · exact ⟨[], a, r, rfl, ha, by simp⟩
    · have hxr : x ∈ r := by
        rcases List.mem_cons.mp hx with h | h
        · subst h; exact absurd hpx ha
        · exact h
      obtain ⟨before, bad, after, e, hb, hbef⟩ := ih ⟨x, hxr, hpx⟩
      refine ⟨a :: before, bad, after, by rw [e]; rfl, hb, ?_⟩
      intro y hy
      rcases List.mem_cons.mp hy with h | h
      · subst h; exact ha
      · exact hbef y h

/-- C9 does not hold for the code, at the chunk `a#b;x\n`: its one line is a `key;value` line
that does not begin with `#`, its value field `x` does not parse, and yet the scan reads the
chunk to its end and returns without a fault and without an update, because from the `#`
inside the key the scanner skips to the newline.  It is the defect of
`hash_inside_key_drops_record`: the test for `#` is made at every byte, not only at the first
byte of a line. -/
theorem parse_failure_missed_after_hash :
    FormatLine (ascii "a#b;x") ∧ isData (ascii "a#b;x") ∧
    valueOf (ascii "a#b;x") = ascii "x" ∧ parseDecimal (ascii "x") = none ∧
    render [ascii "a#b;x"] = ascii "a#b;x\n" ∧
    processChunk parseDecimal (ascii "a#b;x\n") 0 5 (Machine.init [])
      = (Except.ok (), Machine.mk [0, 0, 1, 1, 2, 3, 4, 5, 5] []) ∧
    ¬ ((∃ e, (processChunk parseDecimal (render [ascii "a#b;x"]) 0
          (((render [ascii "a#b;x"]).length : Int) - 1) (Machine.init [])).1 = Except.error e) ↔
        ∃ l ∈ [ascii "a#b;x"], isData l ∧ parseDecimal (valueOf l) = none) := by
  refine ⟨by decide, by decide, by decide, by decide, by decide, by decide, ?_⟩
  intro h
  have hr : ∃ l ∈ [ascii "a#b;x"], isData l ∧ parseDecimal (valueOf l) = none :=
    ⟨ascii "a#b;x", by simp, by decide, by decide⟩
  obtain ⟨e, he⟩ := h.mpr hr
  have hok : (processChunk parseDecimal (render [ascii "a#b;x"]) 0
      (((render [ascii "a#b;x"]).length : Int) - 1) (Machine.init [])).1 = Except.ok () := by
    decide
  rw [hok] at he
  exact absurd he (by simp)

/-- Away from that defect a parse failure is fatal: for a chunk made of newline-terminated
comment lines and `key;value` lines whose keys hold no `#`, `processChunk` ends in a fault
exactly when the value field of some data line of the chunk does not parse; it then stops at
the first such line with the parse fault of that field, and the map holds the updates of the
data lines before it and of no later line. -/
theorem parse_failure_fatal (parse : List Byte → Option ℚ) (pre post : List Byte)
    (lines : List (List Byte)) (s : Machine)
    (hwf : ∀ l ∈ lines, FormatLine l) (hkey : ∀ l ∈ lines, isData l → HASH ∉ keyOf l) :
    ((∃ e, (processChunk parse (pre ++ (render lines ++ post)) pre.length
          ((pre.length : Int) + (render lines).length - 1) s).1 = Except.error e) ↔
      ∃ l ∈ lines, isData l ∧ parse (valueOf l) = none) ∧
    (∀ (before : List (List Byte)) (bad : List Byte) (after : List (List Byte)),
      lines = before ++ bad :: after → isData bad → parse (valueOf bad) = none →
      (∀ l ∈ before, isData l → parse (valueOf l) ≠ none) →
      (processChunk parse (pre ++ (render lines ++ post)) pre.length
          ((pre.length : Int) + (render lines).length - 1) s).1
        = Except.error (Fault.parseFloat (valueOf bad)) ∧
      (processChunk parse (pre ++ (render lines ++ post)) pre.length
          ((pre.length : Int) + (render lines).length - 1) s).2.results
        = applyUpdates s.results (dataUpdates parse before)) := by
  have hm : ∀ l ∈ lines, Marked l := fun l hl => marked_of_format (hwf l hl)
  have hshape : ∀ l ∈ lines, isComment l ∨ (isData l ∧ HASH ∉ keyOf l) := by
    intro l hl
    rcases (hwf l hl).2 with hc | hd
    · exact Or.inl hc
    · exact Or.inr ⟨hd, hkey l hl hd⟩
  have hbad : ∀ l ∈ lines, (BadField parse l ↔ isData l ∧ parse (valueOf l) = none) := by
    intro l hl
    rcases hshape l hl with hc | ⟨hd, hk⟩
    · constructor
      · intro hb; exact absurd hb (not_badField_of_comment parse hc)
      · rintro ⟨hd, _⟩; exact absurd hc hd.1
    · rw [badField_iff_of_isData parse hd hk]
      exact ⟨fun hp => ⟨hd, hp⟩, fun hp => hp.2⟩
  obtain ⟨log, hrun⟩ := processChunk_on_lines parse pre post lines s hm
  rw [hrun]
  have hsecond : ∀ (before : List (List Byte)) (bad : List Byte) (after : List (List Byte)),
      lines = before ++ bad :: after → isData bad → parse (valueOf bad) = none →
      (∀ l ∈ before, isData l → parse (valueOf l) ≠ none) →
      applyLines parse lines s.results
        = (Except.error (Fault.parseFloat (valueOf bad)),
            applyUpdates s.results (dataUpdates parse before)) := by
    intro before bad after e hd hp hbef
    have hbadmem : bad ∈ lines := by rw [e]; simp
    have hk := hkey bad hbadmem hd
    have hgood : ∀ l ∈ before, ¬ BadField parse l := by
      intro l hl hb
      have hl' : l ∈ lines := by rw [e]; simp [hl]
      obtain ⟨h1, h2⟩ := (hbad l hl').mp hb
      exact hbef l hl h1 h2
    have hsh : ∀ l ∈ before, isComment l ∨ (isData l ∧ HASH ∉ keyOf l) :=
      fun l hl => hshape l (by rw [e]; simp [hl])
    rw [e, applyLines_bad parse bad after (keyOf bad) (valueOf bad)
      (scanLine_of_isData hd hk) hp before s.results hgood,
      updates_eq_dataUpdates parse before hsh]
  constructor
  · constructor
    · rintro ⟨e, he⟩
      by_contra hno
      have hgood : ∀ l ∈ lines, ¬ BadField parse l := by
        intro l hl hb
        exact hno ⟨l, hl, (hbad l hl).mp hb⟩
      rw [applyLines_ok parse lines _ hgood] at he
      simp at he
    · intro hex
      obtain ⟨before, bad, after, e, ⟨hd, hp⟩, hbef⟩ :=
        exists_first (fun l => isData l ∧ parse (valueOf l) = none) lines hex
      have := hsecond before bad after e hd hp (fun l hl h1 h2 => hbef l hl ⟨h1, h2⟩)
      exact ⟨_, by rw [this]⟩
  · intro before bad after e hd hp hbef
    have := hsecond before bad after e hd hp hbef
    rw [this]
    exact ⟨rfl, rfl⟩

/-- An instance: the chunk `A;1.5\nB;x\nC;2\n`, whose second line has a value field that does
not parse. -/
theorem parse_failure_fatal_example :
    (∀ l ∈ [ascii "A;1.5", ascii "B;x", ascii "C;2"], FormatLine l) ∧
    (∀ l ∈ [ascii "A;1.5", ascii "B;x", ascii "C;2"], isData l → HASH ∉ keyOf l) ∧
    ((∃ e, (processChunk parseDecimal
          ([] ++ (render [ascii "A;1.5", ascii "B;x", ascii "C;2"] ++ []))
          (([] : List Byte).length : Int)
          (((([] : List Byte).length : Nat) : Int)
            + (render [ascii "A;1.5", ascii "B;x", ascii "C;2"]).length - 1)
          (Machine.init [])).1 = Except.error e) ↔
      ∃ l ∈ [ascii "A;1.5", ascii "B;x", ascii "C;2"],
        isData l ∧ parseDecimal (valueOf l) = none) :=
  ⟨by decide, by decide,
    (parse_failure_fatal parseDecimal [] [] [ascii "A;1.5", ascii "B;x", ascii "C;2"]
      (Machine.init []) (by decide) (by decide)).1⟩

theorem getD_eq_getElem (chunks : List Chunk) (i : Nat) (hi : i < chunks.length) :
    chunks.getD i (Chunk.mk 0 0) = chunks[i] := by
  simp [List.getD_eq_getElem?_getD, List.getElem?_eq_getElem hi]

theorem aligned_of_mem_plan {lines : List (List Byte)} {chunks : List Chunk}
    (hnl : ∀ l ∈ lines, NL ∉ l) (hp : Plan (render lines) chunks) {c : Chunk}
    (hc : c ∈ chunks) : Aligned lines c := by
  obtain ⟨i, hi, hci⟩ := List.getElem_of_mem hc
  obtain ⟨a, b, h1, h2, h3, h4⟩ := aligned_of_plan hnl hp i hi
  unfold startOf at h3
  unfold endOf at h4
  rw [getD_eq_getElem chunks i hi, hci] at h3 h4
  exact ⟨a, b, h1, h2, h3, h4⟩

/-- C7: for a well-formed buffer planned for one and for eight workers, and a key all of whose
data lines lie inside one chunk of the plan for eight, the entry stored for the key after the
eight chunks have been scanned into one map, one after another in any order, is the entry
stored for it after the scan of the single chunk of the plan for one; both runs return. -/
theorem one_vs_eight_workers (parse : List Byte → Option ℚ) (lines : List (List Byte))
    (k : Key) (sa sa' sb sb' : Machine) (chunks1 chunks8 order : List Chunk)
    (hwf : ∀ l ∈ lines, FormatLine l)
    (hparse : ∀ l ∈ lines, isData l → (parse (valueOf l)).isSome)
    (h1 : splitChunks (render lines) 1 sa = (Except.ok chunks1, sa'))
    (h8 : splitChunks (render lines) 8 sb = (Except.ok chunks8, sb'))
    (hkey : ∃ c ∈ chunks8, ∀ p : Nat, p < lines.length → isData (lines.getD p []) →
      keyOf (lines.getD p []) = k → lineInside lines p c)
    (hord : order.Perm chunks8) :
    ∃ (log1 : List Int) (m1 : Results) (log8 : List Int) (m8 : Results),
      runChunks parse (render lines) chunks1 (Machine.init [])
        = (Except.ok (), Machine.mk log1 m1) ∧
      runChunks parse (render lines) order (Machine.init [])
        = (Except.ok (), Machine.mk log8 m8) ∧
      lookup m8 k = lookup m1 k := by
  have hnl : ∀ l ∈ lines, NL ∉ l := fun l hl => (hwf l hl).1
  have hm : ∀ l ∈ lines, Marked l := fun l hl => marked_of_format (hwf l hl)
  have hgood : ∀ l ∈ lines, ¬ BadField parse l :=
    fun l hl => not_badField_of_parses parse (hparse l hl)
  obtain ⟨hlen1, hp1, -, -⟩ := splitChunks_spec (render lines) 1 sa sa' chunks1 (by decide) h1
  obtain ⟨hlen8, hp8, -, -⟩ := splitChunks_spec (render lines) 8 sb sb' chunks8 (by decide) h8
  have hpos1 : 0 < chunks1.length := by rw [hlen1]; decide
  have hpos8 : 0 < chunks8.length := by rw [hlen8]; decide
  obtain ⟨log1, hrun1⟩ := runChunks_aligned parse lines hm hgood chunks1 (Machine.init [])
    (fun c hc => aligned_of_mem_plan hnl hp1 hc)
  obtain ⟨log8, hrun8⟩ := runChunks_aligned parse lines hm hgood order (Machine.init [])
    (fun c hc => aligned_of_mem_plan hnl hp8 (hord.mem_iff.mp hc))
  refine ⟨_, _, _, _, hrun1, hrun8, ?_⟩
  rw [lookup_applyUpdates, lookup_applyUpdates]
  have hpw : chunks8.Pairwise (fun c d =>
      samplesFor k (updates parse (linesOf lines c)) = [] ∨
      samplesFor k (updates parse (linesOf lines d)) = []) := by
    obtain ⟨c, hc, hin⟩ := hkey
    obtain ⟨i, hi, hci⟩ := List.getElem_of_mem hc
    have hin' : ∀ p : Nat, p < lines.length → isData (lines.getD p []) →
        keyOf (lines.getD p []) = k →
        lineInside lines p (chunks8.getD i (Chunk.mk 0 0)) := by
      intro p hp hd hk
      rw [getD_eq_getElem chunks8 i hi, hci]
      exact hin p hp hd hk
    rw [List.pairwise_iff_getElem]
    intro a b ha hb hab
    by_contra hcon
    push_neg at hcon
    have e1 := samples_only_in_chunk parse k hnl hp8 i hi hin' a ha
      (by rw [getD_eq_getElem chunks8 a ha]; exact hcon.1)
    have e2 := samples_only_in_chunk parse k hnl hp8 i hi hin' b hb
      (by rw [getD_eq_getElem chunks8 b hb]; exact hcon.2)
    omega
  have hsame : samplesFor k (updates parse (chunkLines lines order))
      = samplesFor k (updates parse (chunkLines lines chunks1)) := by
    rw [← samples_perm parse lines k hord.symm hpw, chunkLines_plan hnl hp8 hpos8,
      chunkLines_plan hnl hp1 hpos1]
  rw [hsame]

set_option maxRecDepth 100000 in
set_option maxHeartbeats 4000000 in
/-- The plan for eight workers of the buffer of 380 bytes made of the line `B;2` followed by
94 lines `A;1`; its last chunk is empty. -/
theorem plan_eight_example :
    (splitChunks (render (ascii "B;2" :: List.replicate 94 (ascii "A;1"))) 8 (Machine.init [])).1
      = Except.ok [Chunk.mk 0 95, Chunk.mk 96 143, Chunk.mk 144 191, Chunk.mk 192 235,
          Chunk.mk 236 283, Chunk.mk 284 331, Chunk.mk 332 379, Chunk.mk 380 379] := by
  decide

set_option maxRecDepth 100000 in
set_option maxHeartbeats 4000000 in
/-- Witness of C7: the buffer of 380 bytes made of the line `B;2` followed by 94 lines `A;1`,
the key `B`, whose only data line lies in the first of the eight chunks, and the eight chunks
scanned from the last to the first. -/
theorem one_vs_eight_workers_witness :
    (∀ l ∈ ascii "B;2" :: List.replicate 94 (ascii "A;1"), FormatLine l) ∧
    (∃ c ∈ [Chunk.mk 0 95, Chunk.mk 96 143, Chunk.mk 144 191, Chunk.mk 192 235,
          Chunk.mk 236 283, Chunk.mk 284 331, Chunk.mk 332 379, Chunk.mk 380 379],
      ∀ p : Nat, p < (ascii "B;2" :: List.replicate 94 (ascii "A;1")).length →
        isData ((ascii "B;2" :: List.replicate 94 (ascii "A;1")).getD p []) →
        keyOf ((ascii "B;2" :: List.replicate 94 (ascii "A;1")).getD p []) = ascii "B" →
        lineInside (ascii "B;2" :: List.replicate 94 (ascii "A;1")) p c) ∧
    ∃ (log1 : List Int) (m1 : Results) (log8 : List Int) (m8 : Results),
      runChunks parseDecimal (render (ascii "B;2" :: List.replicate 94 (ascii "A;1")))
          [Chunk.mk 0 ((((render (ascii "B;2" :: List.replicate 94 (ascii "A;1"))).length : Nat)
            : Int) - 1)] (Machine.init [])
        = (Except.ok (), Machine.mk log1 m1) ∧
      runChunks parseDecimal (render (ascii "B;2" :: List.replicate 94 (ascii "A;1")))
          [Chunk.mk 380 379, Chunk.mk 332 379, Chunk.mk 284 331, Chunk.mk 236 283,
            Chunk.mk 192 235, Chunk.mk 144 191, Chunk.mk 96 143, Chunk.mk 0 95]
          (Machine.init [])
        = (Except.ok (), Machine.mk log8 m8) ∧
      lookup m8 (ascii "B") = lookup m1 (ascii "B") := by
  have hmem : ∀ l ∈ ascii "B;2" :: List.replicate 94 (ascii "A;1"),
      l = ascii "B;2" ∨ l = ascii "A;1" := by
    intro l hl
    rcases List.mem_cons.mp hl with h | h
    · exact Or.inl h
    · exact Or.inr (List.eq_of_mem_replicate h)
  have hwf : ∀ l ∈ ascii "B;2" :: List.replicate 94 (ascii "A;1"), FormatLine l := by
    intro l hl
    rcases hmem l hl with h | h <;> rw [h] <;> decide
  have hparse : ∀ l ∈ ascii "B;2" :: List.replicate 94 (ascii "A;1"),
      isData l → (parseDecimal (valueOf l)).isSome := by
    intro l hl _
    rcases hmem l hl with h | h <;> rw [h] <;> decide
  have hkey : ∃ c ∈ [Chunk.mk 0 95, Chunk.mk 96 143, Chunk.mk 144 191, Chunk.mk 192 235,
          Chunk.mk 236 283, Chunk.mk 284 331, Chunk.mk 332 379, Chunk.mk 380 379],
      ∀ p : Nat, p < (ascii "B;2" :: List.replicate 94 (ascii "A;1")).length →
        isData ((ascii "B;2" :: List.replicate 94 (ascii "A;1")).getD p []) →
        keyOf ((ascii "B;2" :: List.replicate 94 (ascii "A;1")).getD p []) = ascii "B" →
        lineInside (ascii "B;2" :: List.replicate 94 (ascii "A;1")) p c := by
    refine ⟨Chunk.mk 0 95, by simp, ?_⟩
    intro p hp _ hk
    cases p with
    | zero => decide
    | succ q =>
      exfalso
      rw [List.length_cons, List.length_replicate] at hp
      have hmemq : (ascii "B;2" :: List.replicate 94 (ascii "A;1")).getD (q + 1) []
          ∈ List.replicate 94 (ascii "A;1") := by
        have hlen : q < (List.replicate 94 (ascii "A;1")).length := by
          rw [List.length_replicate]; omega
        have : (ascii "B;2" :: List.replicate 94 (ascii "A;1")).getD (q + 1) []
            = (List.replicate 94 (ascii "A;1"))[q] := by
          rw [List.getD_cons_succ, List.getD_eq_getElem?_getD, List.getElem?_eq_getElem hlen]
          rfl
        rw [this]
        exact List.getElem_mem hlen
      rw [List.eq_of_mem_replicate hmemq] at hk
      exact absurd hk (by decide)
  refine ⟨hwf, hkey, ?_⟩
  exact one_vs_eight_workers parseDecimal (ascii "B;2" :: List.replicate 94 (ascii "A;1"))
    (ascii "B") (Machine.init []) (Machine.init []) (Machine.init [])
    (splitChunks (render (ascii "B;2" :: List.replicate 94 (ascii "A;1"))) 8
      (Machine.init [])).2
    _ _ _ hwf hparse (splitChunks_one _ _)
    (Prod.ext plan_eight_example rfl) hkey
    (List.reverse_perm [Chunk.mk 0 95, Chunk.mk 96 143, Chunk.mk 144 191, Chunk.mk 192 235,
      Chunk.mk 236 283, Chunk.mk 284 331, Chunk.mk 332 379, Chunk.mk 380 379])

/-! ## Boundaries, record updates and safety of the scans -/

/-- C12: when `splitChunks` returns for `n ≥ 2`, then for every `i` from `1` to `n - 1` the end
of chunk `i - 1` is the greatest index `j ≤ floor(L/n) * i + 50` that holds a newline byte, and
chunk `i` starts at `j + 1`; the ends of the chunks are non-decreasing. -/
theorem boundary_placement (buf : List Byte) (n : Int) (s s' : Machine) (chunks : List Chunk)
    (hn : 2 ≤ n) (h : splitChunks buf n s = (Except.ok chunks, s')) :
    (∀ (i : Nat) (c d : Chunk), 1 ≤ i → (i : Int) < n →
      chunks[i - 1]? = some c → chunks[i]? = some d →
      byteAt buf c.End = some NL ∧
      c.End ≤ (buf.length : Int) / n * (i : Int) + 50 ∧
      (∀ m : Int, c.End < m → m ≤ (buf.length : Int) / n * (i : Int) + 50 →
        byteAt buf m ≠ some NL) ∧
      d.Start = c.End + 1) ∧
    (∀ (a b : Nat) (c d : Chunk), a ≤ b → chunks[a]? = some c → chunks[b]? = some d →
      c.End ≤ d.End) := by
  obtain ⟨hlen, hp, hl, -⟩ := splitChunks_spec buf n s s' chunks (by omega) h
  have hdiv : Int.tdiv (buf.length : Int) n = (buf.length : Int) / n :=
    Int.tdiv_eq_ediv (by omega) (by omega)
  rw [hdiv] at hl
  have hidx : ∀ (i : Nat) (c : Chunk), chunks[i]? = some c →
      i < chunks.length ∧ startOf chunks i = c.Start ∧ endOf chunks i = c.End := by
    intro i c hc
    refine ⟨(List.getElem?_eq_some_iff.mp hc).1, ?_, ?_⟩
    · unfold startOf; rw [getD_of_getElem? hc]
    · unfold endOf; rw [getD_of_getElem? hc]
  constructor
  · intro i c d hi1 hin hc hd
    obtain ⟨-, -, hce⟩ := hidx (i - 1) c hc
    obtain ⟨hdl, hds, -⟩ := hidx i d hd
    have hk : i - 1 + 1 < n.toNat := by omega
    have hcast : ((i - 1 : Nat) : Int) + 1 = (i : Int) := by omega
    have h1 := hl.nl (i - 1) hk
    have h2 := hl.bound (i - 1) hk
    have h3 := hl.greatest (i - 1) hk
    have h4 := hl.link (i - 1) hk
    rw [hcast] at h2 h3
    rw [show i - 1 + 1 = i by omega] at h4
    rw [hce] at h1 h2 h3 h4
    rw [hds] at h4
    exact ⟨h1, h2, h3, h4⟩
  · intro a b c d hab hc hd
    obtain ⟨-, -, hce⟩ := hidx a c hc
    obtain ⟨hbl, -, hde⟩ := hidx b d hd
    by_cases he : a = b
    · subst he
      rw [hc] at hd
      simp only [Option.some.injEq] at hd
      rw [hd]
    · have h1 := hp.end_lt_start a (b - a - 1) (by omega)
      rw [show a + (b - a - 1) + 1 = b by omega] at h1
      have h2 := hp.mono b hbl
      rw [← hce, ← hde]
      omega

/-- Witness of C12: the buffer of 105 bytes planned for two workers; the probe is index 102 and
the boundary found is the newline at index 100. -/
theorem boundary_placement_witness :
    (2 : Int) ≤ 2 ∧
    splitChunks (List.replicate 100 97 ++ [10, 98, 59, 49, 10]) 2 (Machine.init [])
      = (Except.ok [Chunk.mk 0 100, Chunk.mk 101 104], Machine.mk [102, 101, 100] []) ∧
    ∀ (a b : Nat) (c d : Chunk), a ≤ b →
      [Chunk.mk 0 100, Chunk.mk 101 104][a]? = some c →
      [Chunk.mk 0 100, Chunk.mk 101 104][b]? = some d → c.End ≤ d.End :=
  ⟨by decide, by decide,
    (boundary_placement (List.replicate 100 97 ++ [10, 98, 59, 49, 10]) 2 (Machine.init [])
      (Machine.mk [102, 101, 100] []) [Chunk.mk 0 100, Chunk.mk 101 104] (by decide)
      (by decide)).2⟩

/-- C14: one record update for the key `k` changes only the entry of `k`: the keys after the
update are the keys before it and `k`, the entry of every other key is as before, and the entry
of `k` is the single-sample entry when `k` was absent and the merged entry when it was present. -/
theorem recordSample_frame (m : Results) (k : Key) (t : ℚ) :
    (∀ k' : Key, (lookup (recordSample m k t) k').isSome ↔ (k' = k ∨ (lookup m k').isSome)) ∧
    (∀ k' : Key, k' ≠ k → lookup (recordSample m k t) k' = lookup m k') ∧
    (lookup m k = none →
      lookup (recordSample m k t) k
        = some { Min := t, Max := t, Sum := t, Avg := t, Count := 1 }) ∧
    (∀ w : Weather, lookup m k = some w →
      lookup (recordSample m k t) k
        = some { Min := min w.Min t, Max := max w.Max t, Sum := w.Sum + t,
                 Count := w.Count + 1,
                 Avg := (w.Sum + t) / ((w.Count + 1 : Int) : ℚ) }) := by
  refine ⟨?_, ?_, ?_, ?_⟩
  · intro k'
    rw [lookup_recordSample]
    by_cases h : k = k'
    · subst h; simp
    · have h' : ¬ k' = k := fun e => h e.symm
      simp [h, h']
  · intro k' hk
    rw [lookup_recordSample, if_neg (fun e => hk e.symm)]
  · intro hn
    rw [lookup_recordSample, if_pos rfl, hn]
    rfl
  · intro w hw
    rw [lookup_recordSample, if_pos rfl, hw]
    rfl

theorem applyLines_append (parse : List Byte → Option ℚ) :
    ∀ (xs ys : List (List Byte)) (m : Results),
      applyLines parse (xs ++ ys) m
        = match applyLines parse xs m with
          | (Except.ok _, m1) => applyLines parse ys m1
          | (Except.error e, m1) => (Except.error e, m1) := by
  intro xs
  induction xs with
  | nil => intro ys m; simp [applyLines]
  | cons l ls ih =>
    intro ys m
    rw [List.cons_append]
    cases hsl : scanLine l with
    | none =>
      rw [applyLines_cons_none parse l _ m hsl, applyLines_cons_none parse l _ m hsl, ih]
    | some kv =>
      obtain ⟨k, v⟩ := kv
      cases hpv : parse v with
      | none =>
        rw [applyLines_cons_bad parse l _ m k v hsl hpv,
          applyLines_cons_bad parse l _ m k v hsl hpv]
      | some t =>
        rw [applyLines_cons_some parse l _ m k v t hsl hpv,
          applyLines_cons_some parse l _ m k v t hsl hpv, ih]

/-- The workers run one after another on chunks cut at line boundaries act as
one scan of the lines of the chunks, taken in the order of the run; a parse
fault in a chunk ends the run there. -/
theorem runChunks_lines (parse : List Byte → Option ℚ) (lines : List (List Byte))
    (hm : ∀ l ∈ lines, Marked l) :
    ∀ (cs : List Chunk) (s : Machine), (∀ c ∈ cs, Aligned lines c) →
      ∃ log, runChunks parse (render lines) cs s
        = ((applyLines parse (chunkLines lines cs) s.results).1,
            Machine.mk (s.accesses ++ log)
              (applyLines parse (chunkLines lines cs) s.results).2) := by
  intro cs
  induction cs with
  | nil =>
    intro s _
    exact ⟨[], by simp [runChunks, chunkLines, applyLines]⟩
  | cons c cs ih =>
    intro s hal
    obtain ⟨log1, h1⟩ := processChunk_aligned parse lines c s hm (hal c (by simp))
    rw [runChunks, bind_run, h1]
    simp only [chunkLines]
    rw [applyLines_append]
    cases hfirst : applyLines parse (linesOf lines c) s.results with
    | mk r m1 =>
      cases r with
      | error e => exact ⟨log1, rfl⟩
      | ok u =>
        obtain ⟨log2, h2⟩ := ih (Machine.mk (s.accesses ++ log1) m1)
          (fun x hx => hal x (by simp [hx]))
        refine ⟨log1 ++ log2, ?_⟩
        simp only []
        rw [h2]
        simp

/-- C13: for a buffer of newline-terminated comment and `key;value` lines and a plan that
`splitChunks` returns for `n ≥ 1`, the lines of the chunks, taken chunk after chunk, are the
lines of the buffer, every chunk is scanned as the sequence of its own lines, so the updates of
the chunks in order are the updates of the whole range, and scanning the chunks one after
another ends in the same way and leaves the same map as one scan of the range `[0, L-1]`. -/
theorem chunks_in_order_as_whole (parse : List Byte → Option ℚ) (lines : List (List Byte))
    (n : Int) (sa sa' s : Machine) (chunks : List Chunk)
    (hwf : ∀ l ∈ lines, FormatLine l) (hn : 1 ≤ n)
    (h : splitChunks (render lines) n sa = (Except.ok chunks, sa')) :
    chunkLines lines chunks = lines ∧
    updates parse (chunkLines lines chunks) = updates parse lines ∧
    (∀ c ∈ chunks, ∀ st : Machine, ∃ log : List Int,
      processChunk parse (render lines) c.Start c.End st
        = ((applyLines parse (linesOf lines c) st.results).1,
            Machine.mk (st.accesses ++ log)
              (applyLines parse (linesOf lines c) st.results).2)) ∧
    ∃ (out : Except Fault Unit) (m : Results) (log1 log2 : List Int),
      runChunks parse (render lines) chunks s = (out, Machine.mk log1 m) ∧
      processChunk parse (render lines) 0 (((render lines).length : Int) - 1) s
        = (out, Machine.mk log2 m) := by
  have hnl : ∀ l ∈ lines, NL ∉ l := fun l hl => (hwf l hl).1
  have hm : ∀ l ∈ lines, Marked l := fun l hl => marked_of_format (hwf l hl)
  obtain ⟨hlen, hp, -, -⟩ := splitChunks_spec (render lines) n sa sa' chunks hn h
  have hpos : 0 < chunks.length := by omega
  have hcl := chunkLines_plan hnl hp hpos
  have hal : ∀ c ∈ chunks, Aligned lines c := fun c hc => aligned_of_mem_plan hnl hp hc
  refine ⟨hcl, by rw [hcl], ?_, ?_⟩
  · intro c hc st
    exact processChunk_aligned parse lines c st hm (hal c hc)
  · obtain ⟨log1, h1⟩ := runChunks_lines parse lines hm chunks s hal
    obtain ⟨log2, h2⟩ := processChunk_lines parse lines s hm
    rw [hcl] at h1
    exact ⟨_, _, _, _, h1, h2⟩

set_option maxRecDepth 100000 in
set_option maxHeartbeats 4000000 in
/-- Witness of C13: the buffer of 380 bytes made of the line `B;2` followed by 94 lines `A;1`
and its plan for eight workers. -/
theorem chunks_in_order_as_whole_witness :
    (∀ l ∈ ascii "B;2" :: List.replicate 94 (ascii "A;1"), FormatLine l) ∧
    chunkLines (ascii "B;2" :: List.replicate 94 (ascii "A;1"))
        [Chunk.mk 0 95, Chunk.mk 96 143, Chunk.mk 144 191, Chunk.mk 192 235,
          Chunk.mk 236 283, Chunk.mk 284 331, Chunk.mk 332 379, Chunk.mk 380 379]
      = ascii "B;2" :: List.replicate 94 (ascii "A;1") := by
  have hmem : ∀ l ∈ ascii "B;2" :: List.replicate 94 (ascii "A;1"),
      l = ascii "B;2" ∨ l = ascii "A;1" := by
    intro l hl
    rcases List.mem_cons.mp hl with h | h
    · exact Or.inl h
    · exact Or.inr (List.eq_of_mem_replicate h)
  have hwf : ∀ l ∈ ascii "B;2" :: List.replicate 94 (ascii "A;1"), FormatLine l := by
    intro l hl
    rcases hmem l hl with h | h <;> rw [h] <;> decide
  exact ⟨hwf, (chunks_in_order_as_whole parseDecimal
    (ascii "B;2" :: List.replicate 94 (ascii "A;1")) 8 (Machine.init [])
    (splitChunks (render (ascii "B;2" :: List.replicate 94 (ascii "A;1"))) 8
      (Machine.init [])).2
    (Machine.init []) _ hwf (by decide) (Prod.ext plan_eight_example rfl)).1⟩

/-- C15, counterexample to its last clause: a buffer of 80 newline bytes planned for 8 workers
has `c + (L mod n) = 10 ≤ 50`, yet the first index read is 60, inside the buffer; the run reads
60 and 70 and stops at the third probe, index 80. -/
theorem first_probe_inside_buffer :
    (2 : Int) ≤ 8 ∧
    Int.tdiv ((List.replicate 80 NL).length : Int) 8
      + Int.tmod ((List.replicate 80 NL).length : Int) 8 ≤ 50 ∧
    splitChunks (List.replicate 80 NL) 8 (Machine.init [])
      = (Except.error (Fault.indexOutOfRange 80), Machine.mk [60, 70, 80] []) ∧
    byteAt (List.replicate 80 NL) 60 = some NL ∧
    (60 : Int) < ((List.replicate 80 NL).length : Int) := by
  decide

/-- C15, amended: for `n ≥ 2` and `c = floor(L/n)`, `splitChunks` returns, having indexed the
buffer only inside `0..L-1`, exactly when `c*(n-1) + 50 < L` and some index `j ≤ c + 50` holds a
newline byte; otherwise it stops at an index expression whose index is outside the buffer.  When
`c + (L mod n) ≤ 50` the last probe `c*(n-1) + 50` is at or past the end, so the run does not
return; the first read, at `c + 50`, is at or past the end exactly when `L ≤ c + 50`, which holds
for `n = 2` under that condition and for every buffer shorter than 51 bytes, and then the run
stops at that first read. -/
theorem planner_safety_condition (buf : List Byte) (n : Int) (m : Results) (hn : 2 ≤ n) :
    ((∃ chunks s', splitChunks buf n (Machine.init m) = (Except.ok chunks, s') ∧
        InRangeLog buf s') ↔
      (Int.tdiv (buf.length : Int) n * (n - 1) + 50 < (buf.length : Int) ∧
        ∃ j : Int, j ≤ Int.tdiv (buf.length : Int) n + 50 ∧ byteAt buf j = some NL)) ∧
    (¬ (Int.tdiv (buf.length : Int) n * (n - 1) + 50 < (buf.length : Int) ∧
        ∃ j : Int, j ≤ Int.tdiv (buf.length : Int) n + 50 ∧ byteAt buf j = some NL) →
      ∃ (i : Int) (s' : Machine),
        splitChunks buf n (Machine.init m) = (Except.error (Fault.indexOutOfRange i), s') ∧
        (i < 0 ∨ (buf.length : Int) ≤ i) ∧ i ∈ s'.accesses) ∧
    (Int.tdiv (buf.length : Int) n + Int.tmod (buf.length : Int) n ≤ 50 →
      (buf.length : Int) ≤ Int.tdiv (buf.length : Int) n * (n - 1) + 50) ∧
    ((buf.length : Int) ≤ Int.tdiv (buf.length : Int) n + 50 →
      splitChunks buf n (Machine.init m)
        = (Except.error (Fault.indexOutOfRange (Int.tdiv (buf.length : Int) n + 50)),
           Machine.mk [Int.tdiv (buf.length : Int) n + 50] m)) ∧
    (n = 2 → Int.tdiv (buf.length : Int) n + Int.tmod (buf.length : Int) n ≤ 50 →
      (buf.length : Int) ≤ Int.tdiv (buf.length : Int) n + 50) ∧
    ((buf.length : Int) < 51 → (buf.length : Int) ≤ Int.tdiv (buf.length : Int) n + 50) := by
  have hc : 0 ≤ Int.tdiv (buf.length : Int) n := Int.tdiv_nonneg (by omega) (by omega)
  have hdm : n * Int.tdiv (buf.length : Int) n + Int.tmod (buf.length : Int) n
      = (buf.length : Int) := Int.tdiv_add_tmod _ _
  have hfwd : (∃ chunks s', splitChunks buf n (Machine.init m) = (Except.ok chunks, s')) →
      (Int.tdiv (buf.length : Int) n * (n - 1) + 50 < (buf.length : Int) ∧
        ∃ j : Int, j ≤ Int.tdiv (buf.length : Int) n + 50 ∧ byteAt buf j = some NL) := by
    rintro ⟨chunks, s', h⟩
    refine ⟨splitChunks_probes buf n _ _ _ (by omega) h (n - 1) (by omega) (by omega), ?_⟩
    obtain ⟨-, -, hl, -⟩ := splitChunks_spec buf n _ s' chunks (by omega) h
    have hk : 0 + 1 < n.toNat := by omega
    refine ⟨endOf chunks 0, ?_, hl.nl 0 hk⟩
    have := hl.bound 0 hk
    simpa using this
  have hbwd : (Int.tdiv (buf.length : Int) n * (n - 1) + 50 < (buf.length : Int) ∧
        ∃ j : Int, j ≤ Int.tdiv (buf.length : Int) n + 50 ∧ byteAt buf j = some NL) →
      ∃ chunks s', splitChunks buf n (Machine.init m) = (Except.ok chunks, s') := by
    rintro ⟨hp, j, hj, hb⟩
    exact splitChunks_returns buf n _ hn hp j hb hj
  refine ⟨⟨?_, ?_⟩, ?_, ?_, ?_, ?_, ?_⟩
  · rintro ⟨chunks, s', h, -⟩
    exact hfwd ⟨chunks, s', h⟩
  · intro hcond
    obtain ⟨chunks, s', h⟩ := hbwd hcond
    exact ⟨chunks, s', h, okInRange_splitChunks buf n _ _ _ (by intro a ha; cases ha) h⟩
  · intro hcond
    cases hres : splitChunks buf n (Machine.init m) with
    | mk r s' =>
      cases r with
      | ok chunks => exact absurd (hfwd ⟨chunks, s', hres⟩) hcond
      | error e =>
        obtain ⟨i, hi, hout, hmem⟩ := splitChunks_fault buf n (by omega) _ e s' hres
        exact ⟨i, s', by rw [hi], hout, hmem⟩
  · intro h
    have : Int.tdiv (buf.length : Int) n * (n - 1)
        = n * Int.tdiv (buf.length : Int) n - Int.tdiv (buf.length : Int) n := by ring
    omega
  · intro h
    have hnone : byteAt buf (Int.tdiv (buf.length : Int) n + 50) = none :=
      (byteAt_none_iff buf _).mpr (Or.inr h)
    have hn0 : ¬ (n = 0) := by omega
    have hn1 : ¬ (n < 0) := by omega
    have hlt : (1 : Int) < n := by omega
    have hfuel : n.toNat = (n.toNat - 1) + 1 := by omega
    unfold splitChunks
    simp only [hn0, hn1, if_false, bind_run]
    rw [setStart_run _ 0 0 _ (by simp; omega)]
    simp only []
    rw [hfuel, splitLoop]
    simp only [hlt, if_true, bind_run, mul_one]
    rw [scanBackward, bind_run, readByte_none hnone]
    rfl
  · intro h2 h
    subst h2
    omega
  · intro h
    omega

/-- Witness of C15: the buffer of 105 bytes planned for two workers meets the condition and the
planner returns; its only probe is index 102. -/
theorem planner_safety_condition_witness :
    (2 : Int) ≤ 2 ∧
    ((∃ chunks s',
        splitChunks (List.replicate 100 97 ++ [10, 98, 59, 49, 10]) 2 (Machine.init [])
          = (Except.ok chunks, s') ∧
        InRangeLog (List.replicate 100 97 ++ [10, 98, 59, 49, 10]) s') ↔
      (Int.tdiv ((List.replicate 100 97 ++ [10, 98, 59, 49, 10]).length : Int) 2 * (2 - 1) + 50
          < ((List.replicate 100 97 ++ [10, 98, 59, 49, 10]).length : Int) ∧
        ∃ j : Int,
          j ≤ Int.tdiv ((List.replicate 100 97 ++ [10, 98, 59, 49, 10]).length : Int) 2 + 50 ∧
          byteAt (List.replicate 100 97 ++ [10, 98, 59, 49, 10]) j = some NL)) ∧
    (Int.tdiv ((List.replicate 100 97 ++ [10, 98, 59, 49, 10]).length : Int) 2 * (2 - 1) + 50
        < ((List.replicate 100 97 ++ [10, 98, 59, 49, 10]).length : Int) ∧
      byteAt (List.replicate 100 97 ++ [10, 98, 59, 49, 10]) 100 = some NL) :=
  ⟨by decide,
    (planner_safety_condition (List.replicate 100 97 ++ [10, 98, 59, 49, 10]) 2 [] (by decide)).1,
    by decide⟩

/-- C16: on a chunk `[start, end]` with `0 ≤ start`, `end < L` and a newline byte at index `end`
(or on an empty chunk, `start = end + 1`), every index of the buffer that `processChunk`
evaluates, in the loop head, in the forward scans and in the two slices, lies in `[start, end]`
and so inside the buffer; the run returns or stops at a value that does not parse, never at an
index out of range. -/
theorem scanner_stays_in_chunk (parse : List Byte → Option ℚ) (buf : List Byte) (cs ce : Int)
    (m : Results) (h0 : 0 ≤ cs) (h1 : ce < (buf.length : Int))
    (hnl : byteAt buf ce = some NL ∨ cs = ce + 1) :
    (∀ a ∈ (processChunk parse buf cs ce (Machine.init m)).2.accesses, cs ≤ a ∧ a ≤ ce) ∧
    InRangeLog buf (processChunk parse buf cs ce (Machine.init m)).2 ∧
    ((processChunk parse buf cs ce (Machine.init m)).1 = Except.ok () ∨
      ∃ f, (processChunk parse buf cs ce (Machine.init m)).1
        = Except.error (Fault.parseFloat f)) := by
  have key : Within cs ce (processChunk parse buf cs ce (Machine.init m)).2 ∧
      ((processChunk parse buf cs ce (Machine.init m)).1 = Except.ok () ∨
        ∃ f, (processChunk parse buf cs ce (Machine.init m)).1
          = Except.error (Fault.parseFloat f)) := by
    by_cases hle : cs ≤ ce
    · have hnl' : byteAt buf ce = some NL := by
        rcases hnl with h | h
        · exact h
        · omega
      have hfuel := fuelSuffices_processChunk parse buf cs ce (Machine.init m)
      have := triple_processLoop parse buf cs ce h0 hnl' (buf.length + 1) cs cs (le_refl _)
        (le_refl _) (Machine.init m) (by intro a ha; cases ha)
      unfold processChunk at hfuel ⊢
      cases hres : processLoop parse buf ce (buf.length + 1) cs cs (Machine.init m) with
      | mk r s1 =>
        rw [hres] at this hfuel
        cases r with
        | ok u => exact ⟨this, Or.inl rfl⟩
        | error e =>
          obtain ⟨he, hw⟩ := this
          refine ⟨hw, Or.inr ?_⟩
          rcases he with he | ⟨f, hf⟩
          · exact absurd (by rw [he]) hfuel
          · exact ⟨f, by rw [hf]⟩
    · unfold processChunk
      rw [processLoop]
      simp only [hle, if_false]
      exact ⟨fun a ha => (by cases ha), Or.inl rfl⟩
  refine ⟨key.1, ?_, key.2⟩
  intro a ha
  have := key.1 a ha
  omega

/-- Witness of C16: the chunk `[2, 8]` of `"x\nA;1\n#c\nB;2\n"`, a data line and a comment; the
indices read are those of the chunk, the slices included. -/
theorem scanner_stays_in_chunk_witness :
    ((0 : Int) ≤ 2 ∧ (8 : Int) < ((ascii "x\nA;1\n#c\nB;2\n").length : Int) ∧
      byteAt (ascii "x\nA;1\n#c\nB;2\n") 8 = some NL) ∧
    (processChunk parseDecimal (ascii "x\nA;1\n#c\nB;2\n") 2 8 (Machine.init [])).2.accesses
      = [2, 2, 3, 3, 2, 4, 5, 4, 6, 6, 7, 8, 8] ∧
    ∀ a ∈ (processChunk parseDecimal (ascii "x\nA;1\n#c\nB;2\n") 2 8
        (Machine.init [])).2.accesses, (2 : Int) ≤ a ∧ a ≤ 8 :=
  ⟨by decide, by decide,
    (scanner_stays_in_chunk parseDecimal (ascii "x\nA;1\n#c\nB;2\n") 2 8 [] (by decide)
      (by decide) (Or.inl (by decide))).1⟩

/-- C17: in a chunk made of groups of lines, each group some lines without `#` and `;` followed
by a line that holds one, and closed by further lines without `#` and `;`, the scanner makes at
most one update per group and none for the closing lines; what it takes from a group is what it
would take from the last line of the group, with the key extended to the front by the lines
without `#` and `;` and their newlines, so the key runs from the byte after the newline of the
preceding group (or from the chunk start) to the first `;` of the data line. -/
theorem unmarked_line_joins_next_key (parse : List Byte → Option ℚ) (pre post : List Byte)
    (groups : List (List (List Byte) × List Byte)) (tail : List (List Byte)) (s : Machine)
    (hg : ∀ g ∈ groups, (∀ l ∈ g.1, Unmarked l) ∧ Marked g.2)
    (ht : ∀ l ∈ tail, Unmarked l) :
    (∃ log, processChunk parse (pre ++ (render (groupLines groups ++ tail) ++ post))
        pre.length (pre.length + (render (groupLines groups ++ tail)).length - 1) s
      = ((applyLines parse (groups.map unitOf) s.results).1,
          Machine.mk (s.accesses ++ log)
            (applyLines parse (groups.map unitOf) s.results).2)) ∧
    (∀ g ∈ groups, scanLine (unitOf g)
      = (scanLine g.2).map (fun kv => (render g.1 ++ kv.1, kv.2))) ∧
    (∀ (l : List Byte) (ls : List (List Byte)) (k : Key), (render (l :: ls) ++ k) ≠ k) := by
  refine ⟨?_, ?_, ?_⟩
  · have hr : render (groupLines groups ++ tail)
        = render (groups.map unitOf) ++ render tail := by
      rw [render_append, render_groupLines]
    rw [hr]
    unfold processChunk
    obtain ⟨log, hlog⟩ := processLoop_units parse
      (pre ++ (render (groups.map unitOf) ++ render tail ++ post)) post (render tail)
      (render_unmarked tail ht) (groups.map unitOf) pre
      ((pre ++ (render (groups.map unitOf) ++ render tail ++ post)).length + 1)
      pre.length
      (pre.length + (render (groups.map unitOf) ++ render tail).length - 1) s
      (by simp) rfl (by simp; omega)
      (by
        intro u hu
        obtain ⟨g, hgm, rfl⟩ := List.mem_map.mp hu
        exact ⟨render g.1, g.2, rfl, render_unmarked g.1 (hg g hgm).1, (hg g hgm).2⟩)
      (by simp; omega)
    exact ⟨log, hlog⟩
  · intro g hgm
    exact scanLine_junk (render g.1) g.2 (render_unmarked g.1 (hg g hgm).1)
  · intro l ls k h
    have := congrArg List.length h
    simp [render_cons] at this
    omega

/-- Witness of C17: the buffer `"\nA;1\n"`, an empty line and a data line, scanned as one chunk;
the only key recorded is `"\nA"`, and nothing is stored for `"A"`. -/
theorem unmarked_line_joins_next_key_witness :
    ((∀ g ∈ [(([[]] : List (List Byte)), ascii "A;1")], (∀ l ∈ g.1, Unmarked l) ∧ Marked g.2) ∧
      (∀ l ∈ ([] : List (List Byte)), Unmarked l)) ∧
    ([] ++ (render (groupLines [(([[]] : List (List Byte)), ascii "A;1")] ++ []) ++ [])
        = ascii "\nA;1\n" ∧
      (processChunk parseDecimal (ascii "\nA;1\n") 0 4 (Machine.init [])).1 = Except.ok () ∧
      (processChunk parseDecimal (ascii "\nA;1\n") 0 4 (Machine.init [])).2.results.map Prod.fst
        = [ascii "\nA"] ∧
      lookup (processChunk parseDecimal (ascii "\nA;1\n") 0 4 (Machine.init [])).2.results
        (ascii "A") = none) ∧
    ∀ g ∈ [(([[]] : List (List Byte)), ascii "A;1")], scanLine (unitOf g)
      = (scanLine g.2).map (fun kv => (render g.1 ++ kv.1, kv.2)) :=
  ⟨by decide, by decide,
    (unmarked_line_joins_next_key parseDecimal [] []
      [(([[]] : List (List Byte)), ascii "A;1")] [] (Machine.init []) (by decide)
      (by decide)).2.1⟩

/-- C18, counterexamples to the claim as stated.  The buffer `"A;x\nB;1"` ends with the line
`B;1` without newline, yet the scan of the chunk `[0, 6]` stops at the value `x` of the first
line and never reads index 7.  On the buffer `"A;1"` the chunk `[2, 2]` ends at `L - 1`, and
its scan reads index 2 only and returns. -/
theorem last_line_not_reached :
    (processChunk parseDecimal (ascii "A;x\nB;1") 0 6 (Machine.init [])
        = (Except.error (Fault.parseFloat (ascii "x")), Machine.mk [0, 0, 1, 1, 0, 2, 3, 2] []) ∧
      ((ascii "A;x\nB;1").length : Int) = 7 ∧
      (6 : Int) = ((ascii "A;x\nB;1").length : Int) - 1) ∧
    (processChunk parseDecimal (ascii "A;1") 2 2 (Machine.init [])
        = (Except.ok (), Machine.mk [2, 2] []) ∧
      (2 : Int) = ((ascii "A;1").length : Int) - 1 ∧
      (ascii "A;1").getLast? ≠ some NL ∧ SEMI ∈ ascii "A;1") := by
  decide

/-- C18, amended: on a chunk that starts at a line start and runs to `L - 1`, made of groups of
newline-terminated lines whose value fields all parse, followed by a last group whose marked
line has no newline after it, `processChunk` applies the updates of the earlier groups, then
scans forward from the `#` or from the value of the last line up to index `L`, outside the
buffer, and stops there: nothing is recorded for the last line.  So does `ProcessRows` with one
worker on such a buffer. -/
theorem unterminated_last_line_faults (parse : List Byte → Option ℚ) (pre : List Byte)
    (groups : List (List (List Byte) × List Byte)) (last : List (List Byte) × List Byte)
    (s : Machine)
    (hg : ∀ g ∈ groups, (∀ l ∈ g.1, Unmarked l) ∧ Marked g.2)
    (hl : (∀ l ∈ last.1, Unmarked l) ∧ Marked last.2)
    (hok : ∀ g ∈ groups, isData g.2 → (parse (valueOf g.2)).isSome) :
    (∃ log, processChunk parse (pre ++ (render (groupLines groups) ++ unitOf last)) pre.length
        (((pre ++ (render (groupLines groups) ++ unitOf last)).length : Int) - 1) s
      = (Except.error (Fault.indexOutOfRange
            ((pre ++ (render (groupLines groups) ++ unitOf last)).length : Int)),
          Machine.mk
            (s.accesses ++ (log ++
              [((pre ++ (render (groupLines groups) ++ unitOf last)).length : Int)]))
            (applyUpdates s.results (updates parse (groups.map unitOf))))) ∧
    (∃ log, ProcessRows parse (render (groupLines groups) ++ unitOf last) 1 s
      = (Except.error (Fault.indexOutOfRange
            ((render (groupLines groups) ++ unitOf last).length : Int)),
          Machine.mk
            (s.accesses ++ (log ++ [((render (groupLines groups) ++ unitOf last).length : Int)]))
            (applyUpdates [] (updates parse (groups.map unitOf))))) ∧
    (unitOf last).getLast? ≠ some NL := by
  have hunits : ∀ u ∈ groups.map unitOf, ∃ junk l,
      u = junk ++ l ∧ (∀ b ∈ junk, b ≠ HASH ∧ b ≠ SEMI) ∧ Marked l := by
    intro u hu
    obtain ⟨g, hgm, rfl⟩ := List.mem_map.mp hu
    exact ⟨render g.1, g.2, rfl, render_unmarked g.1 (hg g hgm).1, (hg g hgm).2⟩
  have hgood : ∀ u ∈ groups.map unitOf, ¬ BadField parse u := by
    intro u hu
    obtain ⟨g, hgm, rfl⟩ := List.mem_map.mp hu
    exact not_badField_unitOf parse g (hg g hgm).1 (not_badField_of_parses parse (hok g hgm))
  have main : ∀ (pre : List Byte) (s : Machine),
      ∃ log, processChunk parse (pre ++ (render (groupLines groups) ++ unitOf last)) pre.length
          (((pre ++ (render (groupLines groups) ++ unitOf last)).length : Int) - 1) s
        = (Except.error (Fault.indexOutOfRange
              ((pre ++ (render (groupLines groups) ++ unitOf last)).length : Int)),
            Machine.mk
              (s.accesses ++ (log ++
                [((pre ++ (render (groupLines groups) ++ unitOf last)).length : Int)]))
              (applyUpdates s.results (updates parse (groups.map unitOf)))) := by
    intro pre s
    rw [render_groupLines]
    generalize hbuf : pre ++ (render (groups.map unitOf) ++ unitOf last) = buf
    have hlenb : buf.length
        = pre.length + (render (groups.map unitOf)).length
          + ((render last.1).length + last.2.length) := by
      rw [← hbuf]; simp [unitOf]; omega
    unfold processChunk
    obtain ⟨fuel', log1, hfu, hrun⟩ := processLoop_units_then parse buf (unitOf last)
      ((buf.length : Int) - 1) (groups.map unitOf) pre (buf.length + 1) pre.length
      ((pre.length : Int) + (render (groups.map unitOf)).length) s hbuf.symm rfl rfl
      (by rw [hlenb]; push_cast; omega) hunits (by omega)
    rw [hrun, applyLines_ok parse _ _ hgood]
    simp only []
    obtain ⟨log2, hlog2⟩ := processLoop_last_unit parse buf
      (pre ++ render (groups.map unitOf)) ((buf.length : Int) - 1) (render last.1) last.2 fuel'
      ((pre.length : Int) + (render (groups.map unitOf)).length)
      (Machine.mk (s.accesses ++ log1) (applyUpdates s.results (updates parse (groups.map unitOf))))
      (by rw [← hbuf]; simp [unitOf]) (by simp) (render_unmarked last.1 hl.1) hl.2
      (by omega) (by rw [hlenb]; push_cast; omega)
    refine ⟨log1 ++ log2, ?_⟩
    rw [hlog2]
    simp
  refine ⟨main pre s, ?_, ?_⟩
  · obtain ⟨log, hlog⟩ := main [] { s with results := [] }
    simp only [List.nil_append, List.length_nil, Nat.cast_zero] at hlog
    refine ⟨log, ?_⟩
    unfold ProcessRows
    simp only [bind_run, splitChunks_one, modifyResults, runChunks]
    rw [hlog]
  · have hpos : last.2 ≠ [] := by
      intro e
      rcases hl.2.2 with h | h <;> simp [e] at h
    unfold unitOf
    rw [List.getLast?_append_of_ne_nil _ hpos]
    intro h
    exact hl.2.1 (List.mem_of_getLast?_eq_some h)

/-- Witness of C18: the buffer `"A;1\nB;2"` scanned as one chunk; the record of `A` is made, the
scan for the end of the value `2` reads index 7, one past the last byte, and no entry is made
for `B`. -/
theorem unterminated_last_line_faults_witness :
    ((∀ g ∈ [(([] : List (List Byte)), ascii "A;1")], (∀ l ∈ g.1, Unmarked l) ∧ Marked g.2) ∧
      ((∀ l ∈ (([] : List (List Byte)), ascii "B;2").1, Unmarked l) ∧
        Marked (([] : List (List Byte)), ascii "B;2").2) ∧
      (∀ g ∈ [(([] : List (List Byte)), ascii "A;1")],
        isData g.2 → (parseDecimal (valueOf g.2)).isSome)) ∧
    (render (groupLines [(([] : List (List Byte)), ascii "A;1")])
          ++ unitOf (([] : List (List Byte)), ascii "B;2") = ascii "A;1\nB;2" ∧
      (processChunk parseDecimal (ascii "A;1\nB;2") 0 6 (Machine.init [])).1
        = Except.error (Fault.indexOutOfRange 7) ∧
      (processChunk parseDecimal (ascii "A;1\nB;2") 0 6 (Machine.init [])).2.accesses
        = [0, 0, 1, 1, 0, 2, 3, 2, 4, 4, 5, 5, 4, 6, 7] ∧
      (processChunk parseDecimal (ascii "A;1\nB;2") 0 6 (Machine.init [])).2.results.map Prod.fst
        = [ascii "A"]) ∧
    ∃ log, ProcessRows parseDecimal
        (render (groupLines [(([] : List (List Byte)), ascii "A;1")])
          ++ unitOf (([] : List (List Byte)), ascii "B;2")) 1 (Machine.init [])
      = (Except.error (Fault.indexOutOfRange
            ((render (groupLines [(([] : List (List Byte)), ascii "A;1")])
              ++ unitOf (([] : List (List Byte)), ascii "B;2")).length : Int)),
          Machine.mk
            ((Machine.init []).accesses ++ (log ++
              [((render (groupLines [(([] : List (List Byte)), ascii "A;1")])
                ++ unitOf (([] : List (List Byte)), ascii "B;2")).length : Int)]))
            (applyUpdates [] (updates parseDecimal
              ([(([] : List (List Byte)), ascii "A;1")].map unitOf)))) :=
  ⟨by decide, by decide,
    (unterminated_last_line_faults parseDecimal []
      [(([] : List (List Byte)), ascii "A;1")] (([] : List (List Byte)), ascii "B;2")
      (Machine.init []) (by decide) (by decide) (by decide)).2.1⟩

/-- C11 does not hold for the code.  The buffer of the lines `A;1`, `A;2`, a comment of 92
bytes and `A;4` is cut by `splitChunks` for two workers into the chunks `[0, 100]` and
`[101, 104]`; the first worker has the updates `(A, 1)` and `(A, 2)`, the second `(A, 4)`.  The
key `A` occurs 3 times and its values add up to 7, and that is what the workers leave when they
run one after another.  Under the schedule `raceSchedule`, in which both workers load `Sum` and
`Count` of the entry before either stores them, all updates are made and the entry of `A` ends
with `Count = 2` and `Sum = 5`: the update `(A, 2)` is lost.  The loss needs the load and the
store of `w.Sum += temp` to be separate steps, as they are for goroutines that run in parallel;
were each field statement one indivisible step, no sample would be lost
(`runScheduleAtomic_exact`). -/
theorem concurrent_merge_loses_update :
    (∀ l ∈ raceLines, FormatLine l) ∧
    splitChunks (render raceLines) 2 (Machine.init [])
      = (Except.ok [Chunk.mk 0 100, Chunk.mk 101 104], Machine.mk [102, 101, 100] []) ∧
    updates parseDecimal (linesOf raceLines (Chunk.mk 0 100))
      = [(ascii "A", 1), (ascii "A", 2)] ∧
    updates parseDecimal (linesOf raceLines (Chunk.mk 101 104)) = [(ascii "A", 4)] ∧
    (∀ c ∈ [Chunk.mk 0 100, Chunk.mk 101 104], ∀ s : Machine,
      ∃ log, processChunk parseDecimal (render raceLines) c.Start c.End s
        = (Except.ok (), Machine.mk (s.accesses ++ log)
            (applyUpdates s.results (updates parseDecimal (linesOf raceLines c))))) ∧
    (dataLines (ascii "A") raceLines).length = 3 ∧
    (dataValues parseDecimal (ascii "A") raceLines).sum = 7 ∧
    (∃ (sched : List Nat) (m : Results) (ws : List Worker) (w : Weather),
      runSchedule []
          [Worker.start (updates parseDecimal (linesOf raceLines (Chunk.mk 0 100))),
            Worker.start (updates parseDecimal (linesOf raceLines (Chunk.mk 101 104)))] sched
        = (m, ws) ∧
      Finished ws ∧ lookup m (ascii "A") = some w ∧ w.Count = 3 ∧ w.Sum = 7) ∧
    ∃ (m : Results) (ws : List Worker) (w : Weather),
      runSchedule []
          [Worker.start (updates parseDecimal (linesOf raceLines (Chunk.mk 0 100))),
            Worker.start (updates parseDecimal (linesOf raceLines (Chunk.mk 101 104)))]
          raceSchedule
        = (m, ws) ∧
      Finished ws ∧ lookup m (ascii "A") = some w ∧ w.Count = 2 ∧ w.Sum = 5 := by
  have hl0 : linesOf raceLines (Chunk.mk 0 100)
      = [ascii "A;1", ascii "A;2", HASH :: List.replicate 91 120] := by decide
  have hl1 : linesOf raceLines (Chunk.mk 101 104) = [ascii "A;4"] := by decide
  have e1 : scanLine (ascii "A;1") = some (ascii "A", ascii "1") := by decide
  have e2 : scanLine (ascii "A;2") = some (ascii "A", ascii "2") := by decide
  have e3 : scanLine (HASH :: List.replicate 91 120) = none := by simp [scanLine]
  have e4 : scanLine (ascii "A;4") = some (ascii "A", ascii "4") := by decide
  have u1 : lineUpdate parseDecimal (ascii "A;1") = some (ascii "A", 1) := by
    simp [lineUpdate, e1, parseDecimal_1]
  have u2 : lineUpdate parseDecimal (ascii "A;2") = some (ascii "A", 2) := by
    simp [lineUpdate, e2, parseDecimal_2]
  have u3 : lineUpdate parseDecimal (HASH :: List.replicate 91 120) = none := by
    unfold lineUpdate; rw [e3]
  have u4 : lineUpdate parseDecimal (ascii "A;4") = some (ascii "A", 4) := by
    simp [lineUpdate, e4, parseDecimal_4]
  have hu0 : updates parseDecimal (linesOf raceLines (Chunk.mk 0 100))
      = [(ascii "A", 1), (ascii "A", 2)] := by
    rw [hl0]
    unfold updates
    rw [List.filterMap_cons_some u1, List.filterMap_cons_some u2, List.filterMap_cons_none u3,
      List.filterMap_nil]
  have hu1 : updates parseDecimal (linesOf raceLines (Chunk.mk 101 104))
      = [(ascii "A", 4)] := by
    rw [hl1]
    unfold updates
    rw [List.filterMap_cons_some u4, List.filterMap_nil]
  have hdl : dataLines (ascii "A") raceLines = [ascii "A;1", ascii "A;2", ascii "A;4"] := by
    decide
  have v1 : valueOf (ascii "A;1") = ascii "1" := by decide
  have v2 : valueOf (ascii "A;2") = ascii "2" := by decide
  have v4 : valueOf (ascii "A;4") = ascii "4" := by decide
  refine ⟨by decide, by decide, hu0, hu1, ?_, by rw [hdl]; rfl, ?_, ?_, ?_⟩
  · have hm : ∀ l ∈ raceLines, Marked l := by decide
    have hgood : ∀ l ∈ raceLines, ¬ BadField parseDecimal l := by
      have hp : ∀ l ∈ raceLines, isData l → (parseDecimal (valueOf l)).isSome := by decide
      exact fun l hl => not_badField_of_parses parseDecimal (hp l hl)
    intro c hc s
    have hal : Aligned raceLines c := by
      simp only [List.mem_cons, List.mem_singleton, List.not_mem_nil, or_false] at hc
      rcases hc with h | h
      · rw [h]; exact ⟨0, 3, by decide, by decide, by decide, by decide⟩
      · rw [h]; exact ⟨3, 4, by decide, by decide, by decide, by decide⟩
    exact processChunk_updates parseDecimal raceLines hm hgood c hal s
  · unfold dataValues
    rw [hdl]
    simp [v1, v2, v4, parseDecimal_1, parseDecimal_2, parseDecimal_4]
    norm_num
  · rw [hu0, hu1]
    obtain ⟨sched, ws, hrun, hfin⟩ := runSchedule_sequential []
      [(ascii "A", 1), (ascii "A", 2)] [(ascii "A", 4)]
    have hA : lookup (applyUpdates [] ([(ascii "A", 1), (ascii "A", 2)] ++ [(ascii "A", 4)]))
        (ascii "A") = some (((Weather.single 1).merge 2).merge 4) := by
      show lookup (recordSample (recordSample (recordSample [] (ascii "A") 1) (ascii "A") 2)
        (ascii "A") 4) (ascii "A") = _
      rw [lookup_recordSample, if_pos rfl, lookup_recordSample, if_pos rfl,
        lookup_recordSample, if_pos rfl]
      rfl
    refine ⟨sched, _, ws, _, hrun, hfin, hA, ?_, ?_⟩
    · simp [Weather.merge, Weather.single]
    · simp [Weather.merge, Weather.single]; norm_num
  · rw [hu0, hu1, runSchedule_race]
    exact ⟨_, _, _, rfl, by decide, lookup_single _ _, rfl, by norm_num⟩

/-- Witness of C14: a second sample for a key that is present; the entry becomes the merged
entry. -/
theorem recordSample_frame_witness :
    lookup [(ascii "A", Weather.single 1)] (ascii "A") = some (Weather.single 1) ∧
    lookup (recordSample [(ascii "A", Weather.single 1)] (ascii "A") 2) (ascii "A")
      = some { Min := min (Weather.single 1).Min 2, Max := max (Weather.single 1).Max 2,
               Sum := (Weather.single 1).Sum + 2, Count := (Weather.single 1).Count + 1,
               Avg := ((Weather.single 1).Sum + 2) / (((Weather.single 1).Count + 1 : Int) : ℚ) } :=
  ⟨lookup_single _ _,
    (recordSample_frame [(ascii "A", Weather.single 1)] (ascii "A") 2).2.2.2
      (Weather.single 1) (lookup_single _ _)⟩

/-! ## The invariant of the entries in `float64` -/

/-- C5, counterexamples in the `float64` arithmetic of the code.  For the buffer
`A;0.1\nA;0.1\nA;0.1\n` the three updates carry the `float64` nearest to `1/10`; the stored
`Sum` is `0.30000000000000004` and the stored `Avg` is `0.10000000000000002`, above
`Max = 0.1`, and `Avg * Count` is not `Sum`.  A sample that is not a number (the field `NaN`)
gives an entry whose `Min`, `Avg` and `Max` do not compare, and the samples `+Inf` and `-Inf`
give an entry whose `Avg` is not a number. -/
theorem avg_outside_min_max :
    (F64.div (F64.ofInt 1) (F64.ofInt 10) = F64.tenth ∧ F64.tenth.Rep ∧
      applyUpdates64 [] [(ascii "A", F64.tenth), (ascii "A", F64.tenth), (ascii "A", F64.tenth)]
        = [(ascii "A",
            { Min := F64.tenth, Max := F64.tenth,
              Avg := F64.fin false (7205759403792795 * 2 ^ 1018),
              Sum := F64.fin false (5404319552844596 * 2 ^ 1020), Count := 3 })] ∧
      ¬ (F64.fin false (7205759403792795 * 2 ^ 1018) ≤ F64.tenth) ∧
      (F64.fin false (7205759403792795 * 2 ^ 1018)).toInt * 3
        ≠ (F64.fin false (5404319552844596 * 2 ^ 1020)).toInt) ∧
    (¬ ((Weather64.single F64.nan).Min ≤ (Weather64.single F64.nan).Avg) ∧
      ¬ ((Weather64.single F64.nan).Avg ≤ (Weather64.single F64.nan).Max)) ∧
    ((Weather64.single (F64.inf false)).merge (F64.inf true)).Avg = F64.nan := by
  decide!

/-- C5, amended to the `float64` arithmetic of the code.  In every map reached from the empty
map by record updates whose samples are `float64` values, every entry has `Count ≥ 1` and its
`Avg` is the `float64` quotient of `Sum` by `float64(Count)`; when no sample is not a number,
`Min ≤ Max`.  With the stored values taken as exact numbers, `Avg = Sum / Count` and
`Min ≤ Avg ≤ Max` hold of a single-sample entry with a finite sample and are kept by every
merge of a finite sample whose `float64` sum and quotient are finite and exact.  The record
update stores the single-sample entry for an absent key and the merged entry for a present
one. -/
theorem stationStats_float64 :
    (∀ ups : List (Key × F64), (∀ u ∈ ups, u.2.Rep) →
      ∀ e ∈ applyUpdates64 [] ups, e.2.Stored) ∧
    (∀ ups : List (Key × F64), (∀ u ∈ ups, u.2 ≠ F64.nan) →
      ∀ e ∈ applyUpdates64 [] ups, e.2.Min ≤ e.2.Max) ∧
    (∀ t : F64, t.isFinite = true → (Weather64.single t).Exact) ∧
    (∀ (w : Weather64) (t : F64), w.Exact → t.isFinite = true →
      (F64.add w.Sum t).isFinite = true →
      (F64.add w.Sum t).toInt = w.Sum.toInt + t.toInt →
      (F64.div (F64.add w.Sum t) (F64.ofInt (w.Count + 1))).isFinite = true →
      (F64.div (F64.add w.Sum t) (F64.ofInt (w.Count + 1))).toInt * (w.Count + 1)
        = (F64.add w.Sum t).toInt →
      (w.merge t).Exact) ∧
    (∀ (m : Results64) (k : Key) (t : F64),
      lookup64 (recordSample64 m k t) k
        = some (match lookup64 m k with
            | none => Weather64.single t
            | some w => w.merge t)) := by
  refine ⟨?_, ?_, exact_single, exact_merge, ?_⟩
  · intro ups hups
    exact inv_applyUpdates64 Weather64.Stored F64.Rep stored_single
      (fun w t h _ => stored_merge w t h) ups [] hups (by simp)
  · intro ups hups
    exact inv_applyUpdates64 (fun w => w.Min ≤ w.Max) (fun t => t ≠ F64.nan)
      (fun t ht => leB_refl ht) (fun w t h ht => min_le_max_merge h ht) ups [] hups (by simp)
  · intro m k t
    rw [recordSample64_eq, lookup64_setEntry64, if_pos rfl]

/-- Witness of C5: the sample `2` merged into the single-sample entry of `1`; the sum `3`
and the quotient `1.5` are exact, and the merged entry has `Min = 1 ≤ Avg = 1.5 ≤ Max = 2`.
The three samples `0.1` are `float64` values, and their entry has `Avg` equal to the
`float64` quotient of its `Sum` by `3`. -/
theorem stationStats_float64_witness :
    ((Weather64.single (F64.ofInt 1)).Exact ∧ (F64.ofInt 2).isFinite = true ∧
      (F64.add (Weather64.single (F64.ofInt 1)).Sum (F64.ofInt 2)).isFinite = true ∧
      (F64.add (Weather64.single (F64.ofInt 1)).Sum (F64.ofInt 2)).toInt
        = (Weather64.single (F64.ofInt 1)).Sum.toInt + (F64.ofInt 2).toInt ∧
      (F64.div (F64.add (Weather64.single (F64.ofInt 1)).Sum (F64.ofInt 2))
        (F64.ofInt ((Weather64.single (F64.ofInt 1)).Count + 1))).isFinite = true ∧
      (F64.div (F64.add (Weather64.single (F64.ofInt 1)).Sum (F64.ofInt 2))
          (F64.ofInt ((Weather64.single (F64.ofInt 1)).Count + 1))).toInt
          * ((Weather64.single (F64.ofInt 1)).Count + 1)
        = (F64.add (Weather64.single (F64.ofInt 1)).Sum (F64.ofInt 2)).toInt) ∧
    ((Weather64.single (F64.ofInt 1)).merge (F64.ofInt 2)).Exact ∧
    (Weather64.single (F64.ofInt 1)).merge (F64.ofInt 2)
      = { Min := F64.fin false F64.scale, Max := F64.fin false (2 * F64.scale),
          Avg := F64.fin false (3 * 2 ^ 1073), Sum := F64.fin false (3 * F64.scale),
          Count := 2 } ∧
    (∀ u ∈ [(ascii "A", F64.tenth), (ascii "A", F64.tenth), (ascii "A", F64.tenth)],
      u.2.Rep) ∧
    ∀ e ∈ applyUpdates64 []
        [(ascii "A", F64.tenth), (ascii "A", F64.tenth), (ascii "A", F64.tenth)],
      e.2.Stored :=
  ⟨by decide!,
    stationStats_float64.2.2.2.1 (Weather64.single (F64.ofInt 1)) (F64.ofInt 2)
      (by decide!) (by decide!) (by decide!) (by decide!) (by decide!) (by decide!),
    by decide!, by decide!,
    stationStats_float64.1
      [(ascii "A", F64.tenth), (ascii "A", F64.tenth), (ascii "A", F64.tenth)] (by decide!)⟩

end OneBRC
